import Mathlib

/-!
# LevelDB skip list and table builder: a shallow embedding

Source files embedded here: `db/skiplist.h` (class `SkipList`, its `Node`, its
`Iterator`) and `db/builder.cc` (`BuildTable`).

Modelling conventions.

* The arena is a list of nodes; a node pointer is an index into it and
  `head_` is index `0`.  `Ptr = Option Nat`, where `none` is `nullptr`.
* A node's `next_` array is a list of slots.  A slot is `none` while the memory
  is still uninitialised and `some p` once a pointer `p` has been stored.
* Every operation returns an `Option`; the outer `none` means that the C++
  program would have left defined behaviour (failed `assert`, dereference of an
  invalid pointer, read of an uninitialised slot, index outside an array) or
  that a `while (true)` loop did not finish within the fuel it was given.
* Memory orders are not modelled: the embedding is sequential, so the
  barrier-free accessors coincide with the ordinary ones.
* `Comparator` and `Random` are template/extern parameters of the source and
  are parameters here: `compare_ : K → K → Int` and `OneIn : R → Nat → Bool × R`.
-/

namespace leveldb

/-- A node pointer: `none` is `nullptr`, `some i` points at arena slot `i`. -/
abbrev Ptr := Option Nat

/-- The struct `SkipList::Node`: an immutable key and the array `next_`, whose
length is the height of the node.  A slot holds `none` until it is first
stored to. -/
structure Node (K : Type) where
  key : K
  next_ : List (Option Ptr)

/-- The state of a `SkipList` object: the nodes allocated from the arena (the
head node is the first one), `max_height_` and the generator `rnd_`. -/
structure SkipList (K R : Type) where
  nodes : List (Node K)
  max_height_ : Nat
  rnd_ : R

/-- The enum constant `kMaxHeight`. -/
def kMaxHeight : Nat := 12

/-- The constant `kBranching` of `RandomHeight`. -/
def kBranching : Nat := 4

/-- The member `head_`: the head node is the first node of the arena. -/
def head_ : Nat := 0

namespace SkipList

variable {K R : Type}

/-- The method `GetMaxHeight`. -/
def GetMaxHeight (s : SkipList K R) : Nat := s.max_height_

/-- The method `Node::Next(n)` applied to node `x`: the pointer stored in slot
`n`.  Fails when `x` is not a node, when `n` is outside its array or when the
slot was never written. -/
def Next (s : SkipList K R) (x n : Nat) : Option Ptr :=
  match s.nodes[x]? with
  | none => none
  | some nd =>
    match nd.next_[n]? with
    | some (some p) => some p
    | _ => none

/-- The method `Node::SetNext(n, v)` applied to node `x`. -/
def SetNext (s : SkipList K R) (x n : Nat) (v : Ptr) : Option (SkipList K R) :=
  match s.nodes[x]? with
  | none => none
  | some nd =>
    if n < nd.next_.length then
      some { s with nodes := s.nodes.set x { nd with next_ := nd.next_.set n (some v) } }
    else none

/-- The method `Node::NoBarrier_Next`; the same load without ordering. -/
def NoBarrier_Next (s : SkipList K R) (x n : Nat) : Option Ptr := s.Next x n

/-- The method `Node::NoBarrier_SetNext`; the same store without ordering. -/
def NoBarrier_SetNext (s : SkipList K R) (x n : Nat) (v : Ptr) : Option (SkipList K R) :=
  s.SetNext x n v

/-- The method `NewNode(key, height)`: allocates a node with `height`
uninitialised slots at the end of the arena and returns its address. -/
def NewNode (s : SkipList K R) (key : K) (height : Nat) : Nat × SkipList K R :=
  (s.nodes.length, { s with nodes := s.nodes ++ [⟨key, List.replicate height none⟩] })

/-- The loop of `RandomHeight`: `while (height < kMaxHeight && rnd_.OneIn(kBranching)) height++`.
The generator is only consulted when `height < kMaxHeight`. -/
def RandomHeight.loop (OneIn : R → Nat → Bool × R) : Nat → Nat → R → Option (Nat × R)
  | 0, _, _ => none
  | fuel + 1, height, rnd =>
    if height < kMaxHeight then
      match OneIn rnd kBranching with
      | (true, rnd1) => RandomHeight.loop OneIn fuel (height + 1) rnd1
      | (false, rnd1) => some (height, rnd1)
    else some (height, rnd)

/-- The method `RandomHeight`, with its two final assertions.  Returns the
height and the new generator state. -/
def RandomHeight (OneIn : R → Nat → Bool × R) (rnd : R) : Option (Nat × R) :=
  match RandomHeight.loop OneIn kMaxHeight 1 rnd with
  | none => none
  | some (height, rnd1) =>
    if 0 < height ∧ height ≤ kMaxHeight then some (height, rnd1) else none

/-- The method `Equal`. -/
def Equal (compare_ : K → K → Int) (a b : K) : Bool := decide (compare_ a b = 0)

/-- The method `KeyIsAfterNode`: a null `n` is considered infinite. -/
def KeyIsAfterNode (compare_ : K → K → Int) (s : SkipList K R) (key : K) (n : Ptr) :
    Option Bool :=
  match n with
  | none => some false
  | some i =>
    match s.nodes[i]? with
    | none => none
    | some nd => some (decide (compare_ nd.key key < 0))

/-- The store `if (prev != nullptr) prev[level] = x` of `FindGreaterOrEqual`.
The array `prev` is a list whose entries are `none` until written. -/
def writePrev (prev : Option (List (Option Nat))) (level x : Nat) :
    Option (Option (List (Option Nat))) :=
  match prev with
  | none => some none
  | some p => if level < p.length then some (some (p.set level (some x))) else none

/-- The `while (true)` loop of `FindGreaterOrEqual`, from node `x` at `level`. -/
def FindGreaterOrEqual.loop (compare_ : K → K → Int) (s : SkipList K R) (key : K) :
    Nat → Nat → Nat → Option (List (Option Nat)) → Option (Ptr × Option (List (Option Nat)))
  | 0, _, _, _ => none
  | fuel + 1, x, level, prev =>
    match s.Next x level with
    | none => none
    | some next =>
      match s.KeyIsAfterNode compare_ key next, next with
      | some true, some n => FindGreaterOrEqual.loop compare_ s key fuel n level prev
      | some false, _ =>
        match writePrev prev level x with
        | none => none
        | some prev1 =>
          if level = 0 then some (next, prev1)
          else FindGreaterOrEqual.loop compare_ s key fuel x (level - 1) prev1
      | _, _ => none

/-- The fuel handed to the search loops: every iteration either moves to a
later node or drops one level. -/
def searchFuel (s : SkipList K R) (height : Nat) : Nat := s.nodes.length + height

/-- The search of `FindGreaterOrEqual` started at level `height - 1`. -/
def FindGreaterOrEqualFrom (compare_ : K → K → Int) (s : SkipList K R) (height : Nat)
    (key : K) (prev : Option (List (Option Nat))) :
    Option (Ptr × Option (List (Option Nat))) :=
  if height = 0 then none
  else FindGreaterOrEqual.loop compare_ s key (s.searchFuel height) head_ (height - 1) prev

/-- The method `FindGreaterOrEqual(key, prev)`: starts at `head_` on level
`GetMaxHeight() - 1`. -/
def FindGreaterOrEqual (compare_ : K → K → Int) (s : SkipList K R) (key : K)
    (prev : Option (List (Option Nat))) : Option (Ptr × Option (List (Option Nat))) :=
  s.FindGreaterOrEqualFrom compare_ s.GetMaxHeight key prev

/-- The assertion `x == head_ || compare_(x->key, key) < 0` of `FindLessThan`. -/
def lessThanAssert (compare_ : K → K → Int) (s : SkipList K R) (key : K) (x : Nat) :
    Option Bool :=
  if x = head_ then some true
  else
    match s.nodes[x]? with
    | none => none
    | some nd => some (decide (compare_ nd.key key < 0))

/-- The `while (true)` loop of `FindLessThan`. -/
def FindLessThan.loop (compare_ : K → K → Int) (s : SkipList K R) (key : K) :
    Nat → Nat → Nat → Option Nat
  | 0, _, _ => none
  | fuel + 1, x, level =>
    match lessThanAssert compare_ s key x with
    | some true =>
      match s.Next x level with
      | none => none
      | some none =>
        if level = 0 then some x else FindLessThan.loop compare_ s key fuel x (level - 1)
      | some (some n) =>
        match s.nodes[n]? with
        | none => none
        | some nd =>
          if compare_ nd.key key ≥ 0 then
            if level = 0 then some x else FindLessThan.loop compare_ s key fuel x (level - 1)
          else FindLessThan.loop compare_ s key fuel n level
    | _ => none

/-- The search of `FindLessThan` started at level `height - 1`. -/
def FindLessThanFrom (compare_ : K → K → Int) (s : SkipList K R) (height : Nat) (key : K) :
    Option Nat :=
  if height = 0 then none
  else FindLessThan.loop compare_ s key (s.searchFuel height) head_ (height - 1)

/-- The method `FindLessThan(key)`. -/
def FindLessThan (compare_ : K → K → Int) (s : SkipList K R) (key : K) : Option Nat :=
  s.FindLessThanFrom compare_ s.GetMaxHeight key

/-- The `while (true)` loop of `FindLast`. -/
def FindLast.loop (s : SkipList K R) : Nat → Nat → Nat → Option Nat
  | 0, _, _ => none
  | fuel + 1, x, level =>
    match s.Next x level with
    | none => none
    | some none => if level = 0 then some x else FindLast.loop s fuel x (level - 1)
    | some (some n) => FindLast.loop s fuel n level

/-- The search of `FindLast` started at level `height - 1`. -/
def FindLastFrom (s : SkipList K R) (height : Nat) : Option Nat :=
  if height = 0 then none
  else FindLast.loop s (s.searchFuel height) head_ (height - 1)

/-- The method `FindLast()`. -/
def FindLast (s : SkipList K R) : Option Nat := s.FindLastFrom s.GetMaxHeight

/-- The loop `for (i = 0; i < kMaxHeight; i++) head_->SetNext(i, nullptr)` of the
constructor; `n` iterations remain and `i` is the loop variable. -/
def initHead (s : SkipList K R) : Nat → Nat → Option (SkipList K R)
  | 0, _ => some s
  | n + 1, i =>
    match s.SetNext head_ i none with
    | none => none
    | some s1 => initHead s1 n (i + 1)

/-- The constructor `SkipList(cmp, arena)`.  The key given to the head node
(`0` in the source, "any key will do") and the seed of `rnd_` are parameters. -/
def new (headKey : K) (seed : R) : Option (SkipList K R) :=
  let s0 : SkipList K R := { nodes := [], max_height_ := 1, rnd_ := seed }
  initHead (s0.NewNode headKey kMaxHeight).2 kMaxHeight 0

/-- The loop `for (i = GetMaxHeight(); i < height; i++) prev[i] = head_` of
`Insert`; `n` iterations remain. -/
def fillPrev (prev : List (Option Nat)) : Nat → Nat → Option (List (Option Nat))
  | 0, _ => some prev
  | n + 1, i =>
    if i < prev.length then fillPrev (prev.set i (some head_)) n (i + 1) else none

/-- One iteration of the link loop of `Insert`:
`x->NoBarrier_SetNext(i, prev[i]->NoBarrier_Next(i)); prev[i]->SetNext(i, x);`. -/
def linkStep (s : SkipList K R) (x : Nat) (prev : List (Option Nat)) (i : Nat) :
    Option (SkipList K R) :=
  match prev[i]? with
  | some (some p) =>
    match s.NoBarrier_Next p i with
    | none => none
    | some nx =>
      match s.NoBarrier_SetNext x i nx with
      | none => none
      | some s1 => s1.SetNext p i (some x)
  | _ => none

/-- The loop `for (i = 0; i < height; i++)` that links the new node `x`;
`n` iterations remain. -/
def linkLoop (s : SkipList K R) (x : Nat) (prev : List (Option Nat)) :
    Nat → Nat → Option (SkipList K R)
  | 0, _ => some s
  | n + 1, i =>
    match linkStep s x prev i with
    | none => none
    | some s1 => linkLoop s1 x prev n (i + 1)

/-- The assertion `x == nullptr || !Equal(key, x->key)` of `Insert`. -/
def insertAssert (compare_ : K → K → Int) (s : SkipList K R) (key : K) (x : Ptr) :
    Option Bool :=
  match x with
  | none => some true
  | some i =>
    match s.nodes[i]? with
    | none => none
    | some nd => some (!Equal compare_ key nd.key)

/-- The method `Insert(key)`. -/
def Insert (compare_ : K → K → Int) (OneIn : R → Nat → Bool × R) (s : SkipList K R)
    (key : K) : Option (SkipList K R) :=
  match s.FindGreaterOrEqual compare_ key (some (List.replicate kMaxHeight none)) with
  | some (x, some prev) =>
    match insertAssert compare_ s key x with
    | some true =>
      match RandomHeight OneIn s.rnd_ with
      | none => none
      | some (height, rnd1) =>
        let s1 : SkipList K R := { s with rnd_ := rnd1 }
        match (if height > s1.GetMaxHeight then
            (fillPrev prev (height - s1.GetMaxHeight) s1.GetMaxHeight).map
              (fun prev1 => (prev1, { s1 with max_height_ := height }))
          else some (prev, s1)) with
        | none => none
        | some (prev1, s2) =>
          let (x1, s3) := s2.NewNode key height
          linkLoop s3 x1 prev1 height 0
    | _ => none
  | _ => none

/-- The method `Contains(key)`. -/
def Contains (compare_ : K → K → Int) (s : SkipList K R) (key : K) : Option Bool :=
  match s.FindGreaterOrEqual compare_ key none with
  | none => none
  | some (none, _) => some false
  | some (some i, _) =>
    match s.nodes[i]? with
    | none => none
    | some nd => some (Equal compare_ key nd.key)

end SkipList

/-- The class `SkipList::Iterator`: the list it iterates over and `node_`. -/
structure Iterator (K R : Type) where
  list_ : SkipList K R
  node_ : Ptr

namespace Iterator

variable {K R : Type}

/-- The constructor `Iterator(list)`. -/
def new (list : SkipList K R) : Iterator K R := { list_ := list, node_ := none }

/-- The method `Valid()`. -/
def Valid (it : Iterator K R) : Bool := it.node_ != none

/-- The method `key()`; requires `Valid()`. -/
def key (it : Iterator K R) : Option K :=
  match it.node_ with
  | none => none
  | some i =>
    match it.list_.nodes[i]? with
    | none => none
    | some nd => some nd.key

/-- The method `Next()`; requires `Valid()`. -/
def Next (it : Iterator K R) : Option (Iterator K R) :=
  match it.node_ with
  | none => none
  | some i =>
    match it.list_.Next i 0 with
    | none => none
    | some p => some { it with node_ := p }

/-- The method `Prev()`; requires `Valid()`. -/
def Prev (compare_ : K → K → Int) (it : Iterator K R) : Option (Iterator K R) :=
  match it.node_ with
  | none => none
  | some i =>
    match it.list_.nodes[i]? with
    | none => none
    | some nd =>
      match it.list_.FindLessThan compare_ nd.key with
      | none => none
      | some r => some { it with node_ := if r = head_ then none else some r }

/-- The method `Seek(target)`. -/
def Seek (compare_ : K → K → Int) (it : Iterator K R) (target : K) : Option (Iterator K R) :=
  match it.list_.FindGreaterOrEqual compare_ target none with
  | none => none
  | some (p, _) => some { it with node_ := p }

/-- The method `SeekToFirst()`. -/
def SeekToFirst (it : Iterator K R) : Option (Iterator K R) :=
  match it.list_.Next head_ 0 with
  | none => none
  | some p => some { it with node_ := p }

/-- The method `SeekToLast()`. -/
def SeekToLast (it : Iterator K R) : Option (Iterator K R) :=
  match it.list_.FindLast with
  | none => none
  | some r => some { it with node_ := if r = head_ then none else some r }

end Iterator

/-! ## Specification vocabulary for the skip list -/

namespace SkipList

variable {K R : Type}

/-- The key stored in node `i`, if `i` is a node. -/
def keyAt (s : SkipList K R) (i : Nat) : Option K := (s.nodes[i]?).map (fun nd => nd.key)

/-- The height (length of `next_`) of node `i`, if `i` is a node. -/
def heightAt (s : SkipList K R) (i : Nat) : Option Nat :=
  (s.nodes[i]?).map (fun nd => nd.next_.length)

/-- A ghost description of one stored node: its address, key and height. -/
structure Entry (K : Type) where
  idx : Nat
  key : K
  height : Nat

/-- The addresses of the entries that take part in level `l`. -/
def levelOf (l : Nat) (abs : List (Entry K)) : List Nat :=
  (abs.filter (fun e => decide (l < e.height))).map (fun e => e.idx)

/-- The chain of `next_[l]` pointers that starts after node `x` visits exactly
the nodes of `chain`, in order, and then ends in `nullptr`. -/
def Linked (s : SkipList K R) (l : Nat) : Nat → List Nat → Prop
  | x, [] => s.Next x l = some none
  | x, y :: ys => s.Next x l = some (some y) ∧ Linked s l y ys

/-- The last node of the chain `x :: chain`. -/
def lastFrom (x : Nat) : List Nat → Nat
  | [] => x
  | y :: ys => lastFrom y ys

/-- What the code needs of its `Comparator`: the sign of `compare_` is a strict
weak order (`< 0` is asymmetric and transitive, `= 0` is compatible with it). -/
structure LawfulComparator (compare_ : K → K → Int) : Prop where
  symm : ∀ a b, compare_ a b < 0 ↔ 0 < compare_ b a
  trans : ∀ a b c, compare_ a b < 0 → compare_ b c < 0 → compare_ a c < 0
  lt_of_lt_of_eq : ∀ a b c, compare_ a b < 0 → compare_ b c = 0 → compare_ a c < 0

/-- The representation invariant: state `s` stores exactly the entries `abs`,
listed in the order of the chain on level `0`.  Level `l` links the entries
of height above `l`. -/
structure Rep (compare_ : K → K → Int) (s : SkipList K R) (abs : List (Entry K)) : Prop where
  head : s.heightAt head_ = some kMaxHeight
  size : s.nodes.length = abs.length + 1
  mh_pos : 1 ≤ s.max_height_
  mh_le : s.max_height_ ≤ kMaxHeight
  node : ∀ e ∈ abs, 0 < e.idx ∧ 1 ≤ e.height ∧ e.height ≤ s.max_height_ ∧
    s.keyAt e.idx = some e.key ∧ s.heightAt e.idx = some e.height
  nodup : (abs.map (fun e => e.idx)).Nodup
  sorted : abs.Pairwise (fun a b => compare_ a.key b.key < 0)
  linked : ∀ l, l < kMaxHeight → Linked s l head_ (levelOf l abs)

/-- The outcomes of `n` successive calls `rnd_.OneIn(kBranching)`. -/
def draws (OneIn : R → Nat → Bool × R) : Nat → R → List Bool
  | 0, _ => []
  | n + 1, r => (OneIn r kBranching).1 :: draws OneIn n (OneIn r kBranching).2

/-- The generator state after `n` successive calls `rnd_.OneIn(kBranching)`. -/
def afterDraws (OneIn : R → Nat → Bool × R) : Nat → R → R
  | 0, r => r
  | n + 1, r => afterDraws OneIn n (OneIn r kBranching).2

/-- Two states that differ at most in the pointers stored in `next_` slots. -/
structure SameShape (s s0 : SkipList K R) : Prop where
  key : ∀ y, s.keyAt y = s0.keyAt y
  height : ∀ y, s.heightAt y = s0.heightAt y
  size : s.nodes.length = s0.nodes.length
  mh : s.max_height_ = s0.max_height_
  rnd : s.rnd_ = s0.rnd_

/-- Successive calls `Insert(k)` for the keys of a list, in order. -/
def insertAll (compare_ : K → K → Int) (OneIn : R → Nat → Bool × R) (s : SkipList K R) :
    List K → Option (SkipList K R)
  | [] => some s
  | k :: ks =>
    match Insert compare_ OneIn s k with
    | none => none
    | some s1 => insertAll compare_ OneIn s1 ks

/-- A skip list built by constructing an empty list and inserting `keys`. -/
def build (compare_ : K → K → Int) (OneIn : R → Nat → Bool × R) (headKey : K) (seed : R)
    (keys : List K) : Option (SkipList K R) :=
  match SkipList.new headKey seed with
  | none => none
  | some s => insertAll compare_ OneIn s keys

/-- The state in which the constructor leaves the object. -/
def emptyList (headKey : K) (seed : R) : SkipList K R :=
  { nodes := [⟨headKey, List.replicate kMaxHeight (some none)⟩], max_height_ := 1, rnd_ := seed }

/-- An integer comparator in the style of the source: the sign of `a - b`. -/
def intCompare (a b : Int) : Int := a - b

/-- A generator that replays a fixed list of `OneIn` outcomes. -/
def listOneIn (r : List Bool) (_ : Nat) : Bool × List Bool := (r.headD false, r.tail)

/-- The client loop `for (; it.Valid(); it.Next()) visit(it.key())`, run for at
most `fuel` tests of `Valid()`: the keys visited, and the iterator on exit. -/
def collect : Nat → Iterator K R → Option (List K × Iterator K R)
  | 0, _ => none
  | fuel + 1, it =>
    if it.Valid then
      match it.key, it.Next with
      | some k, some it1 =>
        match collect fuel it1 with
        | none => none
        | some (ks, out) => some (k :: ks, out)
      | _, _ => none
    else some ([], it)

/-- The forward traversal: `SeekToFirst()` followed by the loop over `Next()`. -/
def forwardScan (s : SkipList K R) (fuel : Nat) : Option (List K × Iterator K R) :=
  match (Iterator.new s).SeekToFirst with
  | none => none
  | some it => collect fuel it

/-- The keys stored in the list: the keys of all nodes other than the head. -/
def storedKeys (s : SkipList K R) : List K := s.nodes.tail.map (fun nd => nd.key)

/-- A well-formed skip list: the state represents some sorted sequence of nodes. -/
def WellFormed (compare_ : K → K → Int) (s : SkipList K R) : Prop :=
  ∃ abs : List (Entry K), Rep compare_ s abs

/-- The list obtained from the keys `5, 1, 3, 9` inserted in this order with
heights `2, 1, 3, 1`. -/
def exampleList : SkipList Int (List Bool) :=
  { nodes := [
      ⟨0, [some (some 2), some (some 3), some (some 3), some none, some none, some none,
        some none, some none, some none, some none, some none, some none]⟩,
      ⟨5, [some (some 4), some none]⟩,
      ⟨1, [some (some 3)]⟩,
      ⟨3, [some (some 1), some (some 1), some none]⟩,
      ⟨9, [some none]⟩],
    max_height_ := 3, rnd_ := [] }

/-- The heights of the inserted nodes, in order of allocation. -/
def nodeHeights (s : SkipList K R) : List Nat := s.nodes.tail.map (fun nd => nd.next_.length)

/-- The keys of the nodes of `chain` are strictly increasing under the comparator. -/
def ChainSorted (compare_ : K → K → Int) (s : SkipList K R) (chain : List Nat) : Prop :=
  chain.Pairwise (fun i j => ∃ a b, s.keyAt i = some a ∧ s.keyAt j = some b ∧ compare_ a b < 0)

/-- The structural invariant of the skip list, stated on the pointers: on each
level `l < kMaxHeight` the chain from `head_` is a finite list of nodes ending in
`nullptr`, does not visit the head or any node twice, and has strictly
increasing keys; the chain of level `l` is a subsequence of that of level
`l - 1`; a node of height `h` is on the chain of level `l` exactly when `l < h`;
and the levels from `max_height_` up are empty. -/
def Structural (compare_ : K → K → Int) (s : SkipList K R) : Prop :=
  ∃ chains : Nat → List Nat,
    (∀ l, l < kMaxHeight → Linked s l head_ (chains l) ∧ ChainSorted compare_ s (chains l) ∧
      (chains l).Nodup ∧ head_ ∉ chains l) ∧
    (∀ l, 1 ≤ l → l < kMaxHeight → (chains l).Sublist (chains (l - 1))) ∧
    (∀ i l, 0 < i → i < s.nodes.length → l < kMaxHeight →
      (i ∈ chains l ↔ ∃ h, s.heightAt i = some h ∧ l < h)) ∧
    (∀ l, s.max_height_ ≤ l → l < kMaxHeight → chains l = [])

/-- The list `s` with the key field of the head node replaced by `k`. -/
def withHeadKey (s : SkipList K R) (k : K) : SkipList K R :=
  match s.nodes with
  | [] => s
  | hd :: tl => { s with nodes := { hd with key := k } :: tl }

/-- The client loop `for (; it.Valid(); it.Prev()) visit(it.key())`, run for at
most `fuel` tests of `Valid()`: the keys visited, and the iterator on exit. -/
def collectBack (compare_ : K → K → Int) : Nat → Iterator K R → Option (List K × Iterator K R)
  | 0, _ => none
  | fuel + 1, it =>
    if it.Valid then
      match it.key, it.Prev compare_ with
      | some k, some it1 =>
        match collectBack compare_ fuel it1 with
        | none => none
        | some (ks, out) => some (k :: ks, out)
      | _, _ => none
    else some ([], it)

/-- The backward traversal: `SeekToLast()` followed by the loop over `Prev()`. -/
def backwardScan (compare_ : K → K → Int) (s : SkipList K R) (fuel : Nat) :
    Option (List K × Iterator K R) :=
  match (Iterator.new s).SeekToLast with
  | none => none
  | some it => collectBack compare_ fuel it

/-- The part of `Insert(key)` that precedes the link loop: the search that fills
`prev`, the assertion, the draw of the height, the entries of `prev` set to
`head_`, the store to `max_height_` and the allocation of the new node.  Returns
the state at the entry of the link loop, the new node `x`, `prev` and `height`. -/
def insertPrepare (compare_ : K → K → Int) (OneIn : R → Nat → Bool × R) (s : SkipList K R)
    (key : K) : Option (SkipList K R × Nat × List (Option Nat) × Nat) :=
  match s.FindGreaterOrEqual compare_ key (some (List.replicate kMaxHeight none)) with
  | some (x, some prev) =>
    match insertAssert compare_ s key x with
    | some true =>
      match RandomHeight OneIn s.rnd_ with
      | none => none
      | some (height, rnd1) =>
        let s1 : SkipList K R := { s with rnd_ := rnd1 }
        match (if height > s1.GetMaxHeight then
            (fillPrev prev (height - s1.GetMaxHeight) s1.GetMaxHeight).map
              (fun prev1 => (prev1, { s1 with max_height_ := height }))
          else some (prev, s1)) with
        | none => none
        | some (prev1, s2) =>
          let (x1, s3) := s2.NewNode key height
          some (s3, x1, prev1, height)
    | _ => none
  | _ => none

/-- The link loop of `Insert` as a sequence of single pointer stores: the states
after each store, two per level, in order; `n` iterations remain. -/
def linkTrace (s : SkipList K R) (x : Nat) (prev : List (Option Nat)) :
    Nat → Nat → Option (List (SkipList K R))
  | 0, _ => some []
  | n + 1, i =>
    match prev[i]? with
    | some (some p) =>
      match s.NoBarrier_Next p i with
      | none => none
      | some nx =>
        match s.NoBarrier_SetNext x i nx with
        | none => none
        | some s1 =>
          match s1.SetNext p i (some x) with
          | none => none
          | some s2 =>
            match linkTrace s2 x prev n (i + 1) with
            | none => none
            | some rest => some (s1 :: s2 :: rest)
    | _ => none

/-- The pointer read from slot `l` of node `y` after the first `c` stores of the
link loop, given the state `s3` at its entry, the new node `x` of height `h`,
and for each level the node `pred l` after which `x` goes and its old
successor `succ l`. -/
def nextAfter (s3 : SkipList K R) (x h : Nat) (pred : Nat → Nat) (succ : Nat → Ptr)
    (c y l : Nat) : Option Ptr :=
  if y = x then (if l < h ∧ 2 * l + 1 ≤ c then some (succ l) else s3.Next y l)
  else if l < h ∧ y = pred l ∧ 2 * l + 2 ≤ c then some (some x)
  else s3.Next y l

/-- What the searches need of a state: it represents the sorted entries `abs`,
level `l` linking those of height above `l`.  Unlike `Rep` it does not relate
the heights of `abs` to the sizes of the `next_` arrays, and the arena may hold
nodes that are not linked. -/
structure SearchRep (compare_ : K → K → Int) (s : SkipList K R) (abs : List (Entry K)) :
    Prop where
  mh_pos : 1 ≤ s.max_height_
  mh_le : s.max_height_ ≤ kMaxHeight
  size : abs.length < s.nodes.length
  node : ∀ e ∈ abs, 1 ≤ e.height ∧ s.keyAt e.idx = some e.key
  sorted : abs.Pairwise (fun a b => compare_ a.key b.key < 0)
  linked : ∀ l, l < kMaxHeight → Linked s l head_ (levelOf l abs)

end SkipList

/-! ## `BuildTable` (db/builder.cc)

The collaborators of `BuildTable` (`Env`, `WritableFile`, `TableBuilder`,
`TableCache`, the input `Iterator`, `FileMetaData`, `InternalKey`,
`TableFileName`, `Status`) are declared outside the translated sources.  They
are represented by the answers they give: the statuses and the file size they
return are fields of `Collaborators`, the calls made on them are recorded in a
trace of `Event`s, and `TableFileName` and `InternalKey::DecodeFrom` are
parameters. -/

/-- A byte string, as carried by `Slice`. -/
abbrev Slice := List UInt8

/-- The result type `Status`: success, or one of the error kinds with a message. -/
inductive Status where
  | OK
  | NotFound (msg : String)
  | Corruption (msg : String)
  | NotSupported (msg : String)
  | InvalidArgument (msg : String)
  | IOError (msg : String)
  deriving DecidableEq

/-- The method `Status::ok()`. -/
def Status.ok : Status → Bool
  | Status.OK => true
  | _ => false

/-- The fields of `FileMetaData` that `BuildTable` reads or writes. -/
structure FileMetaData (IK : Type) where
  number : Nat
  file_size : Nat
  smallest : IK
  largest : IK

/-- The input iterator: the entries it yields from `SeekToFirst()` on, and the
value of `status()` once it has been drained. -/
structure InputIter where
  entries : List (Slice × Slice)
  status : Status

/-- The answers of the environment, the table builder and the table cache. -/
structure Collaborators where
  newWritableFile : Status
  finish : Status
  fileSize : Nat
  sync : Status
  close : Status
  verify : Nat → Nat → Status

/-- The calls `BuildTable` makes on its collaborators. -/
inductive Event where
  | NewWritableFile (fname : String)
  | NewTableBuilder
  | Add (key value : Slice)
  | Finish
  | Sync
  | Close
  | NewIterator (number file_size : Nat)
  | RemoveFile (fname : String)
  deriving DecidableEq

/-- What a call of `BuildTable` leaves behind: the returned status, `*meta`
and the calls made, oldest first. -/
structure BuildResult (IK : Type) where
  status : Status
  fileMeta : FileMetaData IK
  trace : List Event

/-- The loop `for (; iter->Valid(); iter->Next()) { key = iter->key();
builder->Add(key, iter->value()); }`: the final value of `key` and the trace. -/
def addLoop : List (Slice × Slice) → Slice → List Event → Slice × List Event
  | [], key, tr => (key, tr)
  | (k, v) :: rest, _, tr => addLoop rest k (tr ++ [Event.Add k v])

/-- The end of `BuildTable`, from the check of the input iterator on. -/
def buildTail {IK : Type} (fname : String) (iter : InputIter) (s : Status)
    (fm : FileMetaData IK) (tr : List Event) : BuildResult IK :=
  let s1 := if !iter.status.ok then iter.status else s
  if s1.ok && decide (fm.file_size > 0) then ⟨s1, fm, tr⟩
  else ⟨s1, fm, tr ++ [Event.RemoveFile fname]⟩

/-- The function `BuildTable(dbname, env, options, table_cache, iter, meta)`.
The result is `none` when `assert(meta->file_size > 0)` fails. -/
def BuildTable {IK : Type} (TableFileName : String → Nat → String) (DecodeFrom : Slice → IK)
    (dbname : String) (env : Collaborators) (iter : InputIter) (fm : FileMetaData IK) :
    Option (BuildResult IK) :=
  let fm0 : FileMetaData IK := { fm with file_size := 0 }
  let fname := TableFileName dbname fm0.number
  match iter.entries with
  | [] => some (buildTail fname iter Status.OK fm0 [])
  | (k0, v0) :: rest =>
    let tr0 := [Event.NewWritableFile fname]
    if !env.newWritableFile.ok then some ⟨env.newWritableFile, fm0, tr0⟩
    else
      let tr1 := tr0 ++ [Event.NewTableBuilder]
      let fm1 : FileMetaData IK := { fm0 with smallest := DecodeFrom k0 }
      let (key, tr2) := addLoop ((k0, v0) :: rest) [] tr1
      let fm2 : FileMetaData IK :=
        if !key.isEmpty then { fm1 with largest := DecodeFrom key } else fm1
      let s3 := env.finish
      let tr3 := tr2 ++ [Event.Finish]
      match (if s3.ok then
          (if env.fileSize > 0 then some ({ fm2 with file_size := env.fileSize } :
            FileMetaData IK) else none)
        else some fm2) with
      | none => none
      | some fm3 =>
        let (s4, tr4) := if s3.ok then (env.sync, tr3 ++ [Event.Sync]) else (s3, tr3)
        let (s5, tr5) := if s4.ok then (env.close, tr4 ++ [Event.Close]) else (s4, tr4)
        let (s6, tr6) :=
          if s5.ok then
            (env.verify fm3.number fm3.file_size,
              tr5 ++ [Event.NewIterator fm3.number fm3.file_size])
          else (s5, tr5)
        some (buildTail fname iter s6 fm3 tr6)

/-- The `Add` calls of a trace, in order. -/
def addedEntries : List Event → List (Slice × Slice)
  | [] => []
  | Event.Add k v :: rest => (k, v) :: addedEntries rest
  | _ :: rest => addedEntries rest

/-- A file name scheme used in examples. -/
def exampleFileName (dbname : String) (number : Nat) : String :=
  dbname ++ "/" ++ toString number ++ ".ldb"

/-- Collaborators whose every step succeeds, producing a file of 100 bytes. -/
def allSucceed : Collaborators :=
  { newWritableFile := Status.OK, finish := Status.OK, fileSize := 100, sync := Status.OK,
    close := Status.OK, verify := fun _ _ => Status.OK }

/-- Collaborators for which `NewWritableFile` fails. -/
def cannotCreate : Collaborators :=
  { allSucceed with newWritableFile := Status.IOError "cannot create file" }

/-- Collaborators for which `Sync` fails. -/
def cannotSync : Collaborators :=
  { allSucceed with sync := Status.IOError "sync failed" }

/-- The calls of a trace that belong to the sequence `Finish`, `Sync`, `Close`,
`NewIterator`, in order. -/
def finishSteps : List Event → List Event
  | [] => []
  | Event.Finish :: rest => Event.Finish :: finishSteps rest
  | Event.Sync :: rest => Event.Sync :: finishSteps rest
  | Event.Close :: rest => Event.Close :: finishSteps rest
  | Event.NewIterator n f :: rest => Event.NewIterator n f :: finishSteps rest
  | _ :: rest => finishSteps rest

/-- Collaborators for which the verification of the new table fails. -/
def cannotVerify : Collaborators :=
  { allSucceed with verify := fun _ _ => Status.Corruption "bad table" }

/-! ## Properties of the skip list -/

namespace SkipList

variable {K R : Type}

theorem Next_SetNext {s s1 : SkipList K R} {x n : Nat} {v : Ptr}
    (h : s.SetNext x n v = some s1) (y m : Nat) :
    s1.Next y m = if y = x ∧ m = n then some v else s.Next y m := by
  unfold SetNext at h
  cases hx : s.nodes[x]? with
  | none => simp [hx] at h
  | some nd =>
    simp only [hx] at h
    split at h
    · rename_i hn
      simp only [Option.some.injEq] at h
      subst h
      have hxl : x < s.nodes.length := by
        rcases List.getElem?_eq_some_iff.mp hx with ⟨h1, _⟩
        exact h1
      unfold Next
      by_cases hy : y = x
      · subst hy
        simp only [List.getElem?_set, hxl, if_true, true_and]
        by_cases hm : m = n
        · subst hm
          simp [hn]
        · have : ¬ n = m := fun h => hm h.symm
          simp [hm, this, hx]
      · have : ¬ x = y := fun h => hy h.symm
        simp [List.getElem?_set, this, hy]
    · simp at h

theorem keyAt_SetNext {s s1 : SkipList K R} {x n : Nat} {v : Ptr}
    (h : s.SetNext x n v = some s1) (y : Nat) : s1.keyAt y = s.keyAt y := by
  unfold SetNext at h
  cases hx : s.nodes[x]? with
  | none => simp [hx] at h
  | some nd =>
    simp only [hx] at h
    split at h
    · simp only [Option.some.injEq] at h
      subst h
      have hxl : x < s.nodes.length := (List.getElem?_eq_some_iff.mp hx).1
      unfold keyAt
      by_cases hy : x = y
      · subst hy
        simp [List.getElem?_set, hxl, hx]
      · simp [List.getElem?_set, hy]
    · simp at h

theorem heightAt_SetNext {s s1 : SkipList K R} {x n : Nat} {v : Ptr}
    (h : s.SetNext x n v = some s1) (y : Nat) : s1.heightAt y = s.heightAt y := by
  unfold SetNext at h
  cases hx : s.nodes[x]? with
  | none => simp [hx] at h
  | some nd =>
    simp only [hx] at h
    split at h
    · simp only [Option.some.injEq] at h
      subst h
      have hxl : x < s.nodes.length := (List.getElem?_eq_some_iff.mp hx).1
      unfold heightAt
      by_cases hy : x = y
      · subst hy
        simp [List.getElem?_set, hxl, hx]
      · simp [List.getElem?_set, hy]
    · simp at h

theorem SetNext_fields {s s1 : SkipList K R} {x n : Nat} {v : Ptr}
    (h : s.SetNext x n v = some s1) :
    s1.nodes.length = s.nodes.length ∧ s1.max_height_ = s.max_height_ ∧ s1.rnd_ = s.rnd_ := by
  unfold SetNext at h
  cases hx : s.nodes[x]? with
  | none => simp [hx] at h
  | some nd =>
    simp only [hx] at h
    split at h
    · simp only [Option.some.injEq] at h
      subst h
      simp
    · simp at h

theorem SetNext_isSome {s : SkipList K R} {x n h : Nat} (hx : s.heightAt x = some h)
    (hn : n < h) (v : Ptr) : ∃ s1, s.SetNext x n v = some s1 := by
  unfold heightAt at hx
  unfold SetNext
  cases hnd : s.nodes[x]? with
  | none => simp [hnd] at hx
  | some nd =>
    simp only [hnd, Option.map_some', Option.some.injEq] at hx
    simp [hx, hn]

theorem levelOf_nil (l : Nat) : levelOf l ([] : List (Entry K)) = [] := rfl

theorem levelOf_append (l : Nat) (a b : List (Entry K)) :
    levelOf l (a ++ b) = levelOf l a ++ levelOf l b := by
  simp [levelOf]

theorem levelOf_cons_pos {l : Nat} {e : Entry K} (h : l < e.height) (b : List (Entry K)) :
    levelOf l (e :: b) = e.idx :: levelOf l b := by
  simp [levelOf, h]

theorem levelOf_cons_neg {l : Nat} {e : Entry K} (h : ¬ l < e.height) (b : List (Entry K)) :
    levelOf l (e :: b) = levelOf l b := by
  simp [levelOf, h]

theorem mem_levelOf {l i : Nat} {abs : List (Entry K)} :
    i ∈ levelOf l abs ↔ ∃ e ∈ abs, l < e.height ∧ e.idx = i := by
  simp [levelOf, and_assoc]

theorem levelOf_zero {abs : List (Entry K)} (h : ∀ e ∈ abs, 1 ≤ e.height) :
    levelOf 0 abs = abs.map (fun e => e.idx) := by
  unfold levelOf
  rw [List.filter_eq_self.mpr]
  intro e he
  simpa using h e he

theorem levelOf_eq_nil {l : Nat} {abs : List (Entry K)} (h : ∀ e ∈ abs, e.height ≤ l) :
    levelOf l abs = [] := by
  unfold levelOf
  rw [List.filter_eq_nil_iff.mpr]
  · rfl
  · intro e he
    have := h e he
    simp only [decide_eq_true_eq]
    omega

theorem levelOf_split (l : Nat) (abs : List (Entry K)) :
    levelOf l abs = [] ∨
      ∃ a n b, abs = a ++ n :: b ∧ levelOf l a = [] ∧ l < n.height := by
  induction abs with
  | nil => exact Or.inl rfl
  | cons e t ih =>
    by_cases he : l < e.height
    · exact Or.inr ⟨[], e, t, rfl, rfl, he⟩
    · rcases ih with h | ⟨a, n, b, hab, ha, hn⟩
      · left
        rw [levelOf_cons_neg he, h]
      · right
        refine ⟨e :: a, n, b, by rw [hab]; rfl, ?_, hn⟩
        rw [levelOf_cons_neg he, ha]

theorem levelOf_sublist (l : Nat) (abs : List (Entry K)) :
    (levelOf l abs).Sublist (abs.map (fun e => e.idx)) := by
  unfold levelOf
  exact List.Sublist.map _ (List.filter_sublist abs)

theorem lastFrom_append_cons (x y : Nat) (a b : List Nat) :
    lastFrom x (a ++ y :: b) = lastFrom y b := by
  induction a generalizing x with
  | nil => rfl
  | cons q a ih => exact ih q

theorem lastFrom_mem (x : Nat) (a : List Nat) : lastFrom x a ∈ x :: a := by
  induction a generalizing x with
  | nil => simp [lastFrom]
  | cons q a ih => exact List.mem_cons_of_mem _ (ih q)

theorem lastFrom_map_ne_nil {α : Type} (f : α → Nat) (x : Nat) {a : List α} (h : a ≠ []) :
    ∃ e ∈ a, lastFrom x (a.map f) = f e := by
  induction a generalizing x with
  | nil => exact absurd rfl h
  | cons q a ih =>
    cases a with
    | nil => exact ⟨q, by simp, rfl⟩
    | cons r a =>
      obtain ⟨e, he, h2⟩ := ih (f q) (by simp)
      exact ⟨e, List.mem_cons_of_mem _ he, h2⟩

theorem Linked.next {s : SkipList K R} {l x : Nat} {chain : List Nat}
    (h : Linked s l x chain) : s.Next x l = some chain.head? := by
  cases chain with
  | nil => exact h
  | cons y ys => exact h.1

theorem Linked.drop {s : SkipList K R} {l : Nat} :
    ∀ {a : List Nat} {x y : Nat} {b : List Nat}, Linked s l x (a ++ y :: b) → Linked s l y b := by
  intro a
  induction a with
  | nil => intro x y b h; exact h.2
  | cons q a ih => intro x y b h; exact ih h.2

theorem Linked.next_lastFrom {s : SkipList K R} {l : Nat} :
    ∀ {a : List Nat} {x : Nat} {b : List Nat},
      Linked s l x (a ++ b) → s.Next (lastFrom x a) l = some b.head? := by
  intro a
  induction a with
  | nil => intro x b h; exact Linked.next h
  | cons q a ih => intro x b h; exact ih (x := q) h.2

theorem Linked.frame {s s1 : SkipList K R} {l : Nat} :
    ∀ {chain : List Nat} {x : Nat}, (∀ y ∈ x :: chain, s1.Next y l = s.Next y l) →
      Linked s l x chain → Linked s1 l x chain := by
  intro chain
  induction chain with
  | nil =>
    intro x hf h
    show s1.Next x l = some none
    rw [hf x (List.mem_cons_self _ _)]
    exact h
  | cons y ys ih =>
    intro x hf h
    refine ⟨?_, ih (fun z hz => hf z (List.mem_cons_of_mem _ hz)) h.2⟩
    rw [hf x (List.mem_cons_self _ _)]
    exact h.1

theorem Linked.insert {s s1 : SkipList K R} {l n : Nat} {b : List Nat} :
    ∀ {a : List Nat} {x : Nat}, Linked s l x (a ++ b) → (x :: (a ++ b)).Nodup →
      s1.Next (lastFrom x a) l = some (some n) → s1.Next n l = some b.head? →
      (∀ y ∈ x :: (a ++ b), y ≠ lastFrom x a → s1.Next y l = s.Next y l) →
      Linked s1 l x (a ++ n :: b) := by
  intro a
  induction a with
  | nil =>
    intro x h hnd hp hn hf
    refine ⟨hp, ?_⟩
    cases b with
    | nil => exact hn
    | cons y ys =>
      refine ⟨hn, ?_⟩
      apply Linked.frame _ h.2
      intro z hz
      apply hf z (List.mem_cons_of_mem _ hz)
      rintro rfl
      exact (List.nodup_cons.mp hnd).1 hz
  | cons q a ih =>
    intro x h hnd hp hn hf
    have hnd2 : (q :: (a ++ b)).Nodup := (List.nodup_cons.mp hnd).2
    have hmem : lastFrom q a ∈ q :: (a ++ b) := by
      have := lastFrom_mem q a
      simp only [List.mem_cons, List.mem_append] at this ⊢
      rcases this with h | h
      · exact Or.inl h
      · exact Or.inr (Or.inl h)
    have hx : x ≠ lastFrom q a := by
      rintro rfl
      exact (List.nodup_cons.mp hnd).1 hmem
    refine ⟨?_, ?_⟩
    · rw [hf x (List.mem_cons_self _ _) hx]
      exact h.1
    · exact ih h.2 hnd2 hp hn (fun y hy hne => hf y (List.mem_cons_of_mem _ hy) hne)

theorem KeyIsAfterNode_some {compare_ : K → K → Int} {s : SkipList K R} {i : Nat} {k : K}
    (h : s.keyAt i = some k) (key : K) :
    s.KeyIsAfterNode compare_ key (some i) = some (decide (compare_ k key < 0)) := by
  unfold keyAt at h
  unfold KeyIsAfterNode
  cases hnd : s.nodes[i]? with
  | none => simp [hnd] at h
  | some nd =>
    simp only [hnd, Option.map_some', Option.some.injEq] at h
    simp [hnd, h]

theorem FindGreaterOrEqual_loop_spec {compare_ : K → K → Int} {s : SkipList K R} {key : K} :
    ∀ (fuel x level : Nat) (pre suf : List (Entry K)) (prev : Option (List (Option Nat))),
      (∀ e ∈ pre ++ suf, 1 ≤ e.height ∧ s.keyAt e.idx = some e.key) →
      (∀ l, l ≤ level → Linked s l x (levelOf l (pre ++ suf))) →
      (∀ e ∈ pre, compare_ e.key key < 0) →
      (∀ e ∈ suf, ¬ compare_ e.key key < 0) →
      (∀ p, prev = some p → level < p.length) →
      pre.length + level < fuel →
      ∃ prev1, FindGreaterOrEqual.loop compare_ s key fuel x level prev =
          some (suf.head?.map (fun e => e.idx), prev1) ∧
        (prev = none → prev1 = none) ∧
        (∀ p, prev = some p → ∃ p1, prev1 = some p1 ∧ p1.length = p.length ∧
          (∀ l, l ≤ level → p1[l]? = some (some (lastFrom x (levelOf l pre)))) ∧
          (∀ l, level < l → p1[l]? = p[l]?)) := by
  intro fuel
  induction fuel with
  | zero => intro x level pre suf prev _ _ _ _ _ hf; omega
  | succ fuel ih =>
    intro x level pre suf prev hnode hlink hpre hsuf hprev hfuel
    rcases levelOf_split level pre with hnil | ⟨a, n, b, hab, ha, hn⟩
    · -- nothing of `pre` is left on this level: drop down or return
      have hnext : s.Next x level = some (levelOf level suf).head? := by
        have := (hlink level le_rfl).next
        rwa [levelOf_append, hnil, List.nil_append] at this
      have hafter : s.KeyIsAfterNode compare_ key (levelOf level suf).head? = some false := by
        cases hs : levelOf level suf with
        | nil => rfl
        | cons m ms =>
          have hm : m ∈ levelOf level suf := by rw [hs]; exact List.mem_cons_self _ _
          obtain ⟨e, he, _, rfl⟩ := mem_levelOf.mp hm
          have hk := (hnode e (List.mem_append_right _ he)).2
          simp only [List.head?_cons]
          rw [KeyIsAfterNode_some hk]
          simp [hsuf e he]
      have hw : ∃ prev1, writePrev prev level x = some prev1 ∧ (prev = none → prev1 = none) ∧
          (∀ p, prev = some p → prev1 = some (p.set level (some x))) := by
        cases prev with
        | none => exact ⟨none, rfl, fun _ => rfl, fun p hp => by cases hp⟩
        | some p =>
          refine ⟨some (p.set level (some x)), ?_, ?_, ?_⟩
          · simp [writePrev, hprev p rfl]
          · intro h; cases h
          · intro q hq; cases hq; rfl
      obtain ⟨prev1, hw1, hw2, hw3⟩ := hw
      unfold FindGreaterOrEqual.loop
      simp only [hnext, hafter, hw1]
      by_cases hl0 : level = 0
      · subst hl0
        have hpre_nil : pre = [] := by
          cases pre with
          | nil => rfl
          | cons e t =>
            have h1 := (hnode e (by simp)).1
            rw [levelOf_cons_pos (by omega)] at hnil
            cases hnil
        subst hpre_nil
        refine ⟨prev1, ?_, hw2, ?_⟩
        · simp only [if_true]
          rw [levelOf_zero (fun e he => (hnode e (by simpa using he)).1)]
          cases suf <;> rfl
        · intro p hp
          refine ⟨p.set 0 (some x), hw3 p hp, by simp, ?_, ?_⟩
          · intro l hl
            have : l = 0 := by omega
            subst this
            have := hprev p hp
            simp [levelOf_nil, lastFrom, this]
          · intro l hl
            have : ¬ 0 = l := by omega
            simp [List.getElem?_set, this]
      · simp only [hl0, if_false]
        obtain ⟨prev2, h1, h2, h3⟩ := ih x (level - 1) pre suf prev1 hnode
          (fun l hl => hlink l (by omega)) hpre hsuf
          (fun p hp => by
            cases prev with
            | none => rw [hw2 rfl] at hp; cases hp
            | some q =>
              rw [hw3 q rfl] at hp
              cases hp
              have := hprev q rfl
              simp only [List.length_set]
              omega)
          (by omega)
        refine ⟨prev2, h1, fun h => h2 (hw2 h), ?_⟩
        intro p hp
        obtain ⟨p1, hp1, hlen, hlow, hhigh⟩ := h3 _ (hw3 p hp)
        refine ⟨p1, hp1, by simpa using hlen, ?_, ?_⟩
        · intro l hl
          by_cases hll : l = level
          · subst hll
            rw [hhigh l (by omega), hnil]
            have := hprev p hp
            simp [lastFrom, this]
          · exact hlow l (by omega)
        · intro l hl
          rw [hhigh l (by omega)]
          have : ¬ level = l := by omega
          simp [List.getElem?_set, this]
    · -- the next node on this level is `n`, whose key is before `key`: advance
      subst hab
      have hchain : ∀ l, l ≤ level →
          levelOf l (a ++ n :: b ++ suf) = levelOf l a ++ n.idx :: levelOf l (b ++ suf) := by
        intro l hl
        rw [List.append_assoc, levelOf_append, List.cons_append,
          levelOf_cons_pos (by omega)]
      have hnext : s.Next x level = some (some n.idx) := by
        have := (hlink level le_rfl).next
        rwa [hchain level le_rfl, ha] at this
      have hk := (hnode n (by simp)).2
      have hafter : s.KeyIsAfterNode compare_ key (some n.idx) = some true := by
        rw [KeyIsAfterNode_some hk]
        simp [hpre n (by simp)]
      unfold FindGreaterOrEqual.loop
      simp only [hnext, hafter]
      obtain ⟨prev2, h1, h2, h3⟩ := ih n.idx level b suf prev
        (fun e he => hnode e (by
          simp only [List.mem_append, List.mem_cons] at he ⊢
          tauto))
        (fun l hl => by
          have := hlink l hl
          rw [hchain l hl] at this
          exact this.drop)
        (fun e he => hpre e (by simp [he])) hsuf hprev
        (by simp only [List.length_append, List.length_cons] at hfuel; omega)
      refine ⟨prev2, h1, h2, ?_⟩
      intro p hp
      obtain ⟨p1, hp1, hlen, hlow, hhigh⟩ := h3 p hp
      refine ⟨p1, hp1, hlen, ?_, hhigh⟩
      intro l hl
      rw [hlow l hl, levelOf_append, levelOf_cons_pos (by omega), lastFrom_append_cons]

theorem sorted_split {compare_ : K → K → Int} (hc : LawfulComparator compare_) (key : K) :
    ∀ (abs : List (Entry K)), abs.Pairwise (fun a b => compare_ a.key b.key < 0) →
      ∃ pre suf, abs = pre ++ suf ∧ (∀ e ∈ pre, compare_ e.key key < 0) ∧
        (∀ e ∈ suf, ¬ compare_ e.key key < 0) := by
  intro abs
  induction abs with
  | nil => intro _; exact ⟨[], [], rfl, by simp, by simp⟩
  | cons e t ih =>
    intro hs
    rw [List.pairwise_cons] at hs
    by_cases he : compare_ e.key key < 0
    · obtain ⟨pre, suf, h1, h2, h3⟩ := ih hs.2
      refine ⟨e :: pre, suf, by rw [h1]; rfl, ?_, h3⟩
      intro x hx
      rcases List.mem_cons.mp hx with rfl | hx
      · exact he
      · exact h2 x hx
    · refine ⟨[], e :: t, rfl, by simp, ?_⟩
      intro x hx
      rcases List.mem_cons.mp hx with rfl | hx
      · exact he
      · exact fun hlt => he (hc.trans _ _ _ (hs.1 x hx) hlt)

theorem Rep.idx_lt {compare_ : K → K → Int} {s : SkipList K R} {abs : List (Entry K)}
    (h : Rep compare_ s abs) {e : Entry K} (he : e ∈ abs) : e.idx < s.nodes.length := by
  have := (h.node e he).2.2.2.1
  unfold keyAt at this
  cases hnd : s.nodes[e.idx]? with
  | none => simp [hnd] at this
  | some nd => exact (List.getElem?_eq_some_iff.mp hnd).1

theorem FindGreaterOrEqualFrom_spec {compare_ : K → K → Int} {s : SkipList K R}
    {abs pre suf : List (Entry K)} {key : K} (hrep : Rep compare_ s abs)
    (hsplit : abs = pre ++ suf) (hpre : ∀ e ∈ pre, compare_ e.key key < 0)
    (hsuf : ∀ e ∈ suf, ¬ compare_ e.key key < 0) (height : Nat) (h1 : 1 ≤ height)
    (h2 : height ≤ kMaxHeight) (prev : Option (List (Option Nat)))
    (hprev : ∀ p, prev = some p → p.length = kMaxHeight) :
    ∃ prev1, s.FindGreaterOrEqualFrom compare_ height key prev =
        some (suf.head?.map (fun e => e.idx), prev1) ∧
      (prev = none → prev1 = none) ∧
      (∀ p, prev = some p → ∃ p1, prev1 = some p1 ∧ p1.length = kMaxHeight ∧
        (∀ l, l < height → p1[l]? = some (some (lastFrom head_ (levelOf l pre)))) ∧
        (∀ l, height ≤ l → p1[l]? = p[l]?)) := by
  subst hsplit
  obtain ⟨prev1, e1, e2, e3⟩ := @FindGreaterOrEqual_loop_spec K R compare_ s key
    (s.searchFuel height) head_ (height - 1) pre suf prev
    (fun e he => ⟨(hrep.node e he).2.1, (hrep.node e he).2.2.2.1⟩)
    (fun l hl => hrep.linked l (by omega)) hpre hsuf
    (fun p hp => by rw [hprev p hp]; omega)
    (by
      have := hrep.size
      simp only [List.length_append] at this
      unfold searchFuel
      omega)
  refine ⟨prev1, ?_, e2, ?_⟩
  · unfold FindGreaterOrEqualFrom
    rw [if_neg (by omega)]
    exact e1
  · intro p hp
    obtain ⟨p1, a1, a2, a3, a4⟩ := e3 p hp
    exact ⟨p1, a1, by rw [a2, hprev p hp], fun l hl => a3 l (by omega),
      fun l hl => a4 l (by omega)⟩

theorem RandomHeight_loop_spec (OneIn : R → Nat → Bool × R) :
    ∀ (fuel height : Nat) (rnd : R), height ≤ kMaxHeight → kMaxHeight - height < fuel →
      RandomHeight.loop OneIn fuel height rnd =
        some (height + ((draws OneIn (kMaxHeight - height) rnd).takeWhile id).length,
          afterDraws OneIn
            (min (((draws OneIn (kMaxHeight - height) rnd).takeWhile id).length + 1)
              (kMaxHeight - height)) rnd) := by
  intro fuel
  induction fuel with
  | zero => intro height rnd _ h; omega
  | succ fuel ih =>
    intro height rnd hle hfuel
    unfold RandomHeight.loop
    by_cases hlt : height < kMaxHeight
    · rw [if_pos hlt]
      obtain ⟨n, hn⟩ : ∃ n, kMaxHeight - height = n + 1 := ⟨kMaxHeight - height - 1, by omega⟩
      have hn2 : kMaxHeight - (height + 1) = n := by omega
      rw [hn]
      cases hd : OneIn rnd kBranching with
      | mk b r1 =>
        cases b with
        | true =>
          simp only []
          rw [ih (height + 1) r1 (by omega) (by omega), hn2]
          simp only [draws, hd, List.takeWhile_cons, id, if_true, List.length_cons, afterDraws]
          congr 2
          · omega
          · rw [Nat.add_min_add_right]
            simp only [afterDraws, hd]
        | false =>
          simp [draws, hd, afterDraws]
    · rw [if_neg hlt]
      have : kMaxHeight - height = 0 := by omega
      rw [this]
      simp [draws, afterDraws]

theorem SameShape.refl (s : SkipList K R) : SameShape s s :=
  ⟨fun _ => rfl, fun _ => rfl, rfl, rfl, rfl⟩

theorem SameShape.trans {a b c : SkipList K R} (h1 : SameShape a b) (h2 : SameShape b c) :
    SameShape a c :=
  ⟨fun y => (h1.key y).trans (h2.key y), fun y => (h1.height y).trans (h2.height y),
    h1.size.trans h2.size, h1.mh.trans h2.mh, h1.rnd.trans h2.rnd⟩

theorem SameShape.of_SetNext {s s1 : SkipList K R} {x n : Nat} {v : Ptr}
    (h : s.SetNext x n v = some s1) : SameShape s1 s :=
  ⟨keyAt_SetNext h, heightAt_SetNext h, (SetNext_fields h).1, (SetNext_fields h).2.1,
    (SetNext_fields h).2.2⟩

theorem RandomHeight_spec (OneIn : R → Nat → Bool × R) (rnd : R) :
    RandomHeight OneIn rnd =
      some (1 + ((draws OneIn 11 rnd).takeWhile id).length,
        afterDraws OneIn (min (((draws OneIn 11 rnd).takeWhile id).length + 1) 11) rnd) := by
  have hlen : ((draws OneIn 11 rnd).takeWhile id).length ≤ 11 := by
    have h1 := (List.takeWhile_sublist (l := draws OneIn 11 rnd) id).length_le
    have h2 : ∀ (n : Nat) (r : R), (draws OneIn n r).length = n := by
      intro n
      induction n with
      | zero => intro r; rfl
      | succ n ih => intro r; simp [draws, ih]
    rw [h2] at h1
    exact h1
  unfold RandomHeight
  rw [RandomHeight_loop_spec OneIn kMaxHeight 1 rnd (by decide) (by decide)]
  have : kMaxHeight - 1 = 11 := rfl
  simp only [this]
  rw [if_pos]
  constructor
  · omega
  · show _ ≤ 12
    omega

theorem RandomHeight_bounds {OneIn : R → Nat → Bool × R} {rnd rnd1 : R} {h : Nat}
    (hr : RandomHeight OneIn rnd = some (h, rnd1)) : 1 ≤ h ∧ h ≤ kMaxHeight := by
  unfold RandomHeight at hr
  split at hr
  · cases hr
  · split at hr
    · rename_i hb
      cases hr
      exact hb
    · cases hr

theorem NewNode_Next (s : SkipList K R) (key : K) (h : Nat) {y : Nat}
    (hy : y < s.nodes.length) (l : Nat) : (s.NewNode key h).2.Next y l = s.Next y l := by
  simp [NewNode, Next, List.getElem?_append_left hy]

theorem NewNode_keyAt (s : SkipList K R) (key : K) (h : Nat) (y : Nat) :
    (s.NewNode key h).2.keyAt y = if y = s.nodes.length then some key else s.keyAt y := by
  unfold NewNode keyAt
  by_cases hy : y < s.nodes.length
  · simp [List.getElem?_append_left hy, Nat.ne_of_lt hy]
  · by_cases hy2 : y = s.nodes.length
    · subst hy2
      simp
    · have h3 : s.nodes.length < y := by omega
      have h4 : s.nodes[y]? = none := List.getElem?_eq_none (by omega)
      have h5 : (s.nodes ++ [⟨key, List.replicate h none⟩])[y]? = none :=
        List.getElem?_eq_none (by simp; omega)
      simp [hy2, h4, h5]

theorem NewNode_heightAt (s : SkipList K R) (key : K) (h : Nat) (y : Nat) :
    (s.NewNode key h).2.heightAt y = if y = s.nodes.length then some h else s.heightAt y := by
  unfold NewNode heightAt
  by_cases hy : y < s.nodes.length
  · simp [List.getElem?_append_left hy, Nat.ne_of_lt hy]
  · by_cases hy2 : y = s.nodes.length
    · subst hy2
      simp
    · have h3 : s.nodes.length < y := by omega
      have h4 : s.nodes[y]? = none := List.getElem?_eq_none (by omega)
      have h5 : (s.nodes ++ [⟨key, List.replicate h none⟩])[y]? = none :=
        List.getElem?_eq_none (by simp; omega)
      simp [hy2, h4, h5]

theorem fillPrev_spec : ∀ (n i : Nat) (prev : List (Option Nat)), i + n ≤ prev.length →
    ∃ p1, fillPrev prev n i = some p1 ∧ p1.length = prev.length ∧
      ∀ l, p1[l]? = if i ≤ l ∧ l < i + n then some (some head_) else prev[l]? := by
  intro n
  induction n with
  | zero =>
    intro i prev _
    refine ⟨prev, rfl, rfl, ?_⟩
    intro l
    rw [if_neg (by omega)]
  | succ n ih =>
    intro i prev hlen
    obtain ⟨p1, h1, h2, h3⟩ := ih (i + 1) (prev.set i (some head_)) (by simp; omega)
    refine ⟨p1, ?_, by simpa using h2, ?_⟩
    · unfold fillPrev
      rw [if_pos (by omega)]
      exact h1
    · intro l
      rw [h3 l]
      by_cases hl : i = l
      · subst hl
        have : i < prev.length := by omega
        simp [this]
      · by_cases hl2 : i + 1 ≤ l ∧ l < i + 1 + n
        · rw [if_pos hl2, if_pos (by omega)]
        · rw [if_neg hl2, if_neg (by omega)]
          simp [List.getElem?_set, hl]

theorem linkStep_spec {s : SkipList K R} {x p i hp hx : Nat} {nx : Ptr}
    {prev : List (Option Nat)} (hprev : prev[i]? = some (some p))
    (hpn : s.Next p i = some nx) (hxh : s.heightAt x = some hx) (hxi : i < hx)
    (hph : s.heightAt p = some hp) (hpi : i < hp) :
    ∃ s2, linkStep s x prev i = some s2 ∧ SameShape s2 s ∧
      ∀ y m, s2.Next y m = if y = p ∧ m = i then some (some x)
        else if y = x ∧ m = i then some nx else s.Next y m := by
  obtain ⟨s1, h1⟩ := SetNext_isSome hxh hxi nx
  have hph1 : s1.heightAt p = some hp := by rw [heightAt_SetNext h1]; exact hph
  obtain ⟨s2, h2⟩ := SetNext_isSome hph1 hpi (some x)
  refine ⟨s2, ?_, (SameShape.of_SetNext h2).trans (SameShape.of_SetNext h1), ?_⟩
  · unfold linkStep
    simp only [hprev, NoBarrier_Next, hpn, NoBarrier_SetNext, h1, h2]
  · intro y m
    rw [Next_SetNext h2, Next_SetNext h1]

theorem linkLoop_spec {s0 : SkipList K R} {x height : Nat} {pre suf : List (Entry K)}
    {prev : List (Option Nat)}
    (hnode : ∀ e ∈ pre ++ suf, 0 < e.idx ∧ e.idx ≠ x ∧ s0.heightAt e.idx = some e.height)
    (hnodup : ((pre ++ suf).map (fun e => e.idx)).Nodup)
    (hhead : s0.heightAt head_ = some kMaxHeight)
    (hx : s0.heightAt x = some height) (hx0 : x ≠ head_) (hh : height ≤ kMaxHeight)
    (hprev : ∀ l, l < height → prev[l]? = some (some (lastFrom head_ (levelOf l pre)))) :
    ∀ (n i : Nat) (s : SkipList K R), i + n = height → SameShape s s0 →
      (∀ l, l < kMaxHeight → Linked s l head_
        (if l < i then levelOf l pre ++ x :: levelOf l suf else levelOf l (pre ++ suf))) →
      ∃ s1, linkLoop s x prev n i = some s1 ∧ SameShape s1 s0 ∧
        (∀ l, l < kMaxHeight → Linked s1 l head_
          (if l < height then levelOf l pre ++ x :: levelOf l suf
            else levelOf l (pre ++ suf))) := by
  have hxnot : ∀ l, x ∉ head_ :: levelOf l (pre ++ suf) := by
    intro l hmem
    rcases List.mem_cons.mp hmem with h | h
    · exact hx0 h
    · obtain ⟨e, he, _, hidx⟩ := mem_levelOf.mp h
      exact (hnode e he).2.1 hidx
  have hnd : ∀ l, (head_ :: levelOf l (pre ++ suf)).Nodup := by
    intro l
    refine List.nodup_cons.mpr ⟨?_, (levelOf_sublist l _).nodup hnodup⟩
    intro h
    obtain ⟨e, he, _, hidx⟩ := mem_levelOf.mp h
    have := (hnode e he).1
    unfold head_ at hidx
    omega
  intro n
  induction n with
  | zero =>
    intro i s hi hshape hlink
    have : i = height := by omega
    subst this
    exact ⟨s, rfl, hshape, hlink⟩
  | succ n ih =>
    intro i s hi hshape hlink
    have hil : i < height := by omega
    have hl := hlink i (by omega)
    rw [if_neg (Nat.lt_irrefl i), levelOf_append] at hl
    have hmemp := lastFrom_mem head_ (levelOf i pre)
    have hpheight : ∃ hp, s.heightAt (lastFrom head_ (levelOf i pre)) = some hp ∧ i < hp := by
      rcases List.mem_cons.mp hmemp with h | h
      · rw [h, hshape.height, hhead]
        exact ⟨kMaxHeight, rfl, by omega⟩
      · obtain ⟨e, he, hlt, hidx⟩ := mem_levelOf.mp h
        rw [← hidx, hshape.height, (hnode e (List.mem_append_left _ he)).2.2]
        exact ⟨e.height, rfl, hlt⟩
    obtain ⟨hp, hph, hpi⟩ := hpheight
    have hxp : x ≠ lastFrom head_ (levelOf i pre) := by
      intro h
      apply hxnot i
      rw [h, levelOf_append]
      rcases List.mem_cons.mp hmemp with h2 | h2
      · rw [h2]; exact List.mem_cons_self _ _
      · exact List.mem_cons_of_mem _ (List.mem_append_left _ h2)
    obtain ⟨s2, hstep, hshape2, hnext⟩ := linkStep_spec (x := x) (hprev i hil)
      hl.next_lastFrom (by rw [hshape.height]; exact hx) hil hph hpi
    obtain ⟨s3, h1, h2, h3⟩ := ih (i + 1) s2 (by omega) (hshape2.trans hshape) (by
      intro l hl12
      by_cases hli : l = i
      · subst hli
        rw [if_pos (Nat.lt_succ_self l)]
        apply Linked.insert hl (by rw [← levelOf_append]; exact hnd l)
        · rw [hnext, if_pos ⟨rfl, rfl⟩]
        · rw [hnext, if_neg (fun h => hxp h.1), if_pos ⟨rfl, rfl⟩]
        · intro y hy hne
          rw [hnext, if_neg (fun h => hne h.1), if_neg]
          rintro ⟨rfl, _⟩
          apply hxnot l
          rw [levelOf_append]
          exact hy
      · have hframe : ∀ y, s2.Next y l = s.Next y l := by
          intro y
          rw [hnext, if_neg (fun h => hli h.2), if_neg (fun h => hli h.2)]
        have hold := hlink l hl12
        have hcond : (l < i + 1) = (l < i) := by
          apply propext
          constructor <;> intro h <;> omega
        simp only [hcond]
        exact Linked.frame (fun y _ => hframe y) hold)
    refine ⟨s3, ?_, h2, h3⟩
    unfold linkLoop
    simp only [hstep]
    exact h1

theorem insertAssert_spec {compare_ : K → K → Int} {s : SkipList K R} {suf : List (Entry K)}
    {key : K} (hnode : ∀ e ∈ suf, s.keyAt e.idx = some e.key)
    (hne : ∀ e ∈ suf, compare_ key e.key ≠ 0) :
    insertAssert compare_ s key (suf.head?.map (fun e => e.idx)) = some true := by
  cases suf with
  | nil => rfl
  | cons e t =>
    have hk := hnode e (List.mem_cons_self _ _)
    unfold keyAt at hk
    simp only [List.head?_cons, Option.map_some', insertAssert]
    cases hnd : s.nodes[e.idx]? with
    | none => simp [hnd] at hk
    | some nd =>
      simp only [hnd, Option.map_some', Option.some.injEq] at hk
      simp [Equal, hk, hne e (List.mem_cons_self _ _)]

theorem LawfulComparator.lt_of_not_lt {compare_ : K → K → Int}
    (hc : LawfulComparator compare_) {a b : K} (h1 : ¬ compare_ a b < 0)
    (h2 : compare_ b a ≠ 0) : compare_ b a < 0 := by
  have h3 := hc.symm a b
  have h4 := hc.symm b a
  omega

theorem Insert_spec {compare_ : K → K → Int} (hc : LawfulComparator compare_)
    (OneIn : R → Nat → Bool × R) {s : SkipList K R} {abs : List (Entry K)} {key : K}
    (hrep : Rep compare_ s abs) (hne : ∀ e ∈ abs, compare_ key e.key ≠ 0) :
    ∃ s1 h rnd1 pre suf, RandomHeight OneIn s.rnd_ = some (h, rnd1) ∧
      Insert compare_ OneIn s key = some s1 ∧ abs = pre ++ suf ∧
      (∀ e ∈ pre, compare_ e.key key < 0) ∧ (∀ e ∈ suf, compare_ key e.key < 0) ∧
      Rep compare_ s1 (pre ++ ⟨s.nodes.length, key, h⟩ :: suf) ∧
      s1.max_height_ = max s.max_height_ h ∧ s1.rnd_ = rnd1 ∧
      s1.nodes.length = s.nodes.length + 1 := by
  obtain ⟨pre, suf, hsplit, hpre, hsuf⟩ := sorted_split hc key abs hrep.sorted
  have hmhpos := hrep.mh_pos
  have hmhle := hrep.mh_le
  -- the search
  obtain ⟨prev1, hfge, _, hprev1⟩ := FindGreaterOrEqualFrom_spec hrep hsplit hpre hsuf
    s.max_height_ hmhpos hmhle (some (List.replicate kMaxHeight none))
    (fun p hp => by cases hp; simp)
  obtain ⟨p1, rfl, hp1len, hp1low, _⟩ := hprev1 _ rfl
  -- the assertion
  have hassert : insertAssert compare_ s key (suf.head?.map (fun e => e.idx)) = some true :=
    insertAssert_spec
      (fun e he => (hrep.node e (by rw [hsplit]; exact List.mem_append_right _ he)).2.2.2.1)
      (fun e he => hne e (by rw [hsplit]; exact List.mem_append_right _ he))
  -- the height
  have hrh := RandomHeight_spec OneIn s.rnd_
  obtain ⟨hh1, hh2⟩ := RandomHeight_bounds hrh
  generalize 1 + ((draws OneIn 11 s.rnd_).takeWhile id).length = h at hrh hh1 hh2
  generalize afterDraws OneIn _ s.rnd_ = rnd1 at hrh
  -- the entries of `prev` above the old height
  have hfill : ∃ p2, (if h > s.max_height_ then
        (fillPrev p1 (h - s.max_height_) s.max_height_).map
          (fun q => (q, ({ nodes := s.nodes, max_height_ := h, rnd_ := rnd1 } : SkipList K R)))
      else some (p1, ({ nodes := s.nodes, max_height_ := s.max_height_, rnd_ := rnd1 } :
        SkipList K R))) =
      some (p2, ({ nodes := s.nodes, max_height_ := max s.max_height_ h, rnd_ := rnd1 } :
        SkipList K R)) ∧
      ∀ l, l < h → p2[l]? = some (some (lastFrom head_ (levelOf l pre))) := by
    by_cases hgt : h > s.max_height_
    · obtain ⟨p2, f1, _, f3⟩ := fillPrev_spec (h - s.max_height_) s.max_height_ p1
        (by rw [hp1len]; omega)
      refine ⟨p2, ?_, ?_⟩
      · rw [if_pos hgt, f1, Nat.max_eq_right (by omega)]
        rfl
      · intro l hl
        rw [f3 l]
        by_cases hl2 : l < s.max_height_
        · rw [if_neg (by omega)]
          exact hp1low l hl2
        · rw [if_pos (by omega), levelOf_eq_nil]
          · rfl
          · intro e he
            have := (hrep.node e (by rw [hsplit]; exact List.mem_append_left _ he)).2.2.1
            omega
    · refine ⟨p1, ?_, fun l hl => hp1low l (by omega)⟩
      rw [if_neg hgt, Nat.max_eq_left (by omega)]
  obtain ⟨p2, hfill1, hfill2⟩ := hfill
  -- the new node and the link loop
  have hs3 : ∀ e ∈ pre ++ suf, 0 < e.idx ∧ e.idx ≠ s.nodes.length ∧
      (NewNode ({ nodes := s.nodes, max_height_ := max s.max_height_ h, rnd_ := rnd1 } :
        SkipList K R) key h).2.heightAt e.idx = some e.height := by
    intro e he
    rw [← hsplit] at he
    have hlt := hrep.idx_lt he
    refine ⟨(hrep.node e he).1, by omega, ?_⟩
    rw [NewNode_heightAt, if_neg (by show e.idx ≠ s.nodes.length; omega)]
    exact (hrep.node e he).2.2.2.2
  have hlen0 : 0 < s.nodes.length := by rw [hrep.size]; omega
  obtain ⟨s4, hloop, hshape, hlinked⟩ := @linkLoop_spec K R _ s.nodes.length h pre suf
    p2 hs3 (by rw [← hsplit]; exact hrep.nodup)
    (by
      rw [NewNode_heightAt, if_neg (by show head_ ≠ s.nodes.length; unfold head_; omega)]
      exact hrep.head)
    (by rw [NewNode_heightAt, if_pos rfl])
    (by unfold head_; omega) hh2 hfill2 h 0 _ (by omega) (SameShape.refl _)
    (by
      intro l hl
      rw [if_neg (Nat.not_lt_zero l), ← hsplit]
      apply Linked.frame _ (hrep.linked l hl)
      intro y hy
      have hylt : y < s.nodes.length := by
        rcases List.mem_cons.mp hy with h | h
        · rw [h]; exact hlen0
        · obtain ⟨e, he, _, hidx⟩ := mem_levelOf.mp h
          rw [← hidx]; exact hrep.idx_lt he
      exact NewNode_Next _ key h hylt l)
  refine ⟨s4, h, rnd1, pre, suf, hrh, ?_, hsplit, hpre, ?_, ?_, ?_, ?_, ?_⟩
  · unfold Insert FindGreaterOrEqual GetMaxHeight
    simp only [hfge, hassert, hrh, GetMaxHeight, hfill1]
    exact hloop
  · intro e he
    have hmem : e ∈ abs := by rw [hsplit]; exact List.mem_append_right _ he
    exact hc.lt_of_not_lt (hsuf e he) (hne e hmem)
  · have hkey : ∀ e ∈ abs, s4.keyAt e.idx = some e.key ∧ s4.heightAt e.idx = some e.height := by
      intro e he
      have hlt := hrep.idx_lt he
      rw [hshape.key, hshape.height, NewNode_keyAt, NewNode_heightAt,
        if_neg (by show e.idx ≠ s.nodes.length; omega),
        if_neg (by show e.idx ≠ s.nodes.length; omega)]
      exact (hrep.node e he).2.2.2
    have hsorted := hrep.sorted
    have hnodup := hrep.nodup
    rw [hsplit] at hsorted hnodup
    rw [List.pairwise_append] at hsorted
    refine ⟨?_, ?_, ?_, ?_, ?_, ?_, ?_, ?_⟩
    · rw [hshape.height, NewNode_heightAt,
        if_neg (by show head_ ≠ s.nodes.length; unfold head_; omega)]
      exact hrep.head
    · rw [hshape.size]
      have := hrep.size
      rw [hsplit] at this
      simp only [NewNode, List.length_append, List.length_cons, List.length_nil] at this ⊢
      omega
    · rw [hshape.mh]
      show 1 ≤ max s.max_height_ h
      omega
    · rw [hshape.mh]
      show max s.max_height_ h ≤ kMaxHeight
      omega
    · intro e he
      rw [hshape.mh]
      show _ ∧ _ ∧ e.height ≤ max s.max_height_ h ∧ _
      rcases List.mem_append.mp he with h1 | h1
      · have hmem : e ∈ abs := by rw [hsplit]; exact List.mem_append_left _ h1
        have := hrep.node e hmem
        exact ⟨this.1, this.2.1, by omega, hkey e hmem⟩
      · rcases List.mem_cons.mp h1 with h2 | h2
        · subst h2
          refine ⟨hlen0, hh1, by show h ≤ max s.max_height_ h; omega, ?_, ?_⟩
          · rw [hshape.key, NewNode_keyAt, if_pos rfl]
          · rw [hshape.height, NewNode_heightAt, if_pos rfl]
        · have hmem : e ∈ abs := by rw [hsplit]; exact List.mem_append_right _ h2
          have := hrep.node e hmem
          exact ⟨this.1, this.2.1, by omega, hkey e hmem⟩
    · rw [List.map_append, List.map_cons]
      apply List.nodup_middle.mpr
      rw [← List.map_append]
      refine List.nodup_cons.mpr ⟨?_, hnodup⟩
      intro hmem
      obtain ⟨e, he, hidx⟩ := List.mem_map.mp hmem
      have := hrep.idx_lt (e := e) (by rw [hsplit]; exact he)
      simp only at hidx
      omega
    · rw [List.pairwise_append]
      refine ⟨hsorted.1, ?_, ?_⟩
      · rw [List.pairwise_cons]
        refine ⟨?_, hsorted.2.1⟩
        intro e he
        exact hc.lt_of_not_lt (hsuf e he)
          (hne e (by rw [hsplit]; exact List.mem_append_right _ he))
      · intro a ha b hb
        rcases List.mem_cons.mp hb with h2 | h2
        · subst h2
          exact hpre a ha
        · exact hsorted.2.2 a ha b h2
    · intro l hl
      have := hlinked l hl
      by_cases hlh : l < h
      · rw [if_pos hlh] at this
        rw [levelOf_append, levelOf_cons_pos (by exact hlh)]
        exact this
      · rw [if_neg hlh] at this
        rw [levelOf_append, levelOf_cons_neg (by exact hlh), ← levelOf_append]
        exact this
  · rw [hshape.mh]; rfl
  · rw [hshape.rnd]; rfl
  · rw [hshape.size]; simp [NewNode]

theorem new_eq (headKey : K) (seed : R) :
    SkipList.new headKey seed = some (emptyList headKey seed) := by
  simp [SkipList.new, NewNode, initHead, SetNext, emptyList, kMaxHeight, head_,
    List.replicate]

theorem Rep_emptyList (compare_ : K → K → Int) (headKey : K) (seed : R) :
    Rep compare_ (emptyList headKey seed) [] := by
  refine ⟨rfl, rfl, Nat.le_refl 1, by show 1 ≤ 12; omega, ?_, ?_, ?_, ?_⟩
  · intro e he; cases he
  · exact List.nodup_nil
  · exact List.Pairwise.nil
  · intro l hl
    show (emptyList headKey seed).Next head_ l = some none
    have hl2 : l < 12 := hl
    interval_cases l <;> rfl

theorem LawfulComparator.eq_symm {compare_ : K → K → Int}
    (hc : LawfulComparator compare_) {a b : K} (h : compare_ a b = 0) : compare_ b a = 0 := by
  have h3 := hc.symm a b
  have h4 := hc.symm b a
  omega

theorem LawfulComparator.irrefl {compare_ : K → K → Int}
    (hc : LawfulComparator compare_) (a : K) : ¬ compare_ a a < 0 := by
  have h3 := hc.symm a a
  omega

theorem insertAll_spec {compare_ : K → K → Int} (hc : LawfulComparator compare_)
    (OneIn : R → Nat → Bool × R) :
    ∀ (keys : List K) (s : SkipList K R) (abs : List (Entry K)), Rep compare_ s abs →
      keys.Pairwise (fun a b => compare_ a b ≠ 0) →
      (∀ k ∈ keys, ∀ e ∈ abs, compare_ k e.key ≠ 0) →
      ∃ s1 abs1, insertAll compare_ OneIn s keys = some s1 ∧ Rep compare_ s1 abs1 ∧
        (abs1.map (fun e => e.key)).Perm (abs.map (fun e => e.key) ++ keys) := by
  intro keys
  induction keys with
  | nil =>
    intro s abs hrep _ _
    exact ⟨s, abs, rfl, hrep, by simp⟩
  | cons k ks ih =>
    intro s abs hrep hpw hfresh
    rw [List.pairwise_cons] at hpw
    obtain ⟨s1, h, rnd1, pre, suf, _, hins, hsplit, _, _, hrep1, _⟩ :=
      Insert_spec hc OneIn hrep (hfresh k (List.mem_cons_self _ _))
    obtain ⟨s2, abs2, h1, h2, h3⟩ := ih s1 _ hrep1 hpw.2 (by
      intro k1 hk1 e he
      rcases List.mem_append.mp he with h | h
      · exact hfresh k1 (List.mem_cons_of_mem _ hk1) e
          (by rw [hsplit]; exact List.mem_append_left _ h)
      · rcases List.mem_cons.mp h with h | h
        · subst h
          exact fun h0 => hpw.1 k1 hk1 (hc.eq_symm h0)
        · exact hfresh k1 (List.mem_cons_of_mem _ hk1) e
            (by rw [hsplit]; exact List.mem_append_right _ h))
    refine ⟨s2, abs2, ?_, h2, ?_⟩
    · simp only [insertAll, hins]
      exact h1
    · refine h3.trans ?_
      subst hsplit
      simp only [List.map_append, List.map_cons, List.append_assoc]
      apply List.Perm.append_left
      have : (k :: (List.map (fun e => e.key) suf ++ ks)).Perm
          (List.map (fun e => e.key) suf ++ k :: ks) := List.perm_middle.symm
      simpa using this

theorem build_spec {compare_ : K → K → Int} (hc : LawfulComparator compare_)
    (OneIn : R → Nat → Bool × R) (headKey : K) (seed : R) (keys : List K)
    (hpw : keys.Pairwise (fun a b => compare_ a b ≠ 0)) :
    ∃ s abs, build compare_ OneIn headKey seed keys = some s ∧ Rep compare_ s abs ∧
      (abs.map (fun e => e.key)).Perm keys := by
  obtain ⟨s, abs, h1, h2, h3⟩ := insertAll_spec hc OneIn keys _ _
    (Rep_emptyList compare_ headKey seed) hpw (fun _ _ e he => by cases he)
  refine ⟨s, abs, ?_, h2, by simpa using h3⟩
  simp only [build, new_eq]
  exact h1

theorem keyAt_some {s : SkipList K R} {i : Nat} {k : K} (h : s.keyAt i = some k) :
    ∃ nd, s.nodes[i]? = some nd ∧ nd.key = k := by
  unfold keyAt at h
  cases hnd : s.nodes[i]? with
  | none => simp [hnd] at h
  | some nd =>
    simp only [hnd, Option.map_some', Option.some.injEq] at h
    exact ⟨nd, rfl, h⟩

theorem Rep.seek {compare_ : K → K → Int} (hc : LawfulComparator compare_)
    {s : SkipList K R} {abs : List (Entry K)} (hrep : Rep compare_ s abs) (target : K) :
    ∃ pre suf, abs = pre ++ suf ∧ (∀ e ∈ pre, compare_ e.key target < 0) ∧
      (∀ e ∈ suf, ¬ compare_ e.key target < 0) ∧
      s.FindGreaterOrEqual compare_ target none = some (suf.head?.map (fun e => e.idx), none) := by
  obtain ⟨pre, suf, hsplit, hpre, hsuf⟩ := sorted_split hc target abs hrep.sorted
  obtain ⟨prev1, h1, h2, _⟩ := FindGreaterOrEqualFrom_spec hrep hsplit hpre hsuf
    s.max_height_ hrep.mh_pos hrep.mh_le none (fun p hp => by cases hp)
  rw [h2 rfl] at h1
  exact ⟨pre, suf, hsplit, hpre, hsuf, h1⟩

theorem Rep.contains {compare_ : K → K → Int} (hc : LawfulComparator compare_)
    {s : SkipList K R} {abs : List (Entry K)} (hrep : Rep compare_ s abs) (k : K) :
    s.Contains compare_ k = some (abs.any (fun e => Equal compare_ k e.key)) := by
  obtain ⟨pre, suf, hsplit, hpre, hsuf, hfge⟩ := hrep.seek hc k
  have hprefalse : ∀ e ∈ pre, Equal compare_ k e.key = false := by
    intro e he
    have h1 := hpre e he
    have h2 := hc.symm e.key k
    simp only [Equal, decide_eq_false_iff_not]
    omega
  unfold Contains
  rw [hfge]
  cases suf with
  | nil =>
    simp only [List.head?_nil, Option.map_none']
    congr 1
    symm
    rw [List.any_eq_false]
    intro e he
    rw [hsplit, List.append_nil] at he
    simp [hprefalse e he]
  | cons e t =>
    have hmem : e ∈ abs := by rw [hsplit]; simp
    obtain ⟨nd, hnd, hkey⟩ := keyAt_some (hrep.node e hmem).2.2.2.1
    simp only [List.head?_cons, Option.map_some', hnd, hkey]
    congr 1
    cases hE : Equal compare_ k e.key with
    | true =>
      symm
      rw [List.any_eq_true]
      exact ⟨e, hmem, hE⟩
    | false =>
      symm
      rw [List.any_eq_false]
      intro x hx
      rw [hsplit] at hx
      have hsorted := hrep.sorted
      rw [hsplit, List.pairwise_append, List.pairwise_cons] at hsorted
      rcases List.mem_append.mp hx with h | h
      · simp [hprefalse x h]
      · rcases List.mem_cons.mp h with h | h
        · subst h; simp [hE]
        · have h1 := hsorted.2.1.1 x h
          have h2 := hsuf e (List.mem_cons_self _ _)
          simp only [Equal, decide_eq_true_eq]
          intro h3
          exact h2 (hc.lt_of_lt_of_eq _ _ _ h1 (hc.eq_symm h3))

theorem any_congr_of_perm {α β : Type} {f : α → β} {l : List α} {m : List β}
    (h : (l.map f).Perm m) (p : β → Bool) : l.any (fun a => p (f a)) = m.any p := by
  have h1 : ∀ l : List α, l.any (fun a => p (f a)) = (l.map f).any p := by
    intro l
    induction l with
    | nil => rfl
    | cons a t ih => simp only [List.any_cons, List.map_cons, ih]
  rw [h1]
  cases hm : m.any p with
  | true =>
    rw [List.any_eq_true] at hm ⊢
    obtain ⟨x, hx, hp⟩ := hm
    exact ⟨x, h.mem_iff.mpr hx, hp⟩
  | false =>
    rw [List.any_eq_false] at hm ⊢
    intro x hx
    exact hm x (h.mem_iff.mp hx)

theorem insertAll_append (compare_ : K → K → Int) (OneIn : R → Nat → Bool × R) :
    ∀ (a b : List K) (s : SkipList K R),
      insertAll compare_ OneIn s (a ++ b) =
        (insertAll compare_ OneIn s a).bind (fun s1 => insertAll compare_ OneIn s1 b) := by
  intro a
  induction a with
  | nil => intro b s; rfl
  | cons k a ih =>
    intro b s
    simp only [List.cons_append, insertAll]
    cases Insert compare_ OneIn s k with
    | none => rfl
    | some s1 => exact ih b s1

theorem intCompare_lawful : LawfulComparator intCompare := by
  refine ⟨?_, ?_, ?_⟩ <;> intros <;> simp only [intCompare] at * <;> omega

/-- C1: on a list built by inserting pairwise-distinct keys into an empty list,
`Seek(target)`, which is `FindGreaterOrEqual(target, nullptr)`, returns, and it
leaves the iterator on the smallest stored key that is `>= target`; the
iterator is invalid exactly when no stored key is `>= target`. -/
theorem seek_first_greater_or_equal {compare_ : K → K → Int}
    (hc : LawfulComparator compare_) (OneIn : R → Nat → Bool × R) (headKey : K) (seed : R)
    (keys : List K) (hpw : keys.Pairwise (fun a b => compare_ a b ≠ 0)) :
    ∃ s, build compare_ OneIn headKey seed keys = some s ∧
      ∀ target : K, ∃ it, (Iterator.new s).Seek compare_ target = some it ∧
        s.FindGreaterOrEqual compare_ target none = some (it.node_, none) ∧
        it.list_ = s ∧
        (it.Valid = false ↔ ∀ k ∈ keys, compare_ k target < 0) ∧
        (it.Valid = true → ∃ k, it.key = some k ∧ k ∈ keys ∧ 0 ≤ compare_ k target ∧
          ∀ k1 ∈ keys, 0 ≤ compare_ k1 target → compare_ k k1 ≤ 0) := by
  obtain ⟨s, abs, hb, hrep, hperm⟩ := build_spec hc OneIn headKey seed keys hpw
  refine ⟨s, hb, ?_⟩
  intro target
  obtain ⟨pre, suf, hsplit, hpre, hsuf, hfge⟩ := hrep.seek hc target
  have hkeys : ∀ k, k ∈ keys ↔ ∃ e ∈ abs, e.key = k := by
    intro k
    rw [← hperm.mem_iff, List.mem_map]
  refine ⟨{ list_ := s, node_ := suf.head?.map (fun e => e.idx) }, ?_, hfge, rfl, ?_, ?_⟩
  · simp only [Iterator.Seek, Iterator.new, hfge]
  · cases suf with
    | nil =>
      simp only [Iterator.Valid, List.head?_nil, Option.map_none', bne_self_eq_false, true_iff]
      intro k hk
      obtain ⟨e, he, rfl⟩ := (hkeys k).mp hk
      rw [hsplit, List.append_nil] at he
      exact hpre e he
    | cons e t =>
      simp only [Iterator.Valid, List.head?_cons, Option.map_some']
      constructor
      · intro h
        simp at h
      · intro h
        exfalso
        have hmem : e ∈ abs := by rw [hsplit]; simp
        exact hsuf e (List.mem_cons_self _ _) (h e.key ((hkeys _).mpr ⟨e, hmem, rfl⟩))
  · intro hvalid
    cases suf with
    | nil => simp [Iterator.Valid] at hvalid
    | cons e t =>
      have hmem : e ∈ abs := by rw [hsplit]; simp
      obtain ⟨nd, hnd, hkey⟩ := keyAt_some (hrep.node e hmem).2.2.2.1
      refine ⟨e.key, ?_, (hkeys _).mpr ⟨e, hmem, rfl⟩, ?_, ?_⟩
      · simp only [Iterator.key, List.head?_cons, Option.map_some', hnd, hkey]
      · have := hsuf e (List.mem_cons_self _ _)
        omega
      · intro k1 hk1 hge
        obtain ⟨e1, he1, rfl⟩ := (hkeys k1).mp hk1
        have hsorted := hrep.sorted
        rw [hsplit, List.pairwise_append, List.pairwise_cons] at hsorted
        rw [hsplit] at he1
        rcases List.mem_append.mp he1 with h | h
        · have := hpre e1 h
          omega
        · rcases List.mem_cons.mp h with h | h
          · subst h
            have := hc.symm e1.key e1.key
            omega
          · exact Int.le_of_lt (hsorted.2.1.1 e1 h)

/-- Witness for C1: four distinct integer keys. -/
theorem seek_first_greater_or_equal_witness :
    LawfulComparator intCompare ∧
    ([5, 1, 3, 9] : List Int).Pairwise (fun a b => intCompare a b ≠ 0) ∧
    ∃ s, build intCompare listOneIn 0 [true, false, false, true, true, false] [5, 1, 3, 9]
        = some s ∧
      ∀ target : Int, ∃ it, (Iterator.new s).Seek intCompare target = some it ∧
        s.FindGreaterOrEqual intCompare target none = some (it.node_, none) ∧
        it.list_ = s ∧
        (it.Valid = false ↔ ∀ k ∈ [5, 1, 3, 9], intCompare k target < 0) ∧
        (it.Valid = true → ∃ k, it.key = some k ∧ k ∈ [5, 1, 3, 9] ∧
          0 ≤ intCompare k target ∧
          ∀ k1 ∈ [5, 1, 3, 9], 0 ≤ intCompare k1 target → intCompare k k1 ≤ 0) :=
  ⟨intCompare_lawful, by decide,
    seek_first_greater_or_equal intCompare_lawful listOneIn 0
      [true, false, false, true, true, false] [5, 1, 3, 9] (by decide)⟩

theorem Rep.contains_keys {compare_ : K → K → Int} (hc : LawfulComparator compare_)
    {s : SkipList K R} {abs : List (Entry K)} (hrep : Rep compare_ s abs) {keys : List K}
    (hperm : (abs.map (fun e => e.key)).Perm keys) (k : K) :
    s.Contains compare_ k = some (keys.any (fun a => Equal compare_ k a)) := by
  rw [hrep.contains hc k]
  exact congrArg some (any_congr_of_perm hperm (fun a => Equal compare_ k a))

theorem build_eq (compare_ : K → K → Int) (OneIn : R → Nat → Bool × R) (headKey : K)
    (seed : R) (keys : List K) :
    build compare_ OneIn headKey seed keys =
      insertAll compare_ OneIn (emptyList headKey seed) keys := by
  unfold build
  rw [new_eq]

theorem build_append {compare_ : K → K → Int} (OneIn : R → Nat → Bool × R) (headKey : K)
    (seed : R) {keys : List K} {s : SkipList K R}
    (hb : build compare_ OneIn headKey seed keys = some s) (more : List K) :
    build compare_ OneIn headKey seed (keys ++ more) = insertAll compare_ OneIn s more := by
  rw [build_eq] at hb ⊢
  rw [insertAll_append, hb]
  simp only [Option.some_bind]

/-- C2: on a list built by inserting pairwise-distinct keys into an empty list,
`Contains(k)` returns, and it returns true exactly when `k` compares equal to
an inserted key.  In particular it is false on the empty list, a contained key
stays contained after any further inserts, and one more `Insert(key)` makes
only keys equal to `key` newly contained. -/
theorem contains_iff_inserted {compare_ : K → K → Int} (hc : LawfulComparator compare_)
    (OneIn : R → Nat → Bool × R) (headKey : K) (seed : R) (keys : List K)
    (hpw : keys.Pairwise (fun a b => compare_ a b ≠ 0)) :
    ∃ s, build compare_ OneIn headKey seed keys = some s ∧
      (∀ k, ∃ b, s.Contains compare_ k = some b ∧
        (b = true ↔ ∃ a ∈ keys, compare_ k a = 0)) ∧
      (keys = [] → ∀ k, s.Contains compare_ k = some false) ∧
      (∀ more, (keys ++ more).Pairwise (fun a b => compare_ a b ≠ 0) →
        ∃ s1, insertAll compare_ OneIn s more = some s1 ∧
          ∀ k, s.Contains compare_ k = some true → s1.Contains compare_ k = some true) ∧
      (∀ key, (keys ++ [key]).Pairwise (fun a b => compare_ a b ≠ 0) →
        ∃ s1, Insert compare_ OneIn s key = some s1 ∧
          ∀ k, s.Contains compare_ k = some false → s1.Contains compare_ k = some true →
            compare_ k key = 0) := by
  obtain ⟨s, abs, hb, hrep, hperm⟩ := build_spec hc OneIn headKey seed keys hpw
  have hcont := fun k => hrep.contains_keys hc hperm k
  have hlater : ∀ more, (keys ++ more).Pairwise (fun a b => compare_ a b ≠ 0) →
      ∃ s1, insertAll compare_ OneIn s more = some s1 ∧
        ∀ k, s1.Contains compare_ k =
          some ((keys ++ more).any (fun a => Equal compare_ k a)) := by
    intro more hpw2
    obtain ⟨s1, abs1, hb1, hrep1, hperm1⟩ :=
      build_spec hc OneIn headKey seed (keys ++ more) hpw2
    rw [build_append OneIn headKey seed hb more] at hb1
    exact ⟨s1, hb1, fun k => hrep1.contains_keys hc hperm1 k⟩
  refine ⟨s, hb, ?_, ?_, ?_, ?_⟩
  · intro k
    refine ⟨_, hcont k, ?_⟩
    simp [List.any_eq_true, Equal]
  · intro hnil k
    rw [hcont k, hnil]
    rfl
  · intro more hpw2
    obtain ⟨s1, h1, h2⟩ := hlater more hpw2
    refine ⟨s1, h1, ?_⟩
    intro k hk
    rw [hcont k] at hk
    rw [h2 k, List.any_append]
    simp only [Option.some.injEq] at hk
    simp [hk]
  · intro key hpw2
    obtain ⟨s1, h1, h2⟩ := hlater [key] hpw2
    simp only [insertAll] at h1
    cases hins : Insert compare_ OneIn s key with
    | none => simp [hins] at h1
    | some s2 =>
      simp only [hins, Option.some.injEq] at h1
      subst h1
      refine ⟨s2, rfl, ?_⟩
      intro k hk0 hk1
      rw [hcont k] at hk0
      rw [h2 k, List.any_append] at hk1
      simp only [Option.some.injEq] at hk0 hk1
      rw [hk0] at hk1
      simpa [Equal] using hk1

/-- Witness for C2: four distinct integer keys. -/
theorem contains_iff_inserted_witness :
    LawfulComparator intCompare ∧
    ([5, 1, 3, 9] : List Int).Pairwise (fun a b => intCompare a b ≠ 0) ∧
    ∃ s, build intCompare listOneIn 0 [true, false, false, true, true, false] [5, 1, 3, 9]
        = some s ∧
      (∀ k, ∃ b, s.Contains intCompare k = some b ∧
        (b = true ↔ ∃ a ∈ [5, 1, 3, 9], intCompare k a = 0)) ∧
      (([5, 1, 3, 9] : List Int) = [] → ∀ k, s.Contains intCompare k = some false) ∧
      (∀ more, ([5, 1, 3, 9] ++ more).Pairwise (fun a b => intCompare a b ≠ 0) →
        ∃ s1, insertAll intCompare listOneIn s more = some s1 ∧
          ∀ k, s.Contains intCompare k = some true → s1.Contains intCompare k = some true) ∧
      (∀ key, ([5, 1, 3, 9] ++ [key]).Pairwise (fun a b => intCompare a b ≠ 0) →
        ∃ s1, Insert intCompare listOneIn s key = some s1 ∧
          ∀ k, s.Contains intCompare k = some false → s1.Contains intCompare k = some true →
            intCompare k key = 0) :=
  ⟨intCompare_lawful, by decide,
    contains_iff_inserted intCompare_lawful listOneIn 0
      [true, false, false, true, true, false] [5, 1, 3, 9] (by decide)⟩

theorem Rep.next_zero {compare_ : K → K → Int} {s : SkipList K R} {abs : List (Entry K)}
    (hrep : Rep compare_ s abs) {pre t : List (Entry K)} {e : Entry K}
    (hsplit : abs = pre ++ e :: t) :
    s.Next e.idx 0 = some (t.head?.map (fun x => x.idx)) := by
  have h := hrep.linked 0 (by decide)
  rw [levelOf_zero (fun x hx => (hrep.node x hx).2.1), hsplit, List.map_append,
    List.map_cons] at h
  have := (Linked.drop h).next
  rw [this]
  cases t <;> rfl

theorem Rep.first {compare_ : K → K → Int} {s : SkipList K R} {abs : List (Entry K)}
    (hrep : Rep compare_ s abs) : s.Next head_ 0 = some (abs.head?.map (fun x => x.idx)) := by
  have h := hrep.linked 0 (by decide)
  rw [levelOf_zero (fun x hx => (hrep.node x hx).2.1)] at h
  rw [h.next]
  cases abs <;> rfl

theorem collect_spec {compare_ : K → K → Int} {s : SkipList K R} {abs : List (Entry K)}
    (hrep : Rep compare_ s abs) :
    ∀ (t pre : List (Entry K)) (fuel : Nat), abs = pre ++ t → t.length < fuel →
      collect fuel { list_ := s, node_ := t.head?.map (fun x => x.idx) } =
        some (t.map (fun x => x.key), { list_ := s, node_ := none }) := by
  intro t
  induction t with
  | nil =>
    intro pre fuel _ hfuel
    obtain ⟨n, rfl⟩ : ∃ n, fuel = n + 1 := ⟨fuel - 1, by simp at hfuel; omega⟩
    simp [collect, Iterator.Valid]
  | cons e t ih =>
    intro pre fuel hsplit hfuel
    obtain ⟨n, rfl⟩ : ∃ n, fuel = n + 1 := ⟨fuel - 1, by simp at hfuel; omega⟩
    have hmem : e ∈ abs := by rw [hsplit]; simp
    obtain ⟨nd, hnd, hkey⟩ := keyAt_some (hrep.node e hmem).2.2.2.1
    have hnext := hrep.next_zero hsplit
    have hrec := ih (pre ++ [e]) n (by rw [hsplit]; simp)
      (by simp only [List.length_cons] at hfuel; omega)
    simp only [collect, Iterator.Valid, List.head?_cons, Option.map_some', Iterator.key, hnd,
      hkey, Iterator.Next, hnext, hrec, List.map_cons]
    simp

theorem forwardScan_spec {compare_ : K → K → Int} {s : SkipList K R} {abs : List (Entry K)}
    (hrep : Rep compare_ s abs) (fuel : Nat) (hfuel : abs.length < fuel) :
    forwardScan s fuel = some (abs.map (fun x => x.key), { list_ := s, node_ := none }) := by
  unfold SkipList.forwardScan
  simp only [Iterator.SeekToFirst, Iterator.new, hrep.first]
  exact collect_spec hrep abs [] fuel rfl hfuel

theorem sorted_perm_unique {compare_ : K → K → Int} (hc : LawfulComparator compare_)
    {l1 l2 : List K} (h1 : l1.Pairwise (fun a b => compare_ a b < 0))
    (h2 : l2.Pairwise (fun a b => compare_ a b < 0)) (hp : l1.Perm l2) : l1 = l2 := by
  haveI : IsAntisymm K (fun a b => compare_ a b < 0) :=
    ⟨fun a b hab hba => by
      have := hc.symm a b
      omega⟩
  exact List.eq_of_perm_of_sorted hp h1 h2

/-- C3: for pairwise-distinct keys inserted in any order and with any heights
drawn by `RandomHeight`, `SeekToFirst` followed by repeated `Next` terminates,
visits every inserted key exactly once in strictly ascending order, and ends
with an invalid iterator; the `Next` taken at the largest key is the one that
invalidates it.  The visited sequence is the same for every other insertion
order of the same keys and every other generator. -/
theorem forward_scan_sorted {compare_ : K → K → Int} (hc : LawfulComparator compare_)
    (OneIn : R → Nat → Bool × R) (headKey : K) (seed : R) (keys : List K)
    (hpw : keys.Pairwise (fun a b => compare_ a b ≠ 0)) :
    ∃ s visited out, build compare_ OneIn headKey seed keys = some s ∧
      (∀ fuel, keys.length < fuel → forwardScan s fuel = some (visited, out)) ∧
      out.Valid = false ∧
      visited.Perm keys ∧
      visited.Pairwise (fun a b => compare_ a b < 0) ∧
      (∀ k ∈ keys, (∀ k1 ∈ keys, compare_ k1 k ≤ 0) →
        ∃ it it1, (Iterator.new s).Seek compare_ k = some it ∧ it.key = some k ∧
          it.Next = some it1 ∧ it1.Valid = false) ∧
      (∀ (OneIn2 : R → Nat → Bool × R) (headKey2 : K) (seed2 : R) (keys2 : List K),
        keys2.Perm keys →
        ∃ s2 out2, build compare_ OneIn2 headKey2 seed2 keys2 = some s2 ∧
          ∀ fuel, keys.length < fuel → forwardScan s2 fuel = some (visited, out2)) := by
  obtain ⟨s, abs, hb, hrep, hperm⟩ := build_spec hc OneIn headKey seed keys hpw
  have hlen : abs.length = keys.length := by
    have := hperm.length_eq
    simpa using this
  have hsortedKeys : (abs.map (fun x => x.key)).Pairwise (fun a b => compare_ a b < 0) := by
    rw [List.pairwise_map]
    exact hrep.sorted
  refine ⟨s, abs.map (fun x => x.key), { list_ := s, node_ := none }, hb, ?_, rfl, hperm,
    hsortedKeys, ?_, ?_⟩
  · intro fuel hfuel
    exact forwardScan_spec hrep fuel (by omega)
  · intro k hk hmax
    obtain ⟨pre, suf, hsplit, hpre, hsuf, hfge⟩ := hrep.seek hc k
    have hkabs : ∃ e ∈ abs, e.key = k := by
      have := hperm.mem_iff.mpr hk
      simpa [List.mem_map] using this
    obtain ⟨e0, he0, hk0⟩ := hkabs
    have hirr : ¬ compare_ k k < 0 := hc.irrefl k
    cases suf with
    | nil =>
      rw [hsplit, List.append_nil] at he0
      have := hpre e0 he0
      rw [hk0] at this
      exact absurd this hirr
    | cons e t =>
      have hmem : e ∈ abs := by rw [hsplit]; simp
      have hsorted := hrep.sorted
      rw [hsplit, List.pairwise_append, List.pairwise_cons] at hsorted
      have htnil : t = [] := by
        cases t with
        | nil => rfl
        | cons e1 t1 =>
          exfalso
          have hlt := hsorted.2.1.1 e1 (List.mem_cons_self _ _)
          have he1 : e1 ∈ abs := by rw [hsplit]; simp
          have hle := hmax e1.key (hperm.mem_iff.mp (List.mem_map.mpr ⟨e1, he1, rfl⟩))
          have hge := hsuf e (List.mem_cons_self _ _)
          rcases lt_or_eq_of_le hle with h6 | h6
          · exact hge (hc.trans _ _ _ hlt h6)
          · exact hge (hc.lt_of_lt_of_eq _ _ _ hlt h6)
      subst htnil
      have hek : e.key = k := by
        rw [hsplit] at he0
        rcases List.mem_append.mp he0 with h | h
        · have := hpre e0 h
          rw [hk0] at this
          exact absurd this hirr
        · simp only [List.mem_singleton] at h
          rw [← h]; exact hk0
      obtain ⟨nd, hnd, hkey⟩ := keyAt_some (hrep.node e hmem).2.2.2.1
      refine ⟨{ list_ := s, node_ := some e.idx }, { list_ := s, node_ := none }, ?_, ?_, ?_, rfl⟩
      · simp only [Iterator.Seek, Iterator.new, hfge]
        rfl
      · simp only [Iterator.key, hnd, hkey, hek]
      · simp only [Iterator.Next, hrep.next_zero hsplit]
        rfl
  · intro OneIn2 headKey2 seed2 keys2 hperm2
    have hpw2 : keys2.Pairwise (fun a b => compare_ a b ≠ 0) := by
      refine hperm2.symm.pairwise hpw ?_
      intro a b hab hba
      exact hab (hc.eq_symm hba)
    obtain ⟨s2, abs2, hb2, hrep2, hp2⟩ := build_spec hc OneIn2 headKey2 seed2 keys2 hpw2
    have heq : abs2.map (fun x => x.key) = abs.map (fun x => x.key) := by
      apply sorted_perm_unique hc _ hsortedKeys (hp2.trans (hperm2.trans hperm.symm))
      rw [List.pairwise_map]
      exact hrep2.sorted
    refine ⟨s2, { list_ := s2, node_ := none }, hb2, ?_⟩
    intro fuel hfuel
    rw [← heq]
    apply forwardScan_spec hrep2
    have := hp2.length_eq
    have h3 := hperm2.length_eq
    simp only [List.length_map] at this
    omega

/-- Witness for C3: four distinct integer keys. -/
theorem forward_scan_sorted_witness :
    LawfulComparator intCompare ∧
    ([5, 1, 3, 9] : List Int).Pairwise (fun a b => intCompare a b ≠ 0) ∧
    ∃ s visited out, build intCompare listOneIn 0 [true, false, false, true, true, false]
        [5, 1, 3, 9] = some s ∧
      (∀ fuel, [5, 1, 3, 9].length < fuel → forwardScan s fuel = some (visited, out)) ∧
      out.Valid = false ∧
      visited.Perm [5, 1, 3, 9] ∧
      visited.Pairwise (fun a b => intCompare a b < 0) ∧
      (∀ k ∈ [5, 1, 3, 9], (∀ k1 ∈ [5, 1, 3, 9], intCompare k1 k ≤ 0) →
        ∃ it it1, (Iterator.new s).Seek intCompare k = some it ∧ it.key = some k ∧
          it.Next = some it1 ∧ it1.Valid = false) ∧
      (∀ (OneIn2 : List Bool → Nat → Bool × List Bool) (headKey2 : Int) (seed2 : List Bool)
        (keys2 : List Int), keys2.Perm [5, 1, 3, 9] →
        ∃ s2 out2, build intCompare OneIn2 headKey2 seed2 keys2 = some s2 ∧
          ∀ fuel, [5, 1, 3, 9].length < fuel → forwardScan s2 fuel = some (visited, out2)) :=
  ⟨intCompare_lawful, by decide,
    forward_scan_sorted intCompare_lawful listOneIn 0
      [true, false, false, true, true, false] [5, 1, 3, 9] (by decide)⟩

theorem lessThanAssert_head (compare_ : K → K → Int) (s : SkipList K R) (key : K) :
    lessThanAssert compare_ s key head_ = some true := by
  simp [lessThanAssert]

theorem lessThanAssert_some {compare_ : K → K → Int} {s : SkipList K R} {key k : K} {x : Nat}
    (hk : s.keyAt x = some k) (hlt : compare_ k key < 0) :
    lessThanAssert compare_ s key x = some true := by
  obtain ⟨nd, hnd, hkey⟩ := keyAt_some hk
  unfold lessThanAssert
  split
  · rfl
  · simp [hnd, hkey, hlt]

theorem FindLessThan_loop_spec {compare_ : K → K → Int} {s : SkipList K R} {key : K} :
    ∀ (fuel x level : Nat) (pre suf : List (Entry K)),
      (∀ e ∈ pre ++ suf, 1 ≤ e.height ∧ s.keyAt e.idx = some e.key) →
      (∀ l, l ≤ level → Linked s l x (levelOf l (pre ++ suf))) →
      (∀ e ∈ pre, compare_ e.key key < 0) →
      (∀ e ∈ suf, ¬ compare_ e.key key < 0) →
      lessThanAssert compare_ s key x = some true →
      pre.length + level < fuel →
      FindLessThan.loop compare_ s key fuel x level =
        some (lastFrom x (pre.map (fun e => e.idx))) := by
  intro fuel
  induction fuel with
  | zero => intro x level pre suf _ _ _ _ _ hf; omega
  | succ fuel ih =>
    intro x level pre suf hnode hlink hpre hsuf hassert hfuel
    rcases levelOf_split level pre with hnil | ⟨a, n, b, hab, ha, hn⟩
    · have hnext : s.Next x level = some (levelOf level suf).head? := by
        have := (hlink level le_rfl).next
        rwa [levelOf_append, hnil, List.nil_append] at this
      have hdown : (if level = 0 then some x
          else FindLessThan.loop compare_ s key fuel x (level - 1)) =
          some (lastFrom x (pre.map (fun e => e.idx))) := by
        by_cases hl0 : level = 0
        · subst hl0
          have hpre_nil : pre = [] := by
            cases pre with
            | nil => rfl
            | cons e t =>
              have h1 := (hnode e (by simp)).1
              rw [levelOf_cons_pos (by omega)] at hnil
              cases hnil
          subst hpre_nil
          rfl
        · rw [if_neg hl0]
          exact ih x (level - 1) pre suf hnode (fun l hl => hlink l (by omega)) hpre hsuf
            hassert (by omega)
      unfold FindLessThan.loop
      simp only [hassert, hnext]
      cases hs : levelOf level suf with
      | nil => simpa using hdown
      | cons m ms =>
        have hm : m ∈ levelOf level suf := by rw [hs]; exact List.mem_cons_self _ _
        obtain ⟨e, he, _, rfl⟩ := mem_levelOf.mp hm
        obtain ⟨nd, hnd, hkey⟩ := keyAt_some (hnode e (List.mem_append_right _ he)).2
        have hge : compare_ nd.key key ≥ 0 := by
          have := hsuf e he
          rw [hkey]
          omega
        simp only [List.head?_cons, hnd, hge, if_true]
        exact hdown
    · subst hab
      have hchain : ∀ l, l ≤ level →
          levelOf l (a ++ n :: b ++ suf) = levelOf l a ++ n.idx :: levelOf l (b ++ suf) := by
        intro l hl
        rw [List.append_assoc, levelOf_append, List.cons_append,
          levelOf_cons_pos (by omega)]
      have hnext : s.Next x level = some (some n.idx) := by
        have := (hlink level le_rfl).next
        rwa [hchain level le_rfl, ha] at this
      have hk := (hnode n (by simp)).2
      obtain ⟨nd, hnd, hkey⟩ := keyAt_some hk
      have hlt : compare_ n.key key < 0 := hpre n (by simp)
      have hnge : ¬ compare_ nd.key key ≥ 0 := by
        rw [hkey]
        omega
      unfold FindLessThan.loop
      simp only [hassert, hnext, hnd, hnge, if_false]
      rw [ih n.idx level b suf
        (fun e he => hnode e (by
          simp only [List.mem_append, List.mem_cons] at he ⊢
          tauto))
        (fun l hl => by
          have := hlink l hl
          rw [hchain l hl] at this
          exact this.drop)
        (fun e he => hpre e (by simp [he])) hsuf (lessThanAssert_some hk hlt)
        (by simp only [List.length_append, List.length_cons] at hfuel; omega)]
      rw [List.map_append, List.map_cons, lastFrom_append_cons]

theorem FindLast_loop_spec {s : SkipList K R} :
    ∀ (fuel x level : Nat) (rest : List (Entry K)),
      (∀ e ∈ rest, 1 ≤ e.height) →
      (∀ l, l ≤ level → Linked s l x (levelOf l rest)) →
      rest.length + level < fuel →
      FindLast.loop s fuel x level = some (lastFrom x (rest.map (fun e => e.idx))) := by
  intro fuel
  induction fuel with
  | zero => intro x level rest _ _ hf; omega
  | succ fuel ih =>
    intro x level rest hnode hlink hfuel
    rcases levelOf_split level rest with hnil | ⟨a, n, b, hab, ha, hn⟩
    · have hnext : s.Next x level = some none := by
        have := (hlink level le_rfl).next
        rwa [hnil] at this
      unfold FindLast.loop
      simp only [hnext]
      by_cases hl0 : level = 0
      · subst hl0
        have hrest_nil : rest = [] := by
          cases rest with
          | nil => rfl
          | cons e t =>
            have h1 := hnode e (by simp)
            rw [levelOf_cons_pos (by omega)] at hnil
            cases hnil
        subst hrest_nil
        rfl
      · rw [if_neg hl0]
        exact ih x (level - 1) rest hnode (fun l hl => hlink l (by omega)) (by omega)
    · subst hab
      have hchain : ∀ l, l ≤ level →
          levelOf l (a ++ n :: b) = levelOf l a ++ n.idx :: levelOf l b := by
        intro l hl
        rw [levelOf_append, levelOf_cons_pos (by omega)]
      have hnext : s.Next x level = some (some n.idx) := by
        have := (hlink level le_rfl).next
        rwa [hchain level le_rfl, ha] at this
      unfold FindLast.loop
      simp only [hnext]
      rw [ih n.idx level b (fun e he => hnode e (by simp [he]))
        (fun l hl => by
          have := hlink l hl
          rw [hchain l hl] at this
          exact this.drop)
        (by simp only [List.length_append, List.length_cons] at hfuel; omega)]
      rw [List.map_append, List.map_cons, lastFrom_append_cons]

theorem FindLessThanFrom_spec {compare_ : K → K → Int} {s : SkipList K R}
    {abs pre suf : List (Entry K)} {key : K} (hrep : Rep compare_ s abs)
    (hsplit : abs = pre ++ suf) (hpre : ∀ e ∈ pre, compare_ e.key key < 0)
    (hsuf : ∀ e ∈ suf, ¬ compare_ e.key key < 0) (height : Nat) (h1 : 1 ≤ height)
    (h2 : height ≤ kMaxHeight) :
    s.FindLessThanFrom compare_ height key =
      some (lastFrom head_ (pre.map (fun e => e.idx))) := by
  subst hsplit
  unfold FindLessThanFrom
  rw [if_neg (by omega)]
  apply FindLessThan_loop_spec _ _ _ pre suf
    (fun e he => ⟨(hrep.node e he).2.1, (hrep.node e he).2.2.2.1⟩)
    (fun l hl => hrep.linked l (by omega)) hpre hsuf (lessThanAssert_head _ _ _)
  have := hrep.size
  simp only [List.length_append] at this
  unfold searchFuel
  omega

theorem FindLastFrom_spec {compare_ : K → K → Int} {s : SkipList K R}
    {abs : List (Entry K)} (hrep : Rep compare_ s abs) (height : Nat) (h1 : 1 ≤ height)
    (h2 : height ≤ kMaxHeight) :
    s.FindLastFrom height = some (lastFrom head_ (abs.map (fun e => e.idx))) := by
  unfold FindLastFrom
  rw [if_neg (by omega)]
  apply FindLast_loop_spec _ _ _ abs (fun e he => (hrep.node e he).2.1)
    (fun l hl => hrep.linked l (by omega))
  have := hrep.size
  unfold searchFuel
  omega

theorem map_getElem?_range {α : Type} (l : List α) :
    (List.range l.length).map (fun i => l[i]?) = l.map some := by
  apply List.ext_getElem
  · simp
  · intro i h1 h2
    simp only [List.length_map, List.length_range] at h1
    simp [h1]

theorem perm_range_of_nodup {L : List Nat} {m : Nat} (hnd : L.Nodup)
    (hr : ∀ i ∈ L, 0 < i ∧ i < m + 1) (hlen : L.length = m) :
    L.Perm ((List.range m).map (fun i => i + 1)) := by
  apply (List.subperm_of_subset hnd _).perm_of_length_le
  · simp [hlen]
  · intro i hi
    have := hr i hi
    simp only [List.mem_map, List.mem_range]
    exact ⟨i - 1, by omega, by omega⟩

theorem Rep.keys_perm {compare_ : K → K → Int} {s : SkipList K R} {abs : List (Entry K)}
    (hrep : Rep compare_ s abs) : (abs.map (fun e => e.key)).Perm s.storedKeys := by
  have hL := perm_range_of_nodup (m := abs.length) hrep.nodup
    (by
      intro i hi
      obtain ⟨e, he, rfl⟩ := List.mem_map.mp hi
      have := hrep.idx_lt he
      have h2 := hrep.size
      exact ⟨(hrep.node e he).1, by omega⟩)
    (by simp)
  have h1 : abs.map (fun e => some e.key) = (abs.map (fun e => e.idx)).map s.keyAt := by
    rw [List.map_map]
    apply List.map_congr_left
    intro e he
    exact ((hrep.node e he).2.2.2.1).symm
  have h2 : ((List.range abs.length).map (fun i => i + 1)).map s.keyAt =
      s.storedKeys.map some := by
    unfold storedKeys
    have hsize := hrep.size
    cases hn : s.nodes with
    | nil => rw [hn] at hsize; simp at hsize
    | cons hd tl =>
      rw [hn] at hsize
      simp only [List.length_cons, Nat.add_right_cancel_iff] at hsize
      simp only [List.tail_cons]
      rw [← hsize]
      have h3 := map_getElem?_range (tl.map (fun nd => nd.key))
      simp only [List.length_map] at h3
      rw [← h3, List.map_map]
      apply List.map_congr_left
      intro i _
      simp [keyAt, hn]
  have h3 := hL.map s.keyAt
  rw [← h1, h2] at h3
  have h4 := h3.filterMap id
  have h5 : ∀ l : List K, (l.map some).filterMap id = l := by
    intro l
    induction l with
    | nil => rfl
    | cons a t ih => simp [List.filterMap_cons, ih]
  have h6 : abs.map (fun e => some e.key) = (abs.map (fun e => e.key)).map some := by
    rw [List.map_map]
    rfl
  rw [h6, h5, h5] at h4
  exact h4

set_option maxRecDepth 100000 in
theorem exampleList_eq :
    build intCompare listOneIn 0 [true, false, false, true, true, false] [5, 1, 3, 9] =
      some exampleList := by
  rfl

theorem exampleList_wellFormed : WellFormed intCompare exampleList := by
  obtain ⟨s, abs, hb, hrep, _⟩ := build_spec intCompare_lawful listOneIn 0
    [true, false, false, true, true, false] [5, 1, 3, 9] (by decide)
  rw [exampleList_eq] at hb
  cases hb
  exact ⟨abs, hrep⟩

theorem Rep.stored_iff {compare_ : K → K → Int} {s : SkipList K R} {abs : List (Entry K)}
    (hrep : Rep compare_ s abs) (k : K) : k ∈ s.storedKeys ↔ ∃ e ∈ abs, e.key = k := by
  rw [← hrep.keys_perm.mem_iff, List.mem_map]

theorem Rep.stored_nil_iff {compare_ : K → K → Int} {s : SkipList K R} {abs : List (Entry K)}
    (hrep : Rep compare_ s abs) : s.storedKeys = [] ↔ abs = [] := by
  have h := hrep.keys_perm.length_eq
  simp only [List.length_map] at h
  constructor
  · intro h1
    rw [h1] at h
    exact List.length_eq_zero.mp h
  · intro h1
    rw [h1] at h
    exact List.length_eq_zero.mp h.symm

theorem eq_nil_or_snoc {α : Type} (l : List α) : l = [] ∨ ∃ L b, l = L ++ [b] := by
  rcases List.eq_nil_or_concat l with h | ⟨L, b, h⟩
  · exact Or.inl h
  · exact Or.inr ⟨L, b, by rw [h, List.concat_eq_append]⟩

theorem LawfulComparator.le_refl {compare_ : K → K → Int}
    (hc : LawfulComparator compare_) (a : K) : compare_ a a ≤ 0 := by
  have := hc.symm a a
  omega

/-- C4: on a well-formed skip list, for an iterator whose current key is `k`,
`Prev()` returns; it is `FindLessThan(k)` with `head_` mapped to the invalid
iterator.  The new position is the largest stored key strictly less than `k`,
and the iterator is invalid exactly when `FindLessThan` returned `head_`, which
is exactly when no stored key is below `k` (`k` is the smallest stored key). -/
theorem prev_largest_less {compare_ : K → K → Int} (hc : LawfulComparator compare_)
    {s : SkipList K R} (hwf : WellFormed compare_ s) (it : Iterator K R) (hit : it.list_ = s)
    (k : K) (hk : it.key = some k) :
    ∃ r it1, s.FindLessThan compare_ k = some r ∧ it.Prev compare_ = some it1 ∧
      it1.list_ = s ∧
      (it1.Valid = false ↔ r = head_) ∧
      (it1.Valid = false ↔ ∀ k1 ∈ s.storedKeys, compare_ k k1 ≤ 0) ∧
      (it1.Valid = true → ∃ k2, it1.key = some k2 ∧ k2 ∈ s.storedKeys ∧ compare_ k2 k < 0 ∧
        ∀ k1 ∈ s.storedKeys, compare_ k1 k < 0 → compare_ k1 k2 ≤ 0) := by
  obtain ⟨abs, hrep⟩ := hwf
  obtain ⟨pre, suf, hsplit, hpre, hsuf⟩ := sorted_split hc k abs hrep.sorted
  have hflt : s.FindLessThan compare_ k = some (lastFrom head_ (pre.map (fun e => e.idx))) :=
    FindLessThanFrom_spec hrep hsplit hpre hsuf s.max_height_ hrep.mh_pos hrep.mh_le
  subst hit
  generalize hr : lastFrom head_ (pre.map (fun e => e.idx)) = r at hflt
  have hprev : it.Prev compare_ = some { it with node_ := if r = head_ then none else some r } := by
    unfold Iterator.key at hk
    unfold Iterator.Prev
    cases hnode : it.node_ with
    | none => simp [hnode] at hk
    | some i =>
      simp only [hnode] at hk ⊢
      cases hnd : it.list_.nodes[i]? with
      | none => simp [hnd] at hk
      | some nd =>
        simp only [hnd, Option.some.injEq] at hk ⊢
        rw [hk, hflt]
  refine ⟨_, _, hflt, hprev, rfl, ?_⟩
  rcases eq_nil_or_snoc pre with hnil | ⟨L, b, hL⟩
  · subst hnil
    simp only [List.map_nil, lastFrom] at hr
    subst hr
    simp only [if_true, Iterator.Valid, bne_self_eq_false, true_iff,
      Bool.false_eq_true, false_imp_iff, and_true, true_and]
    intro k1 hk1
    obtain ⟨e, he, rfl⟩ := (hrep.stored_iff k1).mp hk1
    rw [hsplit, List.nil_append] at he
    have h1 := hsuf e he
    have h2 := hc.symm k e.key
    have h3 := hc.symm e.key k
    omega
  · subst hL
    have hb : b ∈ abs := by rw [hsplit]; simp
    have hbpos := (hrep.node b hb).1
    have hlast : lastFrom head_ ((L ++ [b]).map (fun e => e.idx)) = b.idx := by
      rw [List.map_append, List.map_cons, List.map_nil, lastFrom_append_cons]
      rfl
    have hne : ¬ b.idx = head_ := by unfold head_; omega
    have hbk := hpre b (by simp)
    rw [hlast] at hr
    subst hr
    simp only [hne, if_false, Iterator.Valid, false_iff]
    refine ⟨by simp, ?_, ?_⟩
    · constructor
      · intro h; simp at h
      · intro h
        have h1 := h b.key ((hrep.stored_iff _).mpr ⟨b, hb, rfl⟩)
        have h2 := hc.symm b.key k
        omega
    · intro _
      obtain ⟨nd, hnd, hkey⟩ := keyAt_some (hrep.node b hb).2.2.2.1
      refine ⟨b.key, ?_, (hrep.stored_iff _).mpr ⟨b, hb, rfl⟩, hbk, ?_⟩
      · simp only [Iterator.key, hnd, hkey]
      · intro k1 hk1 hlt
        obtain ⟨e, he, rfl⟩ := (hrep.stored_iff k1).mp hk1
        have hsorted := hrep.sorted
        rw [hsplit, List.pairwise_append, List.pairwise_append] at hsorted
        rw [hsplit] at he
        rcases List.mem_append.mp he with h | h
        · rcases List.mem_append.mp h with h | h
          · exact Int.le_of_lt (hsorted.1.2.2 e h b (by simp))
          · simp only [List.mem_singleton] at h
            subst h
            exact hc.le_refl _
        · exact absurd hlt (hsuf e h)

/-- Witness for C4: the iterator on key `5` of the example list. -/
theorem prev_largest_less_witness :
    LawfulComparator intCompare ∧ WellFormed intCompare exampleList ∧
    (⟨exampleList, some 1⟩ : Iterator Int (List Bool)).key = some 5 ∧
    ∃ r it1, exampleList.FindLessThan intCompare 5 = some r ∧
      (⟨exampleList, some 1⟩ : Iterator Int (List Bool)).Prev intCompare = some it1 ∧
      it1.list_ = exampleList ∧
      (it1.Valid = false ↔ r = head_) ∧
      (it1.Valid = false ↔ ∀ k1 ∈ exampleList.storedKeys, intCompare 5 k1 ≤ 0) ∧
      (it1.Valid = true → ∃ k2, it1.key = some k2 ∧ k2 ∈ exampleList.storedKeys ∧
        intCompare k2 5 < 0 ∧
        ∀ k1 ∈ exampleList.storedKeys, intCompare k1 5 < 0 → intCompare k1 k2 ≤ 0) :=
  ⟨intCompare_lawful, exampleList_wellFormed, rfl,
    prev_largest_less intCompare_lawful exampleList_wellFormed ⟨exampleList, some 1⟩ rfl 5 rfl⟩

/-- C5: on a well-formed skip list `SeekToFirst` and `SeekToLast` return;
`SeekToFirst` positions the iterator on the smallest stored key and
`SeekToLast` on the largest; each leaves the iterator invalid exactly when the
list stores no key, `FindLast` returning `head_` in that case.  A freshly
constructed iterator is invalid. -/
theorem seek_to_first_and_last {compare_ : K → K → Int} (hc : LawfulComparator compare_)
    {s : SkipList K R} (hwf : WellFormed compare_ s) (it0 : Iterator K R)
    (h0 : it0.list_ = s) :
    (∃ it, it0.SeekToFirst = some it ∧ it.list_ = s ∧
      (it.Valid = false ↔ s.storedKeys = []) ∧
      (it.Valid = true → ∃ k, it.key = some k ∧ k ∈ s.storedKeys ∧
        ∀ k1 ∈ s.storedKeys, compare_ k k1 ≤ 0)) ∧
    (∃ r it, s.FindLast = some r ∧ it0.SeekToLast = some it ∧ it.list_ = s ∧
      (r = head_ ↔ s.storedKeys = []) ∧
      (it.Valid = false ↔ s.storedKeys = []) ∧
      (it.Valid = true → ∃ k, it.key = some k ∧ k ∈ s.storedKeys ∧
        ∀ k1 ∈ s.storedKeys, compare_ k1 k ≤ 0)) ∧
    (Iterator.new s).Valid = false := by
  obtain ⟨abs, hrep⟩ := hwf
  subst h0
  have hsorted := hrep.sorted
  refine ⟨?_, ?_, rfl⟩
  · refine ⟨{ it0 with node_ := abs.head?.map (fun x => x.idx) }, ?_, rfl, ?_⟩
    · simp only [Iterator.SeekToFirst, hrep.first]
    · rw [hrep.stored_nil_iff]
      cases habs : abs with
      | nil => simp [Iterator.Valid]
      | cons e t =>
        have hmem : e ∈ abs := by rw [habs]; simp
        obtain ⟨nd, hnd, hkey⟩ := keyAt_some (hrep.node e hmem).2.2.2.1
        refine ⟨by simp [Iterator.Valid], ?_⟩
        intro _
        refine ⟨e.key, ?_, (hrep.stored_iff _).mpr ⟨e, hmem, rfl⟩, ?_⟩
        · simp only [Iterator.key, List.head?_cons, Option.map_some', hnd, hkey]
        · intro k1 hk1
          obtain ⟨e1, he1, rfl⟩ := (hrep.stored_iff k1).mp hk1
          rw [habs, List.pairwise_cons] at hsorted
          rw [habs] at he1
          rcases List.mem_cons.mp he1 with h | h
          · subst h
            exact hc.le_refl _
          · exact Int.le_of_lt (hsorted.1 e1 h)
  · have hfl : it0.list_.FindLast = some (lastFrom head_ (abs.map (fun e => e.idx))) :=
      FindLastFrom_spec hrep it0.list_.max_height_ hrep.mh_pos hrep.mh_le
    generalize hr : lastFrom head_ (abs.map (fun e => e.idx)) = r at hfl
    refine ⟨r, { it0 with node_ := if r = head_ then none else some r }, hfl, ?_, rfl, ?_⟩
    · simp only [Iterator.SeekToLast, hfl]
    · rw [hrep.stored_nil_iff]
      rcases eq_nil_or_snoc abs with hnil | ⟨L, b, hL⟩
      · subst hnil
        simp only [List.map_nil, lastFrom] at hr
        subst hr
        simp [Iterator.Valid]
      · have hb : b ∈ abs := by rw [hL]; simp
        have hbpos := (hrep.node b hb).1
        have hlast : lastFrom head_ (abs.map (fun e => e.idx)) = b.idx := by
          rw [hL, List.map_append, List.map_cons, List.map_nil, lastFrom_append_cons]
          rfl
        have hne : ¬ b.idx = head_ := by unfold head_; omega
        have hnn : abs ≠ [] := by rw [hL]; simp
        rw [hlast] at hr
        subst hr
        simp only [hne, if_false, Iterator.Valid, hnn, false_iff, iff_false]
        refine ⟨trivial, by simp, ?_⟩
        intro _
        obtain ⟨nd, hnd, hkey⟩ := keyAt_some (hrep.node b hb).2.2.2.1
        refine ⟨b.key, ?_, (hrep.stored_iff _).mpr ⟨b, hb, rfl⟩, ?_⟩
        · simp only [Iterator.key, hnd, hkey]
        · intro k1 hk1
          obtain ⟨e1, he1, rfl⟩ := (hrep.stored_iff k1).mp hk1
          rw [hL, List.pairwise_append] at hsorted
          rw [hL] at he1
          rcases List.mem_append.mp he1 with h | h
          · exact Int.le_of_lt (hsorted.2.2 e1 h b (by simp))
          · simp only [List.mem_singleton] at h
            subst h
            exact hc.le_refl _

/-- Witness for C5: the example list with a fresh iterator. -/
theorem seek_to_first_and_last_witness :
    LawfulComparator intCompare ∧ WellFormed intCompare exampleList ∧
    (∃ it, (Iterator.new exampleList).SeekToFirst = some it ∧ it.list_ = exampleList ∧
      (it.Valid = false ↔ exampleList.storedKeys = []) ∧
      (it.Valid = true → ∃ k, it.key = some k ∧ k ∈ exampleList.storedKeys ∧
        ∀ k1 ∈ exampleList.storedKeys, intCompare k k1 ≤ 0)) ∧
    (∃ r it, exampleList.FindLast = some r ∧
      (Iterator.new exampleList).SeekToLast = some it ∧ it.list_ = exampleList ∧
      (r = head_ ↔ exampleList.storedKeys = []) ∧
      (it.Valid = false ↔ exampleList.storedKeys = []) ∧
      (it.Valid = true → ∃ k, it.key = some k ∧ k ∈ exampleList.storedKeys ∧
        ∀ k1 ∈ exampleList.storedKeys, intCompare k1 k ≤ 0)) ∧
    (Iterator.new exampleList).Valid = false :=
  ⟨intCompare_lawful, exampleList_wellFormed,
    seek_to_first_and_last intCompare_lawful exampleList_wellFormed
      (Iterator.new exampleList) rfl⟩

/-- C6: for every state of the generator `RandomHeight` returns, with a height
between `1` and `kMaxHeight = 12`, so both of its final assertions hold.  The
height is `1` plus the number of leading successful `OneIn(4)` draws among the
first `11`: the loop stops at the first failed draw or when the height
reaches `12`, after at most `11` promotions, and it consumes exactly the draws
it tested. -/
theorem random_height_in_range (OneIn : R → Nat → Bool × R) (rnd : R) :
    ∃ h rnd1, RandomHeight OneIn rnd = some (h, rnd1) ∧
      0 < h ∧ h ≤ kMaxHeight ∧ kMaxHeight = 12 ∧ kBranching = 4 ∧
      h = 1 + ((draws OneIn 11 rnd).takeWhile id).length ∧
      (∀ i, i < h - 1 → (draws OneIn 11 rnd)[i]? = some true) ∧
      (h < 12 → (draws OneIn 11 rnd)[h - 1]? = some false) ∧
      h - 1 ≤ 11 ∧
      rnd1 = afterDraws OneIn (min h 11) rnd := by
  have hspec := RandomHeight_spec OneIn rnd
  obtain ⟨hb1, hb2⟩ := RandomHeight_bounds hspec
  have hlen : ∀ (n : Nat) (r : R), (draws OneIn n r).length = n := by
    intro n
    induction n with
    | zero => intro r; rfl
    | succ n ih => intro r; simp [draws, ih]
  have htake : ∀ (l : List Bool),
      (∀ i, i < (l.takeWhile id).length → l[i]? = some true) ∧
      ((l.takeWhile id).length < l.length → l[(l.takeWhile id).length]? = some false) := by
    intro l
    induction l with
    | nil => simp
    | cons b t ih =>
      cases b with
      | true =>
        simp only [List.takeWhile_cons, id, if_true, List.length_cons]
        constructor
        · intro i hi
          cases i with
          | zero => simp
          | succ i => simpa using ih.1 i (by omega)
        · intro h
          simpa using ih.2 (by omega)
      | false => simp
  refine ⟨_, _, hspec, hb1, hb2, rfl, rfl, rfl, ?_, ?_, ?_, ?_⟩
  · intro i hi
    exact (htake _).1 i (by omega)
  · intro h
    have := (htake (draws OneIn 11 rnd)).2 (by rw [hlen]; omega)
    simpa using this
  · have : kMaxHeight = 12 := rfl
    omega
  · congr 1
    omega

theorem linkStep_shape {s s1 : SkipList K R} {x i : Nat} {prev : List (Option Nat)}
    (h : linkStep s x prev i = some s1) : SameShape s1 s := by
  unfold linkStep at h
  split at h
  · split at h
    · cases h
    · split at h
      · cases h
      · rename_i s2 hs2
        exact (SameShape.of_SetNext h).trans (SameShape.of_SetNext hs2)
  · cases h

theorem linkLoop_shape {x : Nat} {prev : List (Option Nat)} :
    ∀ (n i : Nat) (s s1 : SkipList K R), linkLoop s x prev n i = some s1 → SameShape s1 s := by
  intro n
  induction n with
  | zero =>
    intro i s s1 h
    simp only [linkLoop, Option.some.injEq] at h
    subst h
    exact SameShape.refl _
  | succ n ih =>
    intro i s s1 h
    unfold linkLoop at h
    split at h
    · cases h
    · rename_i s2 hs2
      exact (ih _ _ _ h).trans (linkStep_shape hs2)

theorem Insert_shape {compare_ : K → K → Int} {OneIn : R → Nat → Bool × R}
    {s s1 : SkipList K R} {key : K} (h : Insert compare_ OneIn s key = some s1) :
    ∃ height rnd1, RandomHeight OneIn s.rnd_ = some (height, rnd1) ∧
      SameShape s1
        (NewNode (⟨s.nodes, max s.max_height_ height, rnd1⟩ : SkipList K R) key height).2 := by
  unfold Insert at h
  split at h
  · split at h
    · split at h
      · cases h
      · rename_i height rnd1 hrh
        refine ⟨height, rnd1, hrh, ?_⟩
        dsimp only at h
        split at h
        · cases h
        · rename_i prev1 s2 hif
          have hs2 : s2 = (⟨s.nodes, max s.max_height_ height, rnd1⟩ : SkipList K R) := by
            split at hif
            · rename_i hgt
              simp only [GetMaxHeight] at hgt
              simp only [Option.map_eq_some', Prod.mk.injEq] at hif
              obtain ⟨q, _, _, hq⟩ := hif
              rw [← hq, Nat.max_eq_right (by omega)]
            · rename_i hgt
              simp only [GetMaxHeight] at hgt
              simp only [Option.some.injEq, Prod.mk.injEq] at hif
              rw [← hif.2, Nat.max_eq_left (by omega)]
          subst hs2
          exact linkLoop_shape _ _ _ _ h
    · cases h
  · cases h

theorem foldr_max_append (l : List Nat) (h : Nat) :
    (l ++ [h]).foldr max 1 = max (l.foldr max 1) h := by
  induction l with
  | nil =>
    simp only [List.nil_append, List.foldr_cons, List.foldr_nil]
    omega
  | cons a t ih =>
    simp only [List.cons_append, List.foldr_cons, ih]
    omega

theorem foldr_max_ge_one (l : List Nat) : 1 ≤ l.foldr max 1 := by
  induction l with
  | nil => exact Nat.le_refl 1
  | cons a t ih =>
    simp only [List.foldr_cons]
    omega

theorem nodeHeights_of_shape {s1 s0 : SkipList K R} (h : SameShape s1 s0) :
    s1.nodeHeights = s0.nodeHeights := by
  have hall : s1.nodes.map (fun nd => nd.next_.length) =
      s0.nodes.map (fun nd => nd.next_.length) := by
    apply List.ext_getElem?
    intro i
    have := h.height i
    simpa [heightAt] using this
  unfold nodeHeights
  rw [List.map_tail, List.map_tail, hall]

theorem Insert_max_height {compare_ : K → K → Int} {OneIn : R → Nat → Bool × R}
    {s s1 : SkipList K R} {key : K} (h : Insert compare_ OneIn s key = some s1)
    (hne : s.nodes ≠ []) :
    ∃ height rnd1, RandomHeight OneIn s.rnd_ = some (height, rnd1) ∧
      1 ≤ height ∧ height ≤ kMaxHeight ∧
      s1.max_height_ = max s.max_height_ height ∧
      s1.nodeHeights = s.nodeHeights ++ [height] ∧
      s1.nodes.length = s.nodes.length + 1 ∧
      s1.heightAt head_ = s.heightAt head_ := by
  obtain ⟨height, rnd1, hrh, hshape⟩ := Insert_shape h
  obtain ⟨hb1, hb2⟩ := RandomHeight_bounds hrh
  refine ⟨height, rnd1, hrh, hb1, hb2, hshape.mh, ?_, ?_, ?_⟩
  · rw [nodeHeights_of_shape hshape]
    unfold nodeHeights NewNode
    cases hn : s.nodes with
    | nil => exact absurd hn hne
    | cons hd tl => simp
  · rw [hshape.size]
    simp [NewNode]
  · rw [hshape.height, NewNode_heightAt, if_neg]
    · rfl
    · have : 0 < s.nodes.length := List.length_pos.mpr hne
      show head_ ≠ s.nodes.length
      unfold head_
      omega

theorem insertAll_max_height {compare_ : K → K → Int} {OneIn : R → Nat → Bool × R} :
    ∀ (keys : List K) (s s1 : SkipList K R), insertAll compare_ OneIn s keys = some s1 →
      s.nodes ≠ [] → s.max_height_ = s.nodeHeights.foldr max 1 → s.max_height_ ≤ kMaxHeight →
      s1.max_height_ = s1.nodeHeights.foldr max 1 ∧ s1.max_height_ ≤ kMaxHeight ∧
      s.max_height_ ≤ s1.max_height_ ∧
      s1.nodes.length = s.nodes.length + keys.length ∧
      s1.heightAt head_ = s.heightAt head_ := by
  intro keys
  induction keys with
  | nil =>
    intro s s1 h _ hmax hle
    simp only [insertAll, Option.some.injEq] at h
    subst h
    exact ⟨hmax, hle, Nat.le_refl _, rfl, rfl⟩
  | cons k ks ih =>
    intro s s1 h hne hmax hle
    simp only [insertAll] at h
    cases hins : Insert compare_ OneIn s k with
    | none => simp [hins] at h
    | some s2 =>
      simp only [hins] at h
      obtain ⟨height, rnd1, _, hb1, hb2, hmh, hnh, hlen, hhead⟩ := Insert_max_height hins hne
      have hne2 : s2.nodes ≠ [] := by
        intro h0
        rw [h0] at hlen
        simp at hlen
      obtain ⟨a1, a2, a3, a4, a5⟩ := ih s2 s1 h hne2
        (by rw [hmh, hnh, foldr_max_append, hmax]) (by rw [hmh]; omega)
      refine ⟨a1, a2, by omega, ?_, by rw [a5, hhead]⟩
      rw [a4, hlen]
      simp only [List.length_cons]
      omega

/-- C7: after any sequence of successful `Insert` calls on a freshly constructed
list, `max_height_` is the maximum height of the inserted nodes, and `1` when
there is none or all of them have height `1`; it is at most `kMaxHeight = 12`,
the height of the head node; and one more `Insert` never decreases it: the new
value is the larger of the old one and the height drawn for the new node. -/
theorem max_height_is_max_node_height (compare_ : K → K → Int)
    (OneIn : R → Nat → Bool × R) (headKey : K) (seed : R) (keys : List K) (s : SkipList K R)
    (hb : build compare_ OneIn headKey seed keys = some s) :
    s.max_height_ = s.nodeHeights.foldr max 1 ∧
    s.nodeHeights.length = keys.length ∧
    (s.nodeHeights = [] → s.max_height_ = 1) ∧
    ((∀ h ∈ s.nodeHeights, h = 1) → s.max_height_ = 1) ∧
    (∀ h ∈ s.nodeHeights, h ≤ s.max_height_) ∧
    s.max_height_ ≤ kMaxHeight ∧ kMaxHeight = 12 ∧ s.heightAt head_ = some kMaxHeight ∧
    (∀ key s1, Insert compare_ OneIn s key = some s1 →
      s.max_height_ ≤ s1.max_height_ ∧ s1.max_height_ ≤ kMaxHeight ∧
      ∃ height rnd1, RandomHeight OneIn s.rnd_ = some (height, rnd1) ∧
        s1.nodeHeights = s.nodeHeights ++ [height] ∧
        s1.max_height_ = max s.max_height_ height) := by
  rw [build_eq] at hb
  obtain ⟨h1, h2, _, h4, h5⟩ := insertAll_max_height keys _ s hb
    (by simp [emptyList]) rfl (by show 1 ≤ 12; omega)
  have hne : s.nodes ≠ [] := by
    intro h0
    rw [h0] at h4
    simp only [emptyList, List.length_cons, List.length_nil] at h4
    omega
  have hmem : ∀ (l : List Nat), ∀ h ∈ l, h ≤ l.foldr max 1 := by
    intro l
    induction l with
    | nil => intro h hh; cases hh
    | cons a t ih =>
      intro h hh
      simp only [List.foldr_cons]
      rcases List.mem_cons.mp hh with rfl | hh
      · omega
      · have := ih h hh
        omega
  have hones : ∀ (l : List Nat), (∀ h ∈ l, h = 1) → l.foldr max 1 = 1 := by
    intro l
    induction l with
    | nil => intro _; rfl
    | cons a t ih =>
      intro hall
      simp only [List.foldr_cons]
      rw [ih (fun h hh => hall h (List.mem_cons_of_mem _ hh)), hall a (List.mem_cons_self _ _)]
      rfl
  refine ⟨h1, ?_, ?_, ?_, ?_, h2, rfl, ?_, ?_⟩
  · unfold nodeHeights
    simp only [List.length_map, List.length_tail, h4]
    simp [emptyList]
  · intro hnil
    rw [h1, hnil]
    rfl
  · intro hall
    rw [h1]
    exact hones _ hall
  · intro h hh
    rw [h1]
    exact hmem _ h hh
  · rw [h5]
    rfl
  · intro key s1 hins
    obtain ⟨height, rnd1, hrh, hb1, hb2, hmh, hnh, _, _⟩ := Insert_max_height hins hne
    refine ⟨by rw [hmh]; omega, by rw [hmh]; omega, height, rnd1, hrh, hnh, hmh⟩

set_option maxRecDepth 100000 in
/-- Witness for C7: the example list, built from four keys. -/
theorem max_height_is_max_node_height_witness :
    build intCompare listOneIn 0 [true, false, false, true, true, false] [5, 1, 3, 9] =
      some exampleList ∧
    exampleList.max_height_ = exampleList.nodeHeights.foldr max 1 ∧
    exampleList.nodeHeights.length = ([5, 1, 3, 9] : List Int).length ∧
    (exampleList.nodeHeights = [] → exampleList.max_height_ = 1) ∧
    ((∀ h ∈ exampleList.nodeHeights, h = 1) → exampleList.max_height_ = 1) ∧
    (∀ h ∈ exampleList.nodeHeights, h ≤ exampleList.max_height_) ∧
    exampleList.max_height_ ≤ kMaxHeight ∧ kMaxHeight = 12 ∧
    exampleList.heightAt head_ = some kMaxHeight ∧
    (∀ key s1, Insert intCompare listOneIn exampleList key = some s1 →
      exampleList.max_height_ ≤ s1.max_height_ ∧ s1.max_height_ ≤ kMaxHeight ∧
      ∃ height rnd1, RandomHeight listOneIn exampleList.rnd_ = some (height, rnd1) ∧
        s1.nodeHeights = exampleList.nodeHeights ++ [height] ∧
        s1.max_height_ = max exampleList.max_height_ height) :=
  ⟨exampleList_eq,
    max_height_is_max_node_height intCompare listOneIn 0
      [true, false, false, true, true, false] [5, 1, 3, 9] exampleList exampleList_eq⟩

theorem filter_sublist_filter {α : Type} (p q : α → Bool) (hpq : ∀ x, p x = true → q x = true) :
    ∀ l : List α, (l.filter p).Sublist (l.filter q) := by
  intro l
  induction l with
  | nil => exact List.Sublist.slnil
  | cons a t ih =>
    cases hp : p a with
    | true =>
      rw [List.filter_cons_of_pos hp, List.filter_cons_of_pos (hpq a hp)]
      exact ih.cons₂ a
    | false =>
      rw [List.filter_cons_of_neg (by simp [hp])]
      cases hq : q a with
      | true =>
        rw [List.filter_cons_of_pos hq]
        exact ih.cons a
      | false =>
        rw [List.filter_cons_of_neg (by simp [hq])]
        exact ih

theorem Rep.mem_idx {compare_ : K → K → Int} {s : SkipList K R} {abs : List (Entry K)}
    (hrep : Rep compare_ s abs) {i : Nat} (h0 : 0 < i) (hlt : i < s.nodes.length) :
    ∃ e ∈ abs, e.idx = i := by
  have hL := perm_range_of_nodup (m := abs.length) hrep.nodup
    (by
      intro j hj
      obtain ⟨e, he, rfl⟩ := List.mem_map.mp hj
      have := hrep.idx_lt he
      have h2 := hrep.size
      exact ⟨(hrep.node e he).1, by omega⟩)
    (by simp)
  have hmem : i ∈ abs.map (fun e => e.idx) := by
    rw [hL.mem_iff]
    simp only [List.mem_map, List.mem_range]
    have := hrep.size
    exact ⟨i - 1, by omega, by omega⟩
  obtain ⟨e, he, hidx⟩ := List.mem_map.mp hmem
  exact ⟨e, he, hidx⟩

theorem Rep.chainSorted {compare_ : K → K → Int} {s : SkipList K R} {abs : List (Entry K)}
    (hrep : Rep compare_ s abs) (l : Nat) : ChainSorted compare_ s (levelOf l abs) := by
  unfold ChainSorted levelOf
  rw [List.pairwise_map]
  have h1 : (abs.filter (fun e => decide (l < e.height))).Pairwise
      (fun a b => compare_ a.key b.key < 0) := hrep.sorted.sublist (List.filter_sublist _)
  rw [List.Pairwise.and_mem] at h1
  refine h1.imp ?_
  intro a b hab
  obtain ⟨ha, hb, hlt⟩ := hab
  exact ⟨a.key, b.key, (hrep.node a (List.mem_of_mem_filter ha)).2.2.2.1,
    (hrep.node b (List.mem_of_mem_filter hb)).2.2.2.1, hlt⟩

theorem Rep.structural {compare_ : K → K → Int} {s : SkipList K R} {abs : List (Entry K)}
    (hrep : Rep compare_ s abs) : Structural compare_ s := by
  refine ⟨fun l => levelOf l abs, ?_, ?_, ?_, ?_⟩
  · intro l hl
    refine ⟨hrep.linked l hl, hrep.chainSorted l, (levelOf_sublist l abs).nodup hrep.nodup, ?_⟩
    intro hmem
    obtain ⟨e, he, _, hidx⟩ := mem_levelOf.mp hmem
    have := (hrep.node e he).1
    unfold head_ at hidx
    omega
  · intro l h1 _
    unfold levelOf
    apply List.Sublist.map
    apply filter_sublist_filter
    intro e he
    simp only [decide_eq_true_eq] at he ⊢
    omega
  · intro i l h0 hlt _
    constructor
    · intro hmem
      obtain ⟨e, he, hh, hidx⟩ := mem_levelOf.mp hmem
      exact ⟨e.height, by rw [← hidx]; exact (hrep.node e he).2.2.2.2, hh⟩
    · rintro ⟨h, hh, hlh⟩
      obtain ⟨e, he, hidx⟩ := hrep.mem_idx h0 hlt
      have := (hrep.node e he).2.2.2.2
      rw [hidx, hh] at this
      simp only [Option.some.injEq] at this
      exact mem_levelOf.mpr ⟨e, he, by omega, hidx⟩
  · intro l hl _
    apply levelOf_eq_nil
    intro e he
    have := (hrep.node e he).2.2.1
    omega

/-- C13: the constructor returns a list that satisfies the structural
invariant, and on every well-formed list `Insert` of a key that compares equal
to no stored key returns a list that is well-formed and satisfies it again;
hence it holds for every list built by inserting pairwise-distinct keys.
Well-formedness implies the structural invariant. -/
theorem structural_invariant {compare_ : K → K → Int} (hc : LawfulComparator compare_)
    (OneIn : R → Nat → Bool × R) (headKey : K) (seed : R) :
    (∃ s0, SkipList.new headKey seed = some s0 ∧ WellFormed compare_ s0 ∧
      Structural compare_ s0) ∧
    (∀ (s : SkipList K R) (key : K), WellFormed compare_ s →
      (∀ k ∈ s.storedKeys, compare_ key k ≠ 0) →
      ∃ s1, Insert compare_ OneIn s key = some s1 ∧ WellFormed compare_ s1 ∧
        Structural compare_ s1) ∧
    (∀ keys : List K, keys.Pairwise (fun a b => compare_ a b ≠ 0) →
      ∃ s, build compare_ OneIn headKey seed keys = some s ∧ WellFormed compare_ s ∧
        Structural compare_ s) ∧
    (∀ s : SkipList K R, WellFormed compare_ s → Structural compare_ s) := by
  refine ⟨?_, ?_, ?_, ?_⟩
  · exact ⟨_, new_eq headKey seed, ⟨[], Rep_emptyList compare_ headKey seed⟩,
      (Rep_emptyList compare_ headKey seed).structural⟩
  · intro s key hwf hfresh
    obtain ⟨abs, hrep⟩ := hwf
    obtain ⟨s1, h, rnd1, pre, suf, _, hins, _, _, _, hrep1, _⟩ :=
      Insert_spec hc OneIn hrep (fun e he => hfresh e.key ((hrep.stored_iff _).mpr ⟨e, he, rfl⟩))
    exact ⟨s1, hins, ⟨_, hrep1⟩, hrep1.structural⟩
  · intro keys hpw
    obtain ⟨s, abs, hb, hrep, _⟩ := build_spec hc OneIn headKey seed keys hpw
    exact ⟨s, hb, ⟨abs, hrep⟩, hrep.structural⟩
  · rintro s ⟨abs, hrep⟩
    exact hrep.structural

/-- Witness for C13: the integer comparator. -/
theorem structural_invariant_witness :
    LawfulComparator intCompare ∧
    (∃ s0, SkipList.new (0 : Int) ([] : List Bool) = some s0 ∧ WellFormed intCompare s0 ∧
      Structural intCompare s0) ∧
    (∀ (s : SkipList Int (List Bool)) (key : Int), WellFormed intCompare s →
      (∀ k ∈ s.storedKeys, intCompare key k ≠ 0) →
      ∃ s1, Insert intCompare listOneIn s key = some s1 ∧ WellFormed intCompare s1 ∧
        Structural intCompare s1) ∧
    (∀ keys : List Int, keys.Pairwise (fun a b => intCompare a b ≠ 0) →
      ∃ s, build intCompare listOneIn 0 [] keys = some s ∧ WellFormed intCompare s ∧
        Structural intCompare s) ∧
    (∀ s : SkipList Int (List Bool), WellFormed intCompare s → Structural intCompare s) :=
  ⟨intCompare_lawful, structural_invariant intCompare_lawful listOneIn 0 []⟩

/-- C14: on a well-formed list `FindGreaterOrEqual(key, prev)` with a non-null
`prev` returns, and for every level `l < max_height_` the chain of level `l`
splits into the nodes with key below `key` followed by the nodes with key not
below `key`; `prev[l]` is the last node of the first part, `head_` if that part
is empty, and its successor on level `l` is the first node of the second part
or `nullptr`.  The entries of `prev` from `max_height_` up are not written.
Since the chain is strictly increasing, a node whose key equals no stored key,
spliced in after `prev[l]`, leaves the level strictly increasing. -/
theorem find_greater_or_equal_fills_prev {compare_ : K → K → Int}
    (hc : LawfulComparator compare_) {s : SkipList K R} (hwf : WellFormed compare_ s)
    (key : K) (prev : List (Option Nat)) (hlen : prev.length = kMaxHeight) :
    ∃ x prev1, s.FindGreaterOrEqual compare_ key (some prev) = some (x, some prev1) ∧
      prev1.length = kMaxHeight ∧
      (∀ l, s.max_height_ ≤ l → prev1[l]? = prev[l]?) ∧
      ∀ l, l < s.max_height_ → ∃ (before after : List Nat) (q : Nat),
        Linked s l head_ (before ++ after) ∧
        ChainSorted compare_ s (before ++ after) ∧
        (∀ i ∈ before, ∃ k, s.keyAt i = some k ∧ compare_ k key < 0) ∧
        (∀ i ∈ after, ∃ k, s.keyAt i = some k ∧ 0 ≤ compare_ k key ∧
          (compare_ key k ≠ 0 → compare_ key k < 0)) ∧
        prev1[l]? = some (some q) ∧ q = lastFrom head_ before ∧
        s.Next q l = some after.head? := by
  obtain ⟨abs, hrep⟩ := hwf
  obtain ⟨pre, suf, hsplit, hpre, hsuf⟩ := sorted_split hc key abs hrep.sorted
  obtain ⟨prev1, hfge, _, hprev1⟩ := FindGreaterOrEqualFrom_spec hrep hsplit hpre hsuf
    s.max_height_ hrep.mh_pos hrep.mh_le (some prev) (fun p hp => by cases hp; exact hlen)
  obtain ⟨p1, rfl, hp1len, hp1low, hp1high⟩ := hprev1 _ rfl
  refine ⟨_, p1, hfge, hp1len, hp1high, ?_⟩
  intro l hl
  have hlink := hrep.linked l (by have := hrep.mh_le; omega)
  have hsorted := hrep.chainSorted l
  rw [hsplit, levelOf_append] at hlink hsorted
  refine ⟨levelOf l pre, levelOf l suf, _, hlink, hsorted, ?_, ?_, hp1low l hl, rfl,
    hlink.next_lastFrom⟩
  · intro i hi
    obtain ⟨e, he, _, hidx⟩ := mem_levelOf.mp hi
    refine ⟨e.key, ?_, hpre e he⟩
    rw [← hidx]
    exact (hrep.node e (by rw [hsplit]; exact List.mem_append_left _ he)).2.2.2.1
  · intro i hi
    obtain ⟨e, he, _, hidx⟩ := mem_levelOf.mp hi
    refine ⟨e.key, ?_, ?_, ?_⟩
    · rw [← hidx]
      exact (hrep.node e (by rw [hsplit]; exact List.mem_append_right _ he)).2.2.2.1
    · have := hsuf e he
      omega
    · intro hne
      exact hc.lt_of_not_lt (hsuf e he) hne

/-- Witness for C14: the example list, key `4` and an unwritten `prev`. -/
theorem find_greater_or_equal_fills_prev_witness :
    LawfulComparator intCompare ∧ WellFormed intCompare exampleList ∧
    (List.replicate kMaxHeight (none : Option Nat)).length = kMaxHeight ∧
    ∃ x prev1, exampleList.FindGreaterOrEqual intCompare 4
        (some (List.replicate kMaxHeight none)) = some (x, some prev1) ∧
      prev1.length = kMaxHeight ∧
      (∀ l, exampleList.max_height_ ≤ l →
        prev1[l]? = (List.replicate kMaxHeight (none : Option Nat))[l]?) ∧
      ∀ l, l < exampleList.max_height_ → ∃ (before after : List Nat) (q : Nat),
        Linked exampleList l head_ (before ++ after) ∧
        ChainSorted intCompare exampleList (before ++ after) ∧
        (∀ i ∈ before, ∃ k, exampleList.keyAt i = some k ∧ intCompare k 4 < 0) ∧
        (∀ i ∈ after, ∃ k, exampleList.keyAt i = some k ∧ 0 ≤ intCompare k 4 ∧
          (intCompare 4 k ≠ 0 → intCompare 4 k < 0)) ∧
        prev1[l]? = some (some q) ∧ q = lastFrom head_ before ∧
        exampleList.Next q l = some after.head? :=
  ⟨intCompare_lawful, exampleList_wellFormed, by decide,
    find_greater_or_equal_fills_prev intCompare_lawful exampleList_wellFormed 4
      (List.replicate kMaxHeight none) (by decide)⟩

/-- C15: on a well-formed list, for every key and every starting height `h`
with `max_height_ <= h <= kMaxHeight`, the searches of `FindGreaterOrEqual`,
`FindLessThan` and `FindLast` started at level `h - 1` return, and return the
same node as when started at level `max_height_ - 1`; the pointers of `head_`
on the levels from `max_height_` up are `nullptr`. -/
theorem search_from_larger_height {compare_ : K → K → Int} (hc : LawfulComparator compare_)
    {s : SkipList K R} (hwf : WellFormed compare_ s) (key : K) (h : Nat)
    (h1 : s.max_height_ ≤ h) (h2 : h ≤ kMaxHeight) :
    (∃ r, s.FindGreaterOrEqualFrom compare_ h key none = some r ∧
      s.FindGreaterOrEqualFrom compare_ s.GetMaxHeight key none = some r ∧
      s.FindGreaterOrEqual compare_ key none = some r) ∧
    (∃ r, s.FindLessThanFrom compare_ h key = some r ∧
      s.FindLessThanFrom compare_ s.GetMaxHeight key = some r ∧
      s.FindLessThan compare_ key = some r) ∧
    (∃ r, s.FindLastFrom h = some r ∧ s.FindLastFrom s.GetMaxHeight = some r ∧
      s.FindLast = some r) ∧
    (∀ l, s.max_height_ ≤ l → l < kMaxHeight → s.Next head_ l = some none) := by
  obtain ⟨abs, hrep⟩ := hwf
  obtain ⟨pre, suf, hsplit, hpre, hsuf⟩ := sorted_split hc key abs hrep.sorted
  have hpos := hrep.mh_pos
  have hle := hrep.mh_le
  refine ⟨?_, ?_, ?_, ?_⟩
  · obtain ⟨p1, e1, n1, _⟩ := FindGreaterOrEqualFrom_spec hrep hsplit hpre hsuf h
      (by omega) h2 none (fun p hp => by cases hp)
    obtain ⟨p2, e2, n2, _⟩ := FindGreaterOrEqualFrom_spec hrep hsplit hpre hsuf s.max_height_
      hpos hle none (fun p hp => by cases hp)
    rw [n1 rfl] at e1
    rw [n2 rfl] at e2
    exact ⟨_, e1, e2, e2⟩
  · exact ⟨_, FindLessThanFrom_spec hrep hsplit hpre hsuf h (by omega) h2,
      FindLessThanFrom_spec hrep hsplit hpre hsuf s.max_height_ hpos hle,
      FindLessThanFrom_spec hrep hsplit hpre hsuf s.max_height_ hpos hle⟩
  · exact ⟨_, FindLastFrom_spec hrep h (by omega) h2,
      FindLastFrom_spec hrep s.max_height_ hpos hle,
      FindLastFrom_spec hrep s.max_height_ hpos hle⟩
  · intro l hl hl2
    have := hrep.linked l hl2
    rw [levelOf_eq_nil (fun e he => by have := (hrep.node e he).2.2.1; omega)] at this
    exact this

/-- Witness for C15: the example list, of height `3`, searched from height `12`. -/
theorem search_from_larger_height_witness :
    LawfulComparator intCompare ∧ WellFormed intCompare exampleList ∧
    exampleList.max_height_ ≤ 12 ∧ 12 ≤ kMaxHeight ∧
    (∃ r, exampleList.FindGreaterOrEqualFrom intCompare 12 4 none = some r ∧
      exampleList.FindGreaterOrEqualFrom intCompare exampleList.GetMaxHeight 4 none = some r ∧
      exampleList.FindGreaterOrEqual intCompare 4 none = some r) ∧
    (∃ r, exampleList.FindLessThanFrom intCompare 12 4 = some r ∧
      exampleList.FindLessThanFrom intCompare exampleList.GetMaxHeight 4 = some r ∧
      exampleList.FindLessThan intCompare 4 = some r) ∧
    (∃ r, exampleList.FindLastFrom 12 = some r ∧
      exampleList.FindLastFrom exampleList.GetMaxHeight = some r ∧
      exampleList.FindLast = some r) ∧
    (∀ l, exampleList.max_height_ ≤ l → l < kMaxHeight →
      exampleList.Next head_ l = some none) :=
  ⟨intCompare_lawful, exampleList_wellFormed, by decide, by decide,
    search_from_larger_height intCompare_lawful exampleList_wellFormed 4 12
      (by decide) (by decide)⟩

theorem Rep.stored_length {compare_ : K → K → Int} {s : SkipList K R} {abs : List (Entry K)}
    (hrep : Rep compare_ s abs) : s.storedKeys.length = abs.length := by
  have := hrep.keys_perm.length_eq
  simpa using this.symm

theorem insertAssert_of_seek {compare_ : K → K → Int} {s : SkipList K R} {key : K} {x : Ptr}
    {p : Option (List (Option Nat))}
    (h : s.FindGreaterOrEqual compare_ key none = some (x, p)) :
    insertAssert compare_ s key x = (s.Contains compare_ key).map (fun b => !b) := by
  unfold Contains insertAssert
  rw [h]
  cases x with
  | none => rfl
  | some i =>
    simp only
    cases s.nodes[i]? with
    | none => rfl
    | some nd => rfl

theorem insert_assert_spec {compare_ : K → K → Int} (hc : LawfulComparator compare_)
    (OneIn : R → Nat → Bool × R) {s : SkipList K R} (hwf : WellFormed compare_ s) (key : K) :
    ∃ x prev1 b,
      s.FindGreaterOrEqual compare_ key (some (List.replicate kMaxHeight none)) =
        some (x, some prev1) ∧
      insertAssert compare_ s key x = some b ∧
      (b = true ↔ ∀ k ∈ s.storedKeys, compare_ key k ≠ 0) ∧
      (b = true → ∃ s1, Insert compare_ OneIn s key = some s1) ∧
      (b = false → Insert compare_ OneIn s key = none) := by
  obtain ⟨abs, hrep⟩ := hwf
  obtain ⟨pre, suf, hsplit, hpre, hsuf⟩ := sorted_split hc key abs hrep.sorted
  obtain ⟨q0, e0, n0, _⟩ := FindGreaterOrEqualFrom_spec hrep hsplit hpre hsuf
    s.max_height_ hrep.mh_pos hrep.mh_le none (fun p hp => by cases hp)
  rw [n0 rfl] at e0
  obtain ⟨q1, e1, _, c1⟩ := FindGreaterOrEqualFrom_spec hrep hsplit hpre hsuf
    s.max_height_ hrep.mh_pos hrep.mh_le (some (List.replicate kMaxHeight none))
    (fun p hp => by cases hp; simp)
  obtain ⟨p1, rfl, _, _, _⟩ := c1 _ rfl
  have e0b : s.FindGreaterOrEqual compare_ key none =
      some (suf.head?.map (fun e => e.idx), none) := e0
  have e1b : s.FindGreaterOrEqual compare_ key (some (List.replicate kMaxHeight none)) =
      some (suf.head?.map (fun e => e.idx), some p1) := e1
  have hassert := insertAssert_of_seek e0b
  rw [hrep.contains hc key] at hassert
  simp only [Option.map_some'] at hassert
  have hiff : (!abs.any (fun e => Equal compare_ key e.key)) = true ↔
      ∀ k ∈ s.storedKeys, compare_ key k ≠ 0 := by
    rw [Bool.not_eq_true', List.any_eq_false]
    constructor
    · intro h k hk
      obtain ⟨e, he, rfl⟩ := (hrep.stored_iff k).mp hk
      have := h e he
      simpa [Equal] using this
    · intro h e he
      have := h e.key ((hrep.stored_iff _).mpr ⟨e, he, rfl⟩)
      simpa [Equal] using this
  refine ⟨_, p1, _, e1b, hassert, hiff, ?_, ?_⟩
  · intro hb
    obtain ⟨s1, h, rnd1, _, _, _, hins, _⟩ := Insert_spec hc OneIn hrep
      (fun e he => hiff.mp hb e.key ((hrep.stored_iff _).mpr ⟨e, he, rfl⟩))
    exact ⟨s1, hins⟩
  · intro hb
    unfold Insert
    rw [e1b]
    simp only
    rw [hassert, hb]

/-- C17: on a well-formed list the `while (true)` loops of `FindGreaterOrEqual`,
`FindLessThan` and `FindLast` return for every key: each iteration moves to a
later node or drops one level, so a number of iterations equal to the number of
stored keys plus `max_height_` is enough, and with any larger bound the result
is the same.  Consequently `Contains`, `Seek`, `SeekToLast` and `Prev` on a
valid iterator return; in `Insert` the search returns and the assertion
`x == nullptr || !Equal(key, x->key)` is evaluated, it holds exactly when `key`
equals no stored key, and then `Insert` returns (otherwise `Insert` stops at
the failed assertion). -/
theorem searches_terminate {compare_ : K → K → Int} (hc : LawfulComparator compare_)
    (OneIn : R → Nat → Bool × R) {s : SkipList K R} (hwf : WellFormed compare_ s) (key : K) :
    (∀ (prev : Option (List (Option Nat))), (∀ p, prev = some p → p.length = kMaxHeight) →
      ∃ r, s.FindGreaterOrEqual compare_ key prev = some r ∧
        ∀ fuel, s.storedKeys.length + s.max_height_ ≤ fuel →
          FindGreaterOrEqual.loop compare_ s key fuel head_ (s.GetMaxHeight - 1) prev
            = some r) ∧
    (∃ r, s.FindLessThan compare_ key = some r ∧
      ∀ fuel, s.storedKeys.length + s.max_height_ ≤ fuel →
        FindLessThan.loop compare_ s key fuel head_ (s.GetMaxHeight - 1) = some r) ∧
    (∃ r, s.FindLast = some r ∧
      ∀ fuel, s.storedKeys.length + s.max_height_ ≤ fuel →
        FindLast.loop s fuel head_ (s.GetMaxHeight - 1) = some r) ∧
    (∃ b, s.Contains compare_ key = some b) ∧
    (∀ it : Iterator K R, it.list_ = s →
      (∃ it1, it.Seek compare_ key = some it1) ∧ (∃ it1, it.SeekToLast = some it1) ∧
      (it.key = some key → ∃ it1, it.Prev compare_ = some it1)) ∧
    (∃ x prev1 b,
      s.FindGreaterOrEqual compare_ key (some (List.replicate kMaxHeight none)) =
        some (x, some prev1) ∧
      insertAssert compare_ s key x = some b ∧
      (b = true ↔ ∀ k ∈ s.storedKeys, compare_ key k ≠ 0) ∧
      (b = true → ∃ s1, Insert compare_ OneIn s key = some s1) ∧
      (b = false → Insert compare_ OneIn s key = none)) := by
  have hinsert := insert_assert_spec hc OneIn hwf key
  obtain ⟨abs, hrep⟩ := hwf
  obtain ⟨pre, suf, hsplit, hpre, hsuf⟩ := sorted_split hc key abs hrep.sorted
  have hpos := hrep.mh_pos
  have hle := hrep.mh_le
  have hlen := hrep.stored_length
  have hplen : pre.length ≤ abs.length := by rw [hsplit]; simp
  have hnode : ∀ e ∈ pre ++ suf, 1 ≤ e.height ∧ s.keyAt e.idx = some e.key := by
    intro e he
    rw [← hsplit] at he
    exact ⟨(hrep.node e he).2.1, (hrep.node e he).2.2.2.1⟩
  have hlink : ∀ l, l ≤ s.max_height_ - 1 → Linked s l head_ (levelOf l (pre ++ suf)) := by
    intro l hl
    rw [← hsplit]
    exact hrep.linked l (by omega)
  have hflt := FindLessThanFrom_spec hrep hsplit hpre hsuf s.max_height_ hpos hle
  have hfl := FindLastFrom_spec hrep s.max_height_ hpos hle
  refine ⟨?_, ?_, ?_, ?_, ?_, ?_⟩
  · intro prev hprev
    obtain ⟨prev1, e1, n1, c1⟩ := FindGreaterOrEqualFrom_spec hrep hsplit hpre hsuf
      s.max_height_ hpos hle prev hprev
    refine ⟨_, e1, ?_⟩
    intro fuel hfuel
    obtain ⟨prev2, e2, n2, c2⟩ := @FindGreaterOrEqual_loop_spec K R compare_ s key fuel head_
      (s.max_height_ - 1) pre suf prev hnode hlink hpre hsuf
      (fun p hp => by rw [hprev p hp]; omega) (by omega)
    show FindGreaterOrEqual.loop compare_ s key fuel head_ (s.max_height_ - 1) prev = _
    rw [e2]
    congr 2
    cases prev with
    | none => rw [n2 rfl, n1 rfl]
    | some p =>
      obtain ⟨q1, rfl, _, low1, high1⟩ := c1 p rfl
      obtain ⟨q2, rfl, _, low2, high2⟩ := c2 p rfl
      congr 1
      apply List.ext_getElem?
      intro l
      by_cases hl : l < s.max_height_
      · rw [low1 l hl, low2 l (by omega)]
      · rw [high1 l (by omega), high2 l (by omega)]
  · refine ⟨_, hflt, ?_⟩
    intro fuel hfuel
    exact FindLessThan_loop_spec fuel head_ (s.max_height_ - 1) pre suf hnode hlink hpre hsuf
      (lessThanAssert_head _ _ _) (by omega)
  · refine ⟨_, hfl, ?_⟩
    intro fuel hfuel
    exact FindLast_loop_spec fuel head_ (s.max_height_ - 1) abs
      (fun e he => (hrep.node e he).2.1) (fun l hl => hrep.linked l (by omega)) (by omega)
  · exact ⟨_, hrep.contains hc key⟩
  · intro it hit
    subst hit
    obtain ⟨pre2, suf2, _, _, _, hfge⟩ := hrep.seek hc key
    have hfl2 : it.list_.FindLast = some (lastFrom head_ (abs.map (fun e => e.idx))) := hfl
    refine ⟨⟨_, by rw [Iterator.Seek, hfge]⟩, ⟨_, by rw [Iterator.SeekToLast, hfl2]⟩, ?_⟩
    intro hk
    obtain ⟨r, it1, _, hp, _⟩ := prev_largest_less hc ⟨abs, hrep⟩ it rfl key hk
    exact ⟨it1, hp⟩
  · exact hinsert

/-- Witness for C17: the example list and key `4`. -/
theorem searches_terminate_witness :
    LawfulComparator intCompare ∧ WellFormed intCompare exampleList ∧
    (∀ (prev : Option (List (Option Nat))), (∀ p, prev = some p → p.length = kMaxHeight) →
      ∃ r, exampleList.FindGreaterOrEqual intCompare 4 prev = some r ∧
        ∀ fuel, exampleList.storedKeys.length + exampleList.max_height_ ≤ fuel →
          FindGreaterOrEqual.loop intCompare exampleList 4 fuel head_
            (exampleList.GetMaxHeight - 1) prev = some r) ∧
    (∃ r, exampleList.FindLessThan intCompare 4 = some r ∧
      ∀ fuel, exampleList.storedKeys.length + exampleList.max_height_ ≤ fuel →
        FindLessThan.loop intCompare exampleList 4 fuel head_ (exampleList.GetMaxHeight - 1)
          = some r) ∧
    (∃ r, exampleList.FindLast = some r ∧
      ∀ fuel, exampleList.storedKeys.length + exampleList.max_height_ ≤ fuel →
        FindLast.loop exampleList fuel head_ (exampleList.GetMaxHeight - 1) = some r) ∧
    (∃ b, exampleList.Contains intCompare 4 = some b) ∧
    (∀ it : Iterator Int (List Bool), it.list_ = exampleList →
      (∃ it1, it.Seek intCompare 4 = some it1) ∧ (∃ it1, it.SeekToLast = some it1) ∧
      (it.key = some 4 → ∃ it1, it.Prev intCompare = some it1)) ∧
    (∃ x prev1 b,
      exampleList.FindGreaterOrEqual intCompare 4 (some (List.replicate kMaxHeight none)) =
        some (x, some prev1) ∧
      insertAssert intCompare exampleList 4 x = some b ∧
      (b = true ↔ ∀ k ∈ exampleList.storedKeys, intCompare 4 k ≠ 0) ∧
      (b = true → ∃ s1, Insert intCompare listOneIn exampleList 4 = some s1) ∧
      (b = false → Insert intCompare listOneIn exampleList 4 = none)) :=
  ⟨intCompare_lawful, exampleList_wellFormed,
    searches_terminate intCompare_lawful listOneIn exampleList_wellFormed 4⟩

theorem withHeadKey_Next (s : SkipList K R) (k : K) (y l : Nat) :
    (s.withHeadKey k).Next y l = s.Next y l := by
  unfold withHeadKey Next
  cases hn : s.nodes with
  | nil => simp [hn]
  | cons hd tl =>
    cases y with
    | zero => simp
    | succ y => simp

theorem withHeadKey_heightAt (s : SkipList K R) (k : K) (y : Nat) :
    (s.withHeadKey k).heightAt y = s.heightAt y := by
  unfold withHeadKey heightAt
  cases hn : s.nodes with
  | nil => simp [hn]
  | cons hd tl =>
    cases y with
    | zero => simp
    | succ y => simp

theorem withHeadKey_keyAt (s : SkipList K R) (k : K) {y : Nat} (hy : 0 < y) :
    (s.withHeadKey k).keyAt y = s.keyAt y := by
  unfold withHeadKey keyAt
  cases hn : s.nodes with
  | nil => simp [hn]
  | cons hd tl =>
    cases y with
    | zero => omega
    | succ y => simp

theorem withHeadKey_fields (s : SkipList K R) (k : K) :
    (s.withHeadKey k).nodes.length = s.nodes.length ∧
    (s.withHeadKey k).max_height_ = s.max_height_ ∧ (s.withHeadKey k).rnd_ = s.rnd_ := by
  unfold withHeadKey
  cases hn : s.nodes with
  | nil => simp [hn]
  | cons hd tl => simp

theorem Rep.withHeadKey {compare_ : K → K → Int} {s : SkipList K R} {abs : List (Entry K)}
    (hrep : Rep compare_ s abs) (k : K) : Rep compare_ (s.withHeadKey k) abs := by
  obtain ⟨h1, h2, h3⟩ := withHeadKey_fields s k
  refine ⟨?_, ?_, ?_, ?_, ?_, hrep.nodup, hrep.sorted, ?_⟩
  · rw [withHeadKey_heightAt]; exact hrep.head
  · rw [h1]; exact hrep.size
  · rw [h2]; exact hrep.mh_pos
  · rw [h2]; exact hrep.mh_le
  · intro e he
    have := hrep.node e he
    rw [h2, withHeadKey_keyAt s k this.1, withHeadKey_heightAt]
    exact this
  · intro l hl
    exact Linked.frame (fun y _ => withHeadKey_Next s k y l) (hrep.linked l hl)

theorem FindGreaterOrEqual_eq_of_rep {compare_ : K → K → Int} (hc : LawfulComparator compare_)
    {s t : SkipList K R} {abs : List (Entry K)} (hs : Rep compare_ s abs)
    (ht : Rep compare_ t abs) (hmh : t.max_height_ = s.max_height_) (key : K)
    (prev : Option (List (Option Nat))) (hprev : ∀ p, prev = some p → p.length = kMaxHeight) :
    t.FindGreaterOrEqual compare_ key prev = s.FindGreaterOrEqual compare_ key prev := by
  obtain ⟨pre, suf, hsplit, hpre, hsuf⟩ := sorted_split hc key abs hs.sorted
  obtain ⟨prev1, e1, n1, c1⟩ := FindGreaterOrEqualFrom_spec hs hsplit hpre hsuf
    s.max_height_ hs.mh_pos hs.mh_le prev hprev
  obtain ⟨prev2, e2, n2, c2⟩ := FindGreaterOrEqualFrom_spec ht hsplit hpre hsuf
    t.max_height_ ht.mh_pos ht.mh_le prev hprev
  show t.FindGreaterOrEqualFrom compare_ t.max_height_ key prev =
    s.FindGreaterOrEqualFrom compare_ s.max_height_ key prev
  rw [e1, e2]
  congr 2
  cases prev with
  | none => rw [n2 rfl, n1 rfl]
  | some p =>
    obtain ⟨q1, rfl, _, low1, high1⟩ := c1 p rfl
    obtain ⟨q2, rfl, _, low2, high2⟩ := c2 p rfl
    congr 1
    apply List.ext_getElem?
    intro l
    by_cases hl : l < s.max_height_
    · rw [low1 l hl, low2 l (by omega)]
    · rw [high1 l (by omega), high2 l (by omega)]

/-- C19: on a well-formed list `FindLessThan` returns for every key, so its
assertion `x == head_ || compare_(x->key, key) < 0` holds at every iteration
(the embedded loop fails as soon as the assertion does).  The results of
`FindGreaterOrEqual`, `FindLessThan`, `FindLast` and `Contains` are the same
whatever key the head node holds: the head's key is never compared. -/
theorem head_key_irrelevant {compare_ : K → K → Int} (hc : LawfulComparator compare_)
    {s : SkipList K R} (hwf : WellFormed compare_ s) (key headKey : K) :
    (∃ r, s.FindLessThan compare_ key = some r ∧
      ∀ fuel, s.storedKeys.length + s.max_height_ ≤ fuel →
        FindLessThan.loop compare_ s key fuel head_ (s.GetMaxHeight - 1) = some r) ∧
    WellFormed compare_ (s.withHeadKey headKey) ∧
    (∀ (prev : Option (List (Option Nat))), (∀ p, prev = some p → p.length = kMaxHeight) →
      (s.withHeadKey headKey).FindGreaterOrEqual compare_ key prev =
        s.FindGreaterOrEqual compare_ key prev) ∧
    (s.withHeadKey headKey).FindLessThan compare_ key = s.FindLessThan compare_ key ∧
    (s.withHeadKey headKey).FindLast = s.FindLast ∧
    (s.withHeadKey headKey).Contains compare_ key = s.Contains compare_ key := by
  obtain ⟨abs, hrep⟩ := hwf
  have hrep2 := hrep.withHeadKey headKey
  have hmh := (withHeadKey_fields s headKey).2.1
  obtain ⟨pre, suf, hsplit, hpre, hsuf⟩ := sorted_split hc key abs hrep.sorted
  have hlen := hrep.stored_length
  have hplen : pre.length ≤ abs.length := by rw [hsplit]; simp
  refine ⟨?_, ⟨abs, hrep2⟩, ?_, ?_, ?_, ?_⟩
  · refine ⟨_, FindLessThanFrom_spec hrep hsplit hpre hsuf s.max_height_ hrep.mh_pos
      hrep.mh_le, ?_⟩
    intro fuel hfuel
    have hpos := hrep.mh_pos
    exact FindLessThan_loop_spec fuel head_ (s.max_height_ - 1) pre suf
      (fun e he => by
        rw [← hsplit] at he
        exact ⟨(hrep.node e he).2.1, (hrep.node e he).2.2.2.1⟩)
      (fun l hl => by
        rw [← hsplit]
        exact hrep.linked l (by have := hrep.mh_le; omega))
      hpre hsuf (lessThanAssert_head _ _ _) (by omega)
  · intro prev hprev
    exact FindGreaterOrEqual_eq_of_rep hc hrep hrep2 hmh key prev hprev
  · show (s.withHeadKey headKey).FindLessThanFrom compare_ (s.withHeadKey headKey).max_height_
      key = s.FindLessThanFrom compare_ s.max_height_ key
    rw [FindLessThanFrom_spec hrep hsplit hpre hsuf s.max_height_ hrep.mh_pos hrep.mh_le,
      FindLessThanFrom_spec hrep2 hsplit hpre hsuf _ hrep2.mh_pos hrep2.mh_le]
  · show (s.withHeadKey headKey).FindLastFrom (s.withHeadKey headKey).max_height_ =
      s.FindLastFrom s.max_height_
    rw [FindLastFrom_spec hrep s.max_height_ hrep.mh_pos hrep.mh_le,
      FindLastFrom_spec hrep2 _ hrep2.mh_pos hrep2.mh_le]
  · rw [hrep.contains hc key, hrep2.contains hc key]

/-- Witness for C19: the example list, with `77` as head key. -/
theorem head_key_irrelevant_witness :
    LawfulComparator intCompare ∧ WellFormed intCompare exampleList ∧
    (∃ r, exampleList.FindLessThan intCompare 4 = some r ∧
      ∀ fuel, exampleList.storedKeys.length + exampleList.max_height_ ≤ fuel →
        FindLessThan.loop intCompare exampleList 4 fuel head_ (exampleList.GetMaxHeight - 1)
          = some r) ∧
    WellFormed intCompare (exampleList.withHeadKey 77) ∧
    (∀ (prev : Option (List (Option Nat))), (∀ p, prev = some p → p.length = kMaxHeight) →
      (exampleList.withHeadKey 77).FindGreaterOrEqual intCompare 4 prev =
        exampleList.FindGreaterOrEqual intCompare 4 prev) ∧
    (exampleList.withHeadKey 77).FindLessThan intCompare 4 =
      exampleList.FindLessThan intCompare 4 ∧
    (exampleList.withHeadKey 77).FindLast = exampleList.FindLast ∧
    (exampleList.withHeadKey 77).Contains intCompare 4 = exampleList.Contains intCompare 4 :=
  ⟨intCompare_lawful, exampleList_wellFormed,
    head_key_irrelevant intCompare_lawful exampleList_wellFormed 4 77⟩

theorem Rep.split_at {compare_ : K → K → Int} (hc : LawfulComparator compare_)
    {s : SkipList K R} {abs : List (Entry K)} (hrep : Rep compare_ s abs)
    {pre t : List (Entry K)} {e : Entry K} (hsplit : abs = pre ++ e :: t) :
    (∀ x ∈ pre, compare_ x.key e.key < 0) ∧ (∀ x ∈ e :: t, ¬ compare_ x.key e.key < 0) := by
  have hsorted := hrep.sorted
  rw [hsplit, List.pairwise_append, List.pairwise_cons] at hsorted
  refine ⟨fun x hx => hsorted.2.2 x hx e (List.mem_cons_self _ _), ?_⟩
  intro x hx
  rcases List.mem_cons.mp hx with rfl | hx
  · exact hc.irrefl _
  · have h1 := hsorted.2.1.1 x hx
    have h2 := hc.symm e.key x.key
    have h3 := hc.symm x.key e.key
    omega

theorem Rep.prev_at {compare_ : K → K → Int} (hc : LawfulComparator compare_)
    {s : SkipList K R} {abs : List (Entry K)} (hrep : Rep compare_ s abs)
    {pre t : List (Entry K)} {e : Entry K} (hsplit : abs = pre ++ e :: t) :
    Iterator.Prev compare_ ⟨s, some e.idx⟩ = some ⟨s,
      if lastFrom head_ (pre.map (fun x => x.idx)) = head_ then none
      else some (lastFrom head_ (pre.map (fun x => x.idx)))⟩ := by
  have hmem : e ∈ abs := by rw [hsplit]; simp
  obtain ⟨nd, hnd, hkey⟩ := keyAt_some (hrep.node e hmem).2.2.2.1
  obtain ⟨h1, h2⟩ := hrep.split_at hc hsplit
  have hflt : s.FindLessThan compare_ e.key = some (lastFrom head_ (pre.map (fun x => x.idx))) :=
    FindLessThanFrom_spec hrep hsplit h1 h2 s.max_height_ hrep.mh_pos hrep.mh_le
  simp only [Iterator.Prev, hnd, hkey, hflt]

theorem collectBack_spec {compare_ : K → K → Int} (hc : LawfulComparator compare_)
    {s : SkipList K R} {abs : List (Entry K)} (hrep : Rep compare_ s abs) :
    ∀ (pre : List (Entry K)) (e : Entry K) (t : List (Entry K)) (fuel : Nat),
      abs = pre ++ e :: t → pre.length + 1 < fuel →
      collectBack compare_ fuel ⟨s, some e.idx⟩ =
        some (((pre ++ [e]).map (fun x => x.key)).reverse, ⟨s, none⟩) := by
  intro pre
  induction pre using List.reverseRecOn with
  | nil =>
    intro e t fuel hsplit hfuel
    obtain ⟨n, rfl⟩ : ∃ n, fuel = n + 2 := ⟨fuel - 2, by simp at hfuel; omega⟩
    have hmem : e ∈ abs := by rw [hsplit]; simp
    obtain ⟨nd, hnd, hkey⟩ := keyAt_some (hrep.node e hmem).2.2.2.1
    have hprev := hrep.prev_at hc hsplit
    simp only [List.map_nil, lastFrom, if_true] at hprev
    simp only [collectBack, Iterator.Valid, Iterator.key, hnd, hkey, hprev]
    simp
  | append_singleton L b ih =>
    intro e t fuel hsplit hfuel
    obtain ⟨n, rfl⟩ : ∃ n, fuel = n + 1 := ⟨fuel - 1, by omega⟩
    have hmem : e ∈ abs := by rw [hsplit]; simp
    have hb : b ∈ abs := by rw [hsplit]; simp
    obtain ⟨nd, hnd, hkey⟩ := keyAt_some (hrep.node e hmem).2.2.2.1
    have hprev := hrep.prev_at hc hsplit
    have hlast : lastFrom head_ ((L ++ [b]).map (fun x => x.idx)) = b.idx := by
      rw [List.map_append, List.map_cons, List.map_nil, lastFrom_append_cons]
      rfl
    have hne : ¬ b.idx = head_ := by
      have := (hrep.node b hb).1
      unfold head_
      omega
    rw [hlast, if_neg hne] at hprev
    have hrec := ih b (e :: t) n (by rw [hsplit]; simp)
      (by simp only [List.length_append, List.length_cons, List.length_nil] at hfuel; omega)
    simp only [collectBack, Iterator.Valid, Iterator.key, hnd, hkey, hprev, hrec]
    simp

theorem backwardScan_spec {compare_ : K → K → Int} (hc : LawfulComparator compare_)
    {s : SkipList K R} {abs : List (Entry K)} (hrep : Rep compare_ s abs) (fuel : Nat)
    (hfuel : abs.length < fuel) :
    backwardScan compare_ s fuel =
      some ((abs.map (fun x => x.key)).reverse, ⟨s, none⟩) := by
  have hfl : s.FindLast = some (lastFrom head_ (abs.map (fun e => e.idx))) :=
    FindLastFrom_spec hrep s.max_height_ hrep.mh_pos hrep.mh_le
  unfold backwardScan
  simp only [Iterator.SeekToLast, Iterator.new, hfl]
  rcases eq_nil_or_snoc abs with hnil | ⟨L, b, hL⟩
  · subst hnil
    obtain ⟨n, rfl⟩ : ∃ n, fuel = n + 1 := ⟨fuel - 1, by simp at hfuel; omega⟩
    simp [lastFrom, collectBack, Iterator.Valid]
  · have hb : b ∈ abs := by rw [hL]; simp
    have hlast : lastFrom head_ (abs.map (fun x => x.idx)) = b.idx := by
      rw [hL, List.map_append, List.map_cons, List.map_nil, lastFrom_append_cons]
      rfl
    have hne : ¬ b.idx = head_ := by
      have := (hrep.node b hb).1
      unfold head_
      omega
    rw [hlast, if_neg hne, hL]
    exact collectBack_spec hc hrep L b [] fuel hL
      (by rw [hL] at hfuel; simpa using hfuel)

/-- C20: on a well-formed list the forward traversal (`SeekToFirst`, `Next`)
and the backward traversal (`SeekToLast`, `Prev`) both terminate; the backward
one visits the stored keys in strictly descending order and yields exactly the
reverse of the forward sequence.  From every position on a stored node that is
not the last one, `Next` followed by `Prev` leads back to the same node, hence
the same key. -/
theorem backward_mirrors_forward {compare_ : K → K → Int} (hc : LawfulComparator compare_)
    {s : SkipList K R} (hwf : WellFormed compare_ s) :
    (∃ visited outF outB,
      (∀ fuel, s.storedKeys.length < fuel → forwardScan s fuel = some (visited, outF)) ∧
      (∀ fuel, s.storedKeys.length < fuel →
        backwardScan compare_ s fuel = some (visited.reverse, outB)) ∧
      outF.Valid = false ∧ outB.Valid = false ∧
      visited.Perm s.storedKeys ∧
      visited.Pairwise (fun a b => compare_ a b < 0) ∧
      visited.reverse.Pairwise (fun a b => compare_ b a < 0)) ∧
    (∀ (it it1 : Iterator K R) (i : Nat), it.list_ = s → it.node_ = some i → 0 < i →
      i < s.nodes.length → it.Next = some it1 → it1.Valid = true →
      ∃ it2, it1.Prev compare_ = some it2 ∧ it2.list_ = s ∧ it2.node_ = it.node_ ∧
        it2.Valid = true ∧ it2.key = it.key ∧ it2.key.isSome = true) := by
  obtain ⟨abs, hrep⟩ := hwf
  have hlen := hrep.stored_length
  have hsortedKeys : (abs.map (fun x => x.key)).Pairwise (fun a b => compare_ a b < 0) := by
    rw [List.pairwise_map]
    exact hrep.sorted
  refine ⟨⟨abs.map (fun x => x.key), ⟨s, none⟩, ⟨s, none⟩, ?_, ?_, rfl, rfl, hrep.keys_perm,
    hsortedKeys, ?_⟩, ?_⟩
  · intro fuel hfuel
    exact forwardScan_spec hrep fuel (by omega)
  · intro fuel hfuel
    exact backwardScan_spec hc hrep fuel (by omega)
  · rw [List.pairwise_reverse]
    exact hsortedKeys
  · intro it it1 i hit hnode h0 hlt hnext hvalid
    obtain ⟨e, he, hidx⟩ := hrep.mem_idx h0 hlt
    obtain ⟨pre, t, hsplit⟩ := List.append_of_mem he
    obtain ⟨nd, hnd, hkey⟩ := keyAt_some (hrep.node e he).2.2.2.1
    have hn0 := hrep.next_zero hsplit
    subst hit
    rw [← hidx] at hnode
    simp only [Iterator.Next, hnode, hn0, Option.some.injEq] at hnext
    subst hnext
    cases t with
    | nil => simp [Iterator.Valid] at hvalid
    | cons e2 t2 =>
      have hsplit2 : abs = (pre ++ [e]) ++ e2 :: t2 := by rw [hsplit]; simp
      have hprev := hrep.prev_at hc hsplit2
      have hlast : lastFrom head_ ((pre ++ [e]).map (fun x => x.idx)) = e.idx := by
        rw [List.map_append, List.map_cons, List.map_nil, lastFrom_append_cons]
        rfl
      have hne : ¬ e.idx = head_ := by
        have := (hrep.node e he).1
        unfold head_
        omega
      rw [hlast, if_neg hne] at hprev
      refine ⟨⟨it.list_, some e.idx⟩, ?_, rfl, hnode.symm, rfl, ?_, ?_⟩
      · simpa using hprev
      · simp only [Iterator.key, hnd, hnode]
      · simp only [Iterator.key, hnd]
        rfl

/-- Witness for C20: the example list. -/
theorem backward_mirrors_forward_witness :
    LawfulComparator intCompare ∧ WellFormed intCompare exampleList ∧
    (∃ visited outF outB,
      (∀ fuel, exampleList.storedKeys.length < fuel →
        forwardScan exampleList fuel = some (visited, outF)) ∧
      (∀ fuel, exampleList.storedKeys.length < fuel →
        backwardScan intCompare exampleList fuel = some (visited.reverse, outB)) ∧
      outF.Valid = false ∧ outB.Valid = false ∧
      visited.Perm exampleList.storedKeys ∧
      visited.Pairwise (fun a b => intCompare a b < 0) ∧
      visited.reverse.Pairwise (fun a b => intCompare b a < 0)) ∧
    (∀ (it it1 : Iterator Int (List Bool)) (i : Nat), it.list_ = exampleList →
      it.node_ = some i → 0 < i → i < exampleList.nodes.length → it.Next = some it1 →
      it1.Valid = true →
      ∃ it2, it1.Prev intCompare = some it2 ∧ it2.list_ = exampleList ∧
        it2.node_ = it.node_ ∧ it2.Valid = true ∧ it2.key = it.key ∧
        it2.key.isSome = true) :=
  ⟨intCompare_lawful, exampleList_wellFormed,
    backward_mirrors_forward intCompare_lawful exampleList_wellFormed⟩

theorem Insert_eq_prepare (compare_ : K → K → Int) (OneIn : R → Nat → Bool × R)
    (s : SkipList K R) (key : K) :
    Insert compare_ OneIn s key =
      match insertPrepare compare_ OneIn s key with
      | none => none
      | some (s3, x, prev, height) => linkLoop s3 x prev height 0 := by
  unfold Insert insertPrepare
  split
  · split
    · split
      · rfl
      · dsimp only
        split
        · rfl
        · rfl
    · rfl
  · rfl

theorem insertPrepare_spec {compare_ : K → K → Int} (hc : LawfulComparator compare_)
    (OneIn : R → Nat → Bool × R) {s : SkipList K R} {abs : List (Entry K)} {key : K}
    (hrep : Rep compare_ s abs) (hne : ∀ e ∈ abs, compare_ key e.key ≠ 0) :
    ∃ h rnd1 pre suf prev0 prev, abs = pre ++ suf ∧
      (∀ e ∈ pre, compare_ e.key key < 0) ∧ (∀ e ∈ suf, ¬ compare_ e.key key < 0) ∧
      s.FindGreaterOrEqual compare_ key (some (List.replicate kMaxHeight none)) =
        some (suf.head?.map (fun e => e.idx), some prev0) ∧
      RandomHeight OneIn s.rnd_ = some (h, rnd1) ∧ 1 ≤ h ∧ h ≤ kMaxHeight ∧
      insertPrepare compare_ OneIn s key =
        some ((NewNode (⟨s.nodes, max s.max_height_ h, rnd1⟩ : SkipList K R) key h).2,
          s.nodes.length, prev, h) ∧
      prev.length = kMaxHeight ∧ prev0.length = kMaxHeight ∧
      (∀ l, l < h → prev[l]? = some (some (lastFrom head_ (levelOf l pre)))) ∧
      (∀ l, l < s.max_height_ → prev0[l]? = some (some (lastFrom head_ (levelOf l pre)))) ∧
      (∀ l, s.max_height_ ≤ l → l < kMaxHeight → prev0[l]? = some none) ∧
      (∀ l, l < s.max_height_ → prev[l]? = prev0[l]?) ∧
      (∀ l, s.max_height_ ≤ l → l < h → prev[l]? = some (some head_)) := by
  obtain ⟨pre, suf, hsplit, hpre, hsuf⟩ := sorted_split hc key abs hrep.sorted
  have hmhpos := hrep.mh_pos
  have hmhle := hrep.mh_le
  obtain ⟨prev1, hfge, _, hprev1⟩ := FindGreaterOrEqualFrom_spec hrep hsplit hpre hsuf
    s.max_height_ hmhpos hmhle (some (List.replicate kMaxHeight none))
    (fun p hp => by cases hp; simp)
  obtain ⟨p1, rfl, hp1len, hp1low, hp1high⟩ := hprev1 _ rfl
  have hassert : insertAssert compare_ s key (suf.head?.map (fun e => e.idx)) = some true :=
    insertAssert_spec
      (fun e he => (hrep.node e (by rw [hsplit]; exact List.mem_append_right _ he)).2.2.2.1)
      (fun e he => hne e (by rw [hsplit]; exact List.mem_append_right _ he))
  have hrh := RandomHeight_spec OneIn s.rnd_
  obtain ⟨hh1, hh2⟩ := RandomHeight_bounds hrh
  generalize 1 + ((draws OneIn 11 s.rnd_).takeWhile id).length = h at hrh hh1 hh2
  generalize afterDraws OneIn _ s.rnd_ = rnd1 at hrh
  have hunwritten : ∀ l, s.max_height_ ≤ l → l < kMaxHeight → p1[l]? = some none := by
    intro l hl hl2
    rw [hp1high l hl]
    simp [List.getElem?_replicate, hl2]
  have hfill : ∃ p2, (if h > s.max_height_ then
        (fillPrev p1 (h - s.max_height_) s.max_height_).map
          (fun q => (q, (⟨s.nodes, h, rnd1⟩ : SkipList K R)))
      else some (p1, (⟨s.nodes, s.max_height_, rnd1⟩ : SkipList K R))) =
      some (p2, (⟨s.nodes, max s.max_height_ h, rnd1⟩ : SkipList K R)) ∧
      p2.length = kMaxHeight ∧
      (∀ l, l < s.max_height_ → p2[l]? = p1[l]?) ∧
      (∀ l, s.max_height_ ≤ l → l < h → p2[l]? = some (some head_)) := by
    by_cases hgt : h > s.max_height_
    · obtain ⟨p2, f1, f2, f3⟩ := fillPrev_spec (h - s.max_height_) s.max_height_ p1
        (by rw [hp1len]; omega)
      refine ⟨p2, ?_, by rw [f2, hp1len], ?_, ?_⟩
      · rw [if_pos hgt, f1, Nat.max_eq_right (by omega)]
        rfl
      · intro l hl
        rw [f3 l, if_neg (by omega)]
      · intro l hl hl2
        rw [f3 l, if_pos (by omega)]
    · refine ⟨p1, ?_, hp1len, fun l _ => rfl, fun l hl hl2 => by omega⟩
      rw [if_neg hgt, Nat.max_eq_left (by omega)]
  obtain ⟨p2, hfill1, hp2len, hp2low, hp2high⟩ := hfill
  refine ⟨h, rnd1, pre, suf, p1, p2, hsplit, hpre, hsuf, hfge, hrh, hh1, hh2, ?_, hp2len,
    hp1len, ?_, hp1low, hunwritten, hp2low, hp2high⟩
  · unfold insertPrepare FindGreaterOrEqual GetMaxHeight
    simp only [hfge, hassert, hrh, GetMaxHeight, hfill1]
    rfl
  · intro l hl
    by_cases hl2 : l < s.max_height_
    · rw [hp2low l hl2]
      exact hp1low l hl2
    · rw [hp2high l (by omega) hl, levelOf_eq_nil]
      · rfl
      · intro e he
        have := (hrep.node e (by rw [hsplit]; exact List.mem_append_left _ he)).2.2.1
        omega

/-- C18: in `Insert` of a key equal to no stored key into a well-formed list,
`height <= kMaxHeight`, the array `prev` has `kMaxHeight` entries, and every
entry `prev[i]` with `i < height` has been written before the link loop and is
a node of height above `i`: below the old `max_height_` it is the entry filled
in by `FindGreaterOrEqual`, from the old `max_height_` up to `height - 1` it
was unwritten after the search and has been set to `head_`.  The new node has
`height` slots, and the link loop, which fails on any index outside an array,
returns. -/
theorem insert_prev_entries_written {compare_ : K → K → Int} (hc : LawfulComparator compare_)
    (OneIn : R → Nat → Bool × R) {s : SkipList K R} (hwf : WellFormed compare_ s) (key : K)
    (hfresh : ∀ k ∈ s.storedKeys, compare_ key k ≠ 0) :
    ∃ x0 prev0 s3 x prev h s1,
      s.FindGreaterOrEqual compare_ key (some (List.replicate kMaxHeight none)) =
        some (x0, some prev0) ∧
      insertPrepare compare_ OneIn s key = some (s3, x, prev, h) ∧
      1 ≤ h ∧ h ≤ kMaxHeight ∧ prev.length = kMaxHeight ∧ s3.heightAt x = some h ∧
      (∀ i, i < h → i < prev.length ∧ ∃ p hp, prev[i]? = some (some p) ∧
        s3.heightAt p = some hp ∧ i < hp ∧
        (i < s.max_height_ → prev0[i]? = some (some p)) ∧
        (s.max_height_ ≤ i → p = head_ ∧ prev0[i]? = some none)) ∧
      linkLoop s3 x prev h 0 = some s1 ∧ Insert compare_ OneIn s key = some s1 := by
  obtain ⟨abs, hrep⟩ := hwf
  have hne : ∀ e ∈ abs, compare_ key e.key ≠ 0 :=
    fun e he => hfresh e.key ((hrep.stored_iff _).mpr ⟨e, he, rfl⟩)
  obtain ⟨h, rnd1, pre, suf, prev0, prev, hsplit, hpre, hsuf, hfge, hrh, hh1, hh2, hprep,
    hplen, hp0len, hprev, hp0low, hp0high, hsame, hhead⟩ := insertPrepare_spec hc OneIn hrep hne
  obtain ⟨s1, _, _, _, _, _, hins, _⟩ := Insert_spec hc OneIn hrep hne
  have hlen0 : 0 < s.nodes.length := by rw [hrep.size]; omega
  refine ⟨_, prev0, _, _, prev, h, s1, hfge, hprep, hh1, hh2, hplen, ?_, ?_, ?_, hins⟩
  · rw [NewNode_heightAt, if_pos rfl]
  · intro i hi
    refine ⟨by rw [hplen]; omega, lastFrom head_ (levelOf i pre), ?_⟩
    have hmem := lastFrom_mem head_ (levelOf i pre)
    have hheight : ∃ hp, s.heightAt (lastFrom head_ (levelOf i pre)) = some hp ∧ i < hp ∧
        lastFrom head_ (levelOf i pre) < s.nodes.length := by
      rcases List.mem_cons.mp hmem with h0 | h0
      · rw [h0]
        exact ⟨kMaxHeight, hrep.head, by omega, hlen0⟩
      · obtain ⟨e, he, hlt, hidx⟩ := mem_levelOf.mp h0
        have hea : e ∈ abs := by rw [hsplit]; exact List.mem_append_left _ he
        rw [← hidx]
        exact ⟨e.height, (hrep.node e hea).2.2.2.2, hlt, hrep.idx_lt hea⟩
    obtain ⟨hp, hph, hihp, hplt⟩ := hheight
    refine ⟨hp, hprev i hi, ?_, hihp, fun hlt => hp0low i hlt, ?_⟩
    · rw [NewNode_heightAt, if_neg (by
        show lastFrom head_ (levelOf i pre) ≠ s.nodes.length
        omega)]
      exact hph
    · intro hge
      refine ⟨?_, hp0high i hge (by omega)⟩
      have h1 := hhead i hge hi
      rw [hprev i hi] at h1
      simpa using h1
  · have := Insert_eq_prepare compare_ OneIn s key
    rw [hprep, hins] at this
    exact this.symm

/-- Witness for C18: key `4` inserted into the example list. -/
theorem insert_prev_entries_written_witness :
    LawfulComparator intCompare ∧ WellFormed intCompare exampleList ∧
    (∀ k ∈ exampleList.storedKeys, intCompare 4 k ≠ 0) ∧
    ∃ x0 prev0 s3 x prev h s1,
      exampleList.FindGreaterOrEqual intCompare 4 (some (List.replicate kMaxHeight none)) =
        some (x0, some prev0) ∧
      insertPrepare intCompare listOneIn exampleList 4 = some (s3, x, prev, h) ∧
      1 ≤ h ∧ h ≤ kMaxHeight ∧ prev.length = kMaxHeight ∧ s3.heightAt x = some h ∧
      (∀ i, i < h → i < prev.length ∧ ∃ p hp, prev[i]? = some (some p) ∧
        s3.heightAt p = some hp ∧ i < hp ∧
        (i < exampleList.max_height_ → prev0[i]? = some (some p)) ∧
        (exampleList.max_height_ ≤ i → p = head_ ∧ prev0[i]? = some none)) ∧
      linkLoop s3 x prev h 0 = some s1 ∧ Insert intCompare listOneIn exampleList 4 = some s1 :=
  ⟨intCompare_lawful, exampleList_wellFormed, by decide,
    insert_prev_entries_written intCompare_lawful listOneIn exampleList_wellFormed 4
      (by decide)⟩

theorem nextAfter_zero (s3 : SkipList K R) (x h : Nat) (pred : Nat → Nat) (succ : Nat → Ptr)
    (y l : Nat) : nextAfter s3 x h pred succ 0 y l = s3.Next y l := by
  unfold nextAfter
  split
  · rw [if_neg (by omega)]
  · rw [if_neg (by omega)]

theorem nextAfter_first_store (s3 : SkipList K R) (x h : Nat) (pred : Nat → Nat)
    (succ : Nat → Ptr) (i : Nat) (hi : i < h) (y l : Nat) :
    (if y = x ∧ l = i then some (succ i) else nextAfter s3 x h pred succ (2 * i) y l) =
      nextAfter s3 x h pred succ (2 * i + 1) y l := by
  unfold nextAfter
  by_cases hy : y = x
  · by_cases hl : l = i
    · subst hl
      rw [if_pos ⟨hy, rfl⟩, if_pos hy, if_pos ⟨hi, by omega⟩]
    · rw [if_neg (fun h0 => hl h0.2), if_pos hy, if_pos hy]
      by_cases hc : l < h ∧ 2 * l + 1 ≤ 2 * i
      · rw [if_pos hc, if_pos ⟨hc.1, by omega⟩]
      · rw [if_neg hc, if_neg (by omega)]
  · rw [if_neg (fun h0 => hy h0.1), if_neg hy, if_neg hy]
    by_cases hc : l < h ∧ y = pred l ∧ 2 * l + 2 ≤ 2 * i
    · rw [if_pos hc, if_pos ⟨hc.1, hc.2.1, by omega⟩]
    · rw [if_neg hc, if_neg (by
        rintro ⟨a, b, c⟩
        exact hc ⟨a, b, by omega⟩)]

theorem nextAfter_second_store (s3 : SkipList K R) (x h : Nat) (pred : Nat → Nat)
    (succ : Nat → Ptr) (i : Nat) (hi : i < h) (hpx : pred i ≠ x) (y l : Nat) :
    (if y = pred i ∧ l = i then some (some x)
      else nextAfter s3 x h pred succ (2 * i + 1) y l) =
      nextAfter s3 x h pred succ (2 * (i + 1)) y l := by
  unfold nextAfter
  by_cases hy : y = x
  · have hne : ¬ (y = pred i ∧ l = i) := by
      rintro ⟨a, _⟩
      exact hpx (a.symm.trans hy)
    rw [if_neg hne, if_pos hy, if_pos hy]
    by_cases hc : l < h ∧ 2 * l + 1 ≤ 2 * i + 1
    · rw [if_pos hc, if_pos ⟨hc.1, by omega⟩]
    · rw [if_neg hc, if_neg (by omega)]
  · rw [if_neg hy, if_neg hy]
    by_cases hl : y = pred i ∧ l = i
    · obtain ⟨hyp, rfl⟩ := hl
      rw [if_pos ⟨hyp, rfl⟩, if_pos ⟨hi, hyp, by omega⟩]
    · rw [if_neg hl]
      by_cases hc : l < h ∧ y = pred l ∧ 2 * l + 2 ≤ 2 * i + 1
      · rw [if_pos hc, if_pos ⟨hc.1, hc.2.1, by omega⟩]
      · rw [if_neg hc, if_neg]
        rintro ⟨a, b, c⟩
        by_cases hli : l = i
        · subst hli
          exact hl ⟨b, rfl⟩
        · exact hc ⟨a, b, by omega⟩

theorem linkTrace_next {s3 : SkipList K R} {x h : Nat} {pred : Nat → Nat} {succ : Nat → Ptr}
    {prev : List (Option Nat)}
    (hprev : ∀ l, l < h → prev[l]? = some (some (pred l)))
    (hpx : ∀ l, l < h → pred l ≠ x)
    (hsucc : ∀ l, l < h → s3.Next (pred l) l = some (succ l))
    (hxh : s3.heightAt x = some h)
    (hph : ∀ l, l < h → ∃ hp, s3.heightAt (pred l) = some hp ∧ l < hp) :
    ∀ (n i : Nat) (s : SkipList K R), i + n = h → SameShape s s3 →
      (∀ y l, s.Next y l = nextAfter s3 x h pred succ (2 * i) y l) →
      ∃ states, linkTrace s x prev n i = some states ∧ states.length = 2 * n ∧
        ∀ m, m < 2 * n → ∃ t, states[m]? = some t ∧ SameShape t s3 ∧
          ∀ y l, t.Next y l = nextAfter s3 x h pred succ (2 * i + m + 1) y l := by
  intro n
  induction n with
  | zero =>
    intro i s _ _ _
    exact ⟨[], rfl, rfl, fun m hm => by omega⟩
  | succ n ih =>
    intro i s hi hshape hnext
    have hil : i < h := by omega
    have hpn : s.Next (pred i) i = some (succ i) := by
      rw [hnext]
      unfold nextAfter
      rw [if_neg (hpx i hil), if_neg (by omega)]
      exact hsucc i hil
    obtain ⟨s1, h1⟩ := SetNext_isSome (s := s) (by rw [hshape.height]; exact hxh) hil (succ i)
    obtain ⟨hp, hph1, hpi⟩ := hph i hil
    have hph2 : s1.heightAt (pred i) = some hp := by
      rw [heightAt_SetNext h1, hshape.height]; exact hph1
    obtain ⟨s2, h2⟩ := SetNext_isSome hph2 hpi (some x)
    have hshape1 : SameShape s1 s3 := (SameShape.of_SetNext h1).trans hshape
    have hshape2 : SameShape s2 s3 := (SameShape.of_SetNext h2).trans hshape1
    have hnext1 : ∀ y l, s1.Next y l = nextAfter s3 x h pred succ (2 * i + 1) y l := by
      intro y l
      rw [Next_SetNext h1, ← nextAfter_first_store s3 x h pred succ i hil y l, hnext]
    have hnext2 : ∀ y l, s2.Next y l = nextAfter s3 x h pred succ (2 * (i + 1)) y l := by
      intro y l
      rw [Next_SetNext h2, ← nextAfter_second_store s3 x h pred succ i hil (hpx i hil) y l,
        hnext1]
    obtain ⟨rest, hrest, hlen, hall⟩ := ih (i + 1) s2 (by omega) hshape2 hnext2
    refine ⟨s1 :: s2 :: rest, ?_, by simp [hlen]; omega, ?_⟩
    · unfold linkTrace
      simp only [hprev i hil, NoBarrier_Next, hpn, NoBarrier_SetNext, h1, h2, hrest]
    · intro m hm
      cases m with
      | zero => exact ⟨s1, rfl, hshape1, hnext1⟩
      | succ m =>
        cases m with
        | zero => exact ⟨s2, by simp, hshape2, hnext2⟩
        | succ m =>
          obtain ⟨t, ht, hts, htn⟩ := hall m (by omega)
          refine ⟨t, by simpa using ht, hts, ?_⟩
          intro y l
          rw [htn]
          congr 1
          omega

theorem linkLoop_of_trace {x : Nat} {prev : List (Option Nat)} :
    ∀ (n i : Nat) (s : SkipList K R) (states : List (SkipList K R)),
      linkTrace s x prev n i = some states →
      linkLoop s x prev n i = some (states.getLast?.getD s) := by
  intro n
  induction n with
  | zero =>
    intro i s states h
    simp only [linkTrace, Option.some.injEq] at h
    subst h
    rfl
  | succ n ih =>
    intro i s states h
    unfold linkTrace at h
    cases hp : prev[i]? with
    | none => simp [hp] at h
    | some op =>
      cases op with
      | none => simp [hp] at h
      | some p =>
        simp only [hp] at h
        cases hnx : s.NoBarrier_Next p i with
        | none => simp [hnx] at h
        | some nx =>
          simp only [hnx] at h
          cases hs1 : s.NoBarrier_SetNext x i nx with
          | none => simp [hs1] at h
          | some s1 =>
            simp only [hs1] at h
            cases hs2 : s1.SetNext p i (some x) with
            | none => simp [hs2] at h
            | some s2 =>
              simp only [hs2] at h
              cases hrest : linkTrace s2 x prev n (i + 1) with
              | none => simp [hrest] at h
              | some rest =>
                simp only [hrest, Option.some.injEq] at h
                subst h
                have := ih _ _ _ hrest
                unfold linkLoop linkStep
                simp only [hp, hnx, hs1, hs2, this]
                congr 1
                cases rest with
                | nil => rfl
                | cons a b =>
                  have hx : (a :: b).getLast? = some ((a :: b).getLast (List.cons_ne_nil _ _)) :=
                    List.getLast?_eq_getLast _ _
                  simp [List.getLast?_cons_cons, hx]

theorem Rep.toSearchRep {compare_ : K → K → Int} {s : SkipList K R} {abs : List (Entry K)}
    (hrep : Rep compare_ s abs) : SearchRep compare_ s abs :=
  ⟨hrep.mh_pos, hrep.mh_le, by rw [hrep.size]; omega,
    fun e he => ⟨(hrep.node e he).2.1, (hrep.node e he).2.2.2.1⟩, hrep.sorted, hrep.linked⟩

theorem SearchRep.seek_split {compare_ : K → K → Int} {s : SkipList K R}
    {abs pre suf : List (Entry K)} (hrep : SearchRep compare_ s abs) {key : K}
    (hsplit : abs = pre ++ suf) (hpre : ∀ e ∈ pre, compare_ e.key key < 0)
    (hsuf : ∀ e ∈ suf, ¬ compare_ e.key key < 0) :
    s.FindGreaterOrEqual compare_ key none = some (suf.head?.map (fun e => e.idx), none) := by
  have hpos := hrep.mh_pos
  have hle := hrep.mh_le
  obtain ⟨prev1, e1, n1, _⟩ := @FindGreaterOrEqual_loop_spec K R compare_ s key
    (s.searchFuel s.max_height_) head_ (s.max_height_ - 1) pre suf none
    (fun e he => hrep.node e (by rw [hsplit]; exact he))
    (fun l hl => by
      rw [← hsplit]
      exact hrep.linked l (by omega))
    hpre hsuf (fun p hp => by cases hp)
    (by
      have := hrep.size
      rw [hsplit] at this
      simp only [List.length_append] at this
      unfold searchFuel
      omega)
  rw [n1 rfl] at e1
  unfold FindGreaterOrEqual FindGreaterOrEqualFrom GetMaxHeight
  rw [if_neg (by omega)]
  exact e1

theorem find_of_split {α : Type} (p : α → Bool) (pre suf : List α)
    (hpre : ∀ e ∈ pre, p e = false) (hsuf : ∀ e ∈ suf, p e = true) :
    (pre ++ suf).find? p = suf.head? := by
  induction pre with
  | nil =>
    cases suf with
    | nil => rfl
    | cons a t => simp [List.find?_cons, hsuf a (List.mem_cons_self _ _)]
  | cons a t ih =>
    rw [List.cons_append, List.find?_cons, hpre a (List.mem_cons_self _ _)]
    exact ih (fun e he => hpre e (List.mem_cons_of_mem _ he))

theorem SearchRep.seek_find {compare_ : K → K → Int} (hc : LawfulComparator compare_)
    {s : SkipList K R} {abs : List (Entry K)} (hrep : SearchRep compare_ s abs) (key : K) :
    s.FindGreaterOrEqual compare_ key none =
      some ((abs.find? (fun e => decide (¬ compare_ e.key key < 0))).map (fun e => e.idx),
        none) := by
  obtain ⟨pre, suf, hsplit, hpre, hsuf⟩ := sorted_split hc key abs hrep.sorted
  rw [hrep.seek_split hsplit hpre hsuf, hsplit,
    find_of_split _ pre suf (fun e he => by simpa using hpre e he)
      (fun e he => by simpa using hsuf e he)]

theorem SearchRep.contains_any {compare_ : K → K → Int} (hc : LawfulComparator compare_)
    {s : SkipList K R} {abs : List (Entry K)} (hrep : SearchRep compare_ s abs) (k : K) :
    s.Contains compare_ k = some (abs.any (fun e => Equal compare_ k e.key)) := by
  obtain ⟨pre, suf, hsplit, hpre, hsuf⟩ := sorted_split hc k abs hrep.sorted
  have hfge := hrep.seek_split hsplit hpre hsuf
  have hprefalse : ∀ e ∈ pre, Equal compare_ k e.key = false := by
    intro e he
    have h1 := hpre e he
    have h2 := hc.symm e.key k
    simp only [Equal, decide_eq_false_iff_not]
    omega
  unfold Contains
  rw [hfge]
  cases suf with
  | nil =>
    simp only [List.head?_nil, Option.map_none']
    congr 1
    symm
    rw [List.any_eq_false]
    intro e he
    rw [hsplit, List.append_nil] at he
    simp [hprefalse e he]
  | cons e t =>
    have hmem : e ∈ abs := by rw [hsplit]; simp
    obtain ⟨nd, hnd, hkey⟩ := keyAt_some (hrep.node e hmem).2
    simp only [List.head?_cons, Option.map_some', hnd, hkey]
    congr 1
    cases hE : Equal compare_ k e.key with
    | true =>
      symm
      rw [List.any_eq_true]
      exact ⟨e, hmem, hE⟩
    | false =>
      symm
      rw [List.any_eq_false]
      intro x hx
      rw [hsplit] at hx
      have hsorted := hrep.sorted
      rw [hsplit, List.pairwise_append, List.pairwise_cons] at hsorted
      rcases List.mem_append.mp hx with h | h
      · simp [hprefalse x h]
      · rcases List.mem_cons.mp h with h | h
        · subst h; simp [hE]
        · have h1 := hsorted.2.1.1 x h
          have h2 := hsuf e (List.mem_cons_self _ _)
          simp only [Equal, decide_eq_true_eq]
          intro h3
          exact h2 (hc.lt_of_lt_of_eq _ _ _ h1 (hc.eq_symm h3))

theorem SearchRep.chain_sorted {compare_ : K → K → Int} {s : SkipList K R}
    {abs : List (Entry K)} (hrep : SearchRep compare_ s abs) (l : Nat) :
    ChainSorted compare_ s (levelOf l abs) := by
  unfold ChainSorted levelOf
  rw [List.pairwise_map]
  have h1 : (abs.filter (fun e => decide (l < e.height))).Pairwise
      (fun a b => compare_ a.key b.key < 0) := hrep.sorted.sublist (List.filter_sublist _)
  rw [List.Pairwise.and_mem] at h1
  refine h1.imp ?_
  intro a b hab
  obtain ⟨ha, hb, hlt⟩ := hab
  exact ⟨a.key, b.key, (hrep.node a (List.mem_of_mem_filter ha)).2,
    (hrep.node b (List.mem_of_mem_filter hb)).2, hlt⟩

theorem any_height_irrelevant (q : K → Bool) (pre suf : List (Entry K)) (x : Nat) (k : K)
    (j h : Nat) :
    (pre ++ ⟨x, k, j⟩ :: suf).any (fun e => q e.key) =
      (pre ++ ⟨x, k, h⟩ :: suf).any (fun e => q e.key) := by
  simp only [List.any_append, List.any_cons]

theorem find_height_irrelevant (q : K → Bool) (pre suf : List (Entry K)) (x : Nat) (k : K)
    (j h : Nat) :
    ((pre ++ ⟨x, k, j⟩ :: suf).find? (fun e => q e.key)).map (fun e => e.idx) =
      ((pre ++ ⟨x, k, h⟩ :: suf).find? (fun e => q e.key)).map (fun e => e.idx) := by
  induction pre with
  | nil =>
    simp only [List.nil_append, List.find?_cons]
    cases q k <;> rfl
  | cons a t ih =>
    simp only [List.cons_append, List.find?_cons]
    cases q a.key
    · exact ih
    · rfl

theorem Rep.chain_lt {compare_ : K → K → Int} {s : SkipList K R} {abs : List (Entry K)}
    (hrep : Rep compare_ s abs) {l y : Nat} (hy : y ∈ head_ :: levelOf l abs) :
    y < s.nodes.length := by
  rcases List.mem_cons.mp hy with h | h
  · rw [h, hrep.size]
    unfold head_
    omega
  · obtain ⟨e, he, _, hidx⟩ := mem_levelOf.mp h
    rw [← hidx]
    exact hrep.idx_lt he

theorem Rep.chain_nodup {compare_ : K → K → Int} {s : SkipList K R} {abs : List (Entry K)}
    (hrep : Rep compare_ s abs) (l : Nat) : (head_ :: levelOf l abs).Nodup := by
  refine List.nodup_cons.mpr ⟨?_, (levelOf_sublist l _).nodup hrep.nodup⟩
  intro h
  obtain ⟨e, he, _, hidx⟩ := mem_levelOf.mp h
  have := (hrep.node e he).1
  unfold head_ at hidx
  omega

theorem linked_of_nextAfter {compare_ : K → K → Int} {s t : SkipList K R}
    {abs pre suf : List (Entry K)} (hrep : Rep compare_ s abs) (hsplit : abs = pre ++ suf)
    (key : K) (h : Nat) (rnd1 : R) (c : Nat)
    (hnext : ∀ y l, t.Next y l =
      nextAfter (NewNode (⟨s.nodes, max s.max_height_ h, rnd1⟩ : SkipList K R) key h).2
        s.nodes.length h (fun l => lastFrom head_ (levelOf l pre))
        (fun l => (levelOf l suf).head?) c y l) :
    ∀ l, l < kMaxHeight → Linked t l head_
      (if l < h ∧ 2 * l + 2 ≤ c then levelOf l pre ++ s.nodes.length :: levelOf l suf
        else levelOf l (pre ++ suf)) := by
  intro l hl
  have hL := hrep.linked l hl
  have hnd := hrep.chain_nodup l
  rw [hsplit, levelOf_append] at hL hnd
  have hlt : ∀ y ∈ head_ :: (levelOf l pre ++ levelOf l suf), y < s.nodes.length := by
    intro y hy
    apply hrep.chain_lt (l := l)
    rw [hsplit, levelOf_append]
    exact hy
  have hpred : lastFrom head_ (levelOf l pre) < s.nodes.length := by
    apply hlt
    have := lastFrom_mem head_ (levelOf l pre)
    rcases List.mem_cons.mp this with h0 | h0
    · rw [h0]; exact List.mem_cons_self _ _
    · exact List.mem_cons_of_mem _ (List.mem_append_left _ h0)
  by_cases hc : l < h ∧ 2 * l + 2 ≤ c
  · rw [if_pos hc]
    apply Linked.insert hL hnd
    · rw [hnext]
      unfold nextAfter
      rw [if_neg (by omega), if_pos ⟨hc.1, rfl, hc.2⟩]
    · rw [hnext]
      unfold nextAfter
      rw [if_pos rfl, if_pos ⟨hc.1, by omega⟩]
    · intro y hy hne
      have := hlt y hy
      rw [hnext]
      unfold nextAfter
      rw [if_neg (by omega), if_neg (fun h0 => hne h0.2.1)]
      exact NewNode_Next _ key h this l
  · rw [if_neg hc, levelOf_append]
    apply Linked.frame _ hL
    intro y hy
    have := hlt y hy
    rw [hnext]
    unfold nextAfter
    rw [if_neg (by omega), if_neg (fun h0 => hc ⟨h0.1, h0.2.2⟩)]
    exact NewNode_Next _ key h this l

theorem searchRep_of_nextAfter {compare_ : K → K → Int} {s t : SkipList K R}
    {abs pre suf : List (Entry K)} (hrep : Rep compare_ s abs) (hsplit : abs = pre ++ suf)
    (key : K) (hpre : ∀ e ∈ pre, compare_ e.key key < 0)
    (hsuf : ∀ e ∈ suf, compare_ key e.key < 0) (h : Nat) (hh1 : 1 ≤ h)
    (hh2 : h ≤ kMaxHeight) (rnd1 : R) (c : Nat) (hc : c ≤ 2 * h)
    (hshape : SameShape t
      (NewNode (⟨s.nodes, max s.max_height_ h, rnd1⟩ : SkipList K R) key h).2)
    (hnext : ∀ y l, t.Next y l =
      nextAfter (NewNode (⟨s.nodes, max s.max_height_ h, rnd1⟩ : SkipList K R) key h).2
        s.nodes.length h (fun l => lastFrom head_ (levelOf l pre))
        (fun l => (levelOf l suf).head?) c y l) :
    (c < 2 → SearchRep compare_ t abs) ∧
    (2 ≤ c → SearchRep compare_ t (pre ++ ⟨s.nodes.length, key, c / 2⟩ :: suf)) := by
  have hlinked := linked_of_nextAfter hrep hsplit key h rnd1 c hnext
  have hmh : t.max_height_ = max s.max_height_ h := hshape.mh
  have hsize : t.nodes.length = s.nodes.length + 1 := by
    rw [hshape.size]
    simp [NewNode]
  have hkey : ∀ e ∈ abs, t.keyAt e.idx = some e.key := by
    intro e he
    have hlt := hrep.idx_lt he
    rw [hshape.key, NewNode_keyAt, if_neg (by show e.idx ≠ s.nodes.length; omega)]
    exact (hrep.node e he).2.2.2.1
  have hpos := hrep.mh_pos
  have hle := hrep.mh_le
  constructor
  · intro hc2
    refine ⟨by rw [hmh]; omega, by rw [hmh]; omega, by rw [hsize, hrep.size]; omega,
      fun e he => ⟨(hrep.node e he).2.1, hkey e he⟩, hrep.sorted, ?_⟩
    intro l hl
    have := hlinked l hl
    rw [if_neg (by omega), ← hsplit] at this
    exact this
  · intro hc2
    have hsorted := hrep.sorted
    rw [hsplit, List.pairwise_append] at hsorted
    refine ⟨by rw [hmh]; omega, by rw [hmh]; omega, ?_, ?_, ?_, ?_⟩
    · rw [hsize]
      have := hrep.size
      rw [hsplit] at this
      simp only [List.length_append, List.length_cons] at this ⊢
      omega
    · intro e he
      rcases List.mem_append.mp he with h1 | h1
      · have hmem : e ∈ abs := by rw [hsplit]; exact List.mem_append_left _ h1
        exact ⟨(hrep.node e hmem).2.1, hkey e hmem⟩
      · rcases List.mem_cons.mp h1 with h2 | h2
        · subst h2
          refine ⟨by show 1 ≤ c / 2; omega, ?_⟩
          rw [hshape.key, NewNode_keyAt, if_pos rfl]
        · have hmem : e ∈ abs := by rw [hsplit]; exact List.mem_append_right _ h2
          exact ⟨(hrep.node e hmem).2.1, hkey e hmem⟩
    · rw [List.pairwise_append]
      refine ⟨hsorted.1, ?_, ?_⟩
      · rw [List.pairwise_cons]
        exact ⟨fun e he => hsuf e he, hsorted.2.1⟩
      · intro a ha b hb
        rcases List.mem_cons.mp hb with h2 | h2
        · subst h2
          exact hpre a ha
        · exact hsorted.2.2 a ha b h2
    · intro l hl
      have := hlinked l hl
      by_cases hlj : l < c / 2
      · rw [if_pos ⟨by omega, by omega⟩] at this
        rw [levelOf_append, levelOf_cons_pos (by exact hlj)]
        exact this
      · rw [if_neg (by omega)] at this
        rw [levelOf_append, levelOf_cons_neg (by exact hlj), ← levelOf_append]
        exact this

theorem NewNode_Next_self (s : SkipList K R) (key : K) (h l : Nat) :
    (s.NewNode key h).2.Next s.nodes.length l = none := by
  unfold NewNode Next
  simp only [List.getElem?_concat_length]
  by_cases hl : l < h
  · simp [List.getElem?_replicate, hl]
  · simp [List.getElem?_replicate, hl]

/-- C16: `Insert` of a key equal to no stored key into a well-formed list, with
its link loop taken as a sequence of single stores (two per level, levels in
ascending order).  After `c` stores, slot `l` of the new node `x` is
initialised exactly when `2 l + 1 <= c` and `prev[l]` points to `x` exactly when
`2 l + 2 <= c`, so `x->next[l]` is set before `x` is published on level `l`.  In
every intermediate state each level is a `nullptr`-terminated chain with
strictly increasing keys, and `Contains` and `FindGreaterOrEqual` (`Seek`)
return the same as on the list before the `Insert` while level `0` is not yet
linked (`c < 2`), and the same as on the list after it from then on. -/
theorem insert_publishes_bottom_up {compare_ : K → K → Int} (hc : LawfulComparator compare_)
    (OneIn : R → Nat → Bool × R) {s : SkipList K R} (hwf : WellFormed compare_ s) (key : K)
    (hfresh : ∀ k ∈ s.storedKeys, compare_ key k ≠ 0) :
    ∃ s3 x prev h states s1,
      insertPrepare compare_ OneIn s key = some (s3, x, prev, h) ∧
      linkTrace s3 x prev h 0 = some states ∧ states.length = 2 * h ∧
      Insert compare_ OneIn s key = some s1 ∧ (s3 :: states).getLast? = some s1 ∧
      ∀ c t, (s3 :: states)[c]? = some t →
        (∀ l, l < h → ((∃ v, t.Next x l = some v) ↔ 2 * l + 1 ≤ c)) ∧
        (∀ l p, l < h → prev[l]? = some (some p) →
          (t.Next p l = some (some x) ↔ 2 * l + 2 ≤ c)) ∧
        (∀ l, l < kMaxHeight → ∃ chain, Linked t l head_ chain ∧
          ChainSorted compare_ t chain) ∧
        (∀ k,
          (c < 2 → t.Contains compare_ k = s.Contains compare_ k ∧
            t.FindGreaterOrEqual compare_ k none = s.FindGreaterOrEqual compare_ k none) ∧
          (2 ≤ c → t.Contains compare_ k = s1.Contains compare_ k ∧
            t.FindGreaterOrEqual compare_ k none = s1.FindGreaterOrEqual compare_ k none) ∧
          (∃ b r, t.Contains compare_ k = some b ∧
            t.FindGreaterOrEqual compare_ k none = some r)) := by
  obtain ⟨abs, hrep⟩ := hwf
  have hne : ∀ e ∈ abs, compare_ key e.key ≠ 0 :=
    fun e he => hfresh e.key ((hrep.stored_iff _).mpr ⟨e, he, rfl⟩)
  obtain ⟨h, rnd1, pre, suf, prev0, prev, hsplit, hpre, hsuf, hfge, hrh, hh1, hh2, hprep,
    hplen, hp0len, hprev, hp0low, hp0high, hsame, hhead⟩ := insertPrepare_spec hc OneIn hrep hne
  have hsufgt : ∀ e ∈ suf, compare_ key e.key < 0 := fun e he =>
    hc.lt_of_not_lt (hsuf e he) (hne e (by rw [hsplit]; exact List.mem_append_right _ he))
  have hlen0 : 0 < s.nodes.length := by rw [hrep.size]; omega
  have hpredlt : ∀ l, lastFrom head_ (levelOf l pre) < s.nodes.length := by
    intro l
    apply hrep.chain_lt (l := l)
    rw [hsplit, levelOf_append]
    have := lastFrom_mem head_ (levelOf l pre)
    rcases List.mem_cons.mp this with h0 | h0
    · rw [h0]; exact List.mem_cons_self _ _
    · exact List.mem_cons_of_mem _ (List.mem_append_left _ h0)
  have hsucc : ∀ l, l < h →
      (NewNode (⟨s.nodes, max s.max_height_ h, rnd1⟩ : SkipList K R) key h).2.Next
        (lastFrom head_ (levelOf l pre)) l = some (levelOf l suf).head? := by
    intro l hl
    rw [NewNode_Next _ key h (by exact hpredlt l) l]
    have := hrep.linked l (by omega)
    rw [hsplit, levelOf_append] at this
    exact this.next_lastFrom
  have hph : ∀ l, l < h → ∃ hp,
      (NewNode (⟨s.nodes, max s.max_height_ h, rnd1⟩ : SkipList K R) key h).2.heightAt
        (lastFrom head_ (levelOf l pre)) = some hp ∧ l < hp := by
    intro l hl
    rw [NewNode_heightAt, if_neg (by
      show lastFrom head_ (levelOf l pre) ≠ s.nodes.length
      have := hpredlt l
      omega)]
    have hmem := lastFrom_mem head_ (levelOf l pre)
    rcases List.mem_cons.mp hmem with h0 | h0
    · rw [h0]
      exact ⟨kMaxHeight, hrep.head, by omega⟩
    · obtain ⟨e, he, hlt, hidx⟩ := mem_levelOf.mp h0
      have hea : e ∈ abs := by rw [hsplit]; exact List.mem_append_left _ he
      rw [← hidx]
      exact ⟨e.height, (hrep.node e hea).2.2.2.2, hlt⟩
  obtain ⟨states, htrace, hslen, hall⟩ := @linkTrace_next K R
    (NewNode (⟨s.nodes, max s.max_height_ h, rnd1⟩ : SkipList K R) key h).2
    s.nodes.length h _ _ _
    hprev (fun l _ => by have := hpredlt l; omega) hsucc
    (by rw [NewNode_heightAt, if_pos rfl]) hph h 0 _ (by omega) (SameShape.refl _)
    (fun y l => (nextAfter_zero _ _ _ _ _ y l).symm)
  -- every state of the sequence, by the number of stores made
  have hstate : ∀ c t,
      ((NewNode (⟨s.nodes, max s.max_height_ h, rnd1⟩ : SkipList K R) key h).2 ::
        states)[c]? = some t →
      c ≤ 2 * h ∧
      SameShape t (NewNode (⟨s.nodes, max s.max_height_ h, rnd1⟩ : SkipList K R) key h).2 ∧
      ∀ y l, t.Next y l =
        nextAfter (NewNode (⟨s.nodes, max s.max_height_ h, rnd1⟩ : SkipList K R) key h).2
          s.nodes.length h (fun l => lastFrom head_ (levelOf l pre))
          (fun l => (levelOf l suf).head?) c y l := by
    intro c t hct
    cases c with
    | zero =>
      simp only [List.getElem?_cons_zero, Option.some.injEq] at hct
      subst hct
      exact ⟨by omega, SameShape.refl _, fun y l => (nextAfter_zero _ _ _ _ _ y l).symm⟩
    | succ m =>
      simp only [List.getElem?_cons_succ] at hct
      have hm : m < 2 * h := by
        have := (List.getElem?_eq_some_iff.mp hct).1
        omega
      obtain ⟨t2, ht2, hshape, hnext⟩ := hall m hm
      rw [hct] at ht2
      cases ht2
      refine ⟨by omega, hshape, ?_⟩
      intro y l
      rw [hnext]
      congr 1
      omega
  -- the final state
  have hlast : ∃ s1, states.getLast? = some s1 := by
    obtain ⟨t, ht, _⟩ := hall (2 * h - 1) (by omega)
    exact ⟨t, by rw [List.getLast?_eq_getElem?, hslen]; exact ht⟩
  obtain ⟨s1, hs1⟩ := hlast
  have hs1idx : ((NewNode (⟨s.nodes, max s.max_height_ h, rnd1⟩ : SkipList K R) key h).2 ::
      states)[2 * h]? = some s1 := by
    rw [List.getLast?_eq_getElem?, hslen] at hs1
    obtain ⟨n, hn⟩ : ∃ n, 2 * h = n + 1 := ⟨2 * h - 1, by omega⟩
    rw [hn, List.getElem?_cons_succ]
    have : n = 2 * h - 1 := by omega
    rw [this]
    exact hs1
  have hins : Insert compare_ OneIn s key = some s1 := by
    rw [Insert_eq_prepare, hprep]
    simp only
    rw [linkLoop_of_trace _ _ _ _ htrace, hs1]
    rfl
  obtain ⟨_, hshape1, hnext1⟩ := hstate _ _ hs1idx
  have hrep1 := (searchRep_of_nextAfter hrep hsplit key hpre hsufgt h hh1 hh2 rnd1 (2 * h)
    (Nat.le_refl _) hshape1 hnext1).2 (by omega)
  rw [Nat.mul_div_cancel_left h (by omega : 0 < 2)] at hrep1
  refine ⟨_, _, prev, h, states, s1, hprep, htrace, hslen, hins, ?_, ?_⟩
  · rw [List.getLast?_cons, hs1]
    rfl
  · intro c t hct
    obtain ⟨hcle, hshape, hnext⟩ := hstate c t hct
    obtain ⟨hrepA, hrepB⟩ := searchRep_of_nextAfter hrep hsplit key hpre hsufgt h hh1 hh2 rnd1
      c hcle hshape hnext
    refine ⟨?_, ?_, ?_, ?_⟩
    · intro l hl
      rw [hnext]
      unfold nextAfter
      rw [if_pos rfl]
      by_cases hcl : 2 * l + 1 ≤ c
      · rw [if_pos ⟨hl, hcl⟩]
        exact ⟨fun _ => hcl, fun _ => ⟨_, rfl⟩⟩
      · rw [if_neg (fun h0 => hcl h0.2), NewNode_Next_self]
        constructor
        · rintro ⟨v, hv⟩
          cases hv
        · intro h0
          exact absurd h0 hcl
    · intro l p hl hp
      rw [hprev l hl] at hp
      simp only [Option.some.injEq] at hp
      subst hp
      have hpl := hpredlt l
      rw [hnext]
      unfold nextAfter
      rw [if_neg (by omega)]
      by_cases hcl : 2 * l + 2 ≤ c
      · rw [if_pos ⟨hl, rfl, hcl⟩]
        exact ⟨fun _ => hcl, fun _ => rfl⟩
      · rw [if_neg (fun h0 => hcl h0.2.2), hsucc l hl]
        constructor
        · intro h0
          exfalso
          simp only [Option.some.injEq] at h0
          have hmem : s.nodes.length ∈ levelOf l suf := List.mem_of_mem_head? h0
          have := hrep.chain_lt (l := l) (y := s.nodes.length) (by
            rw [hsplit, levelOf_append]
            exact List.mem_cons_of_mem _ (List.mem_append_right _ hmem))
          omega
        · intro h0
          exact absurd h0 hcl
    · intro l hl
      by_cases hc2 : c < 2
      · exact ⟨_, (hrepA hc2).linked l hl, (hrepA hc2).chain_sorted l⟩
      · exact ⟨_, (hrepB (by omega)).linked l hl, (hrepB (by omega)).chain_sorted l⟩
    · intro k
      refine ⟨?_, ?_, ?_⟩
      · intro hc2
        have h1 := hrepA hc2
        have h2 := hrep.toSearchRep
        exact ⟨by rw [h1.contains_any hc k, h2.contains_any hc k],
          by rw [h1.seek_find hc k, h2.seek_find hc k]⟩
      · intro hc2
        have h1 := hrepB hc2
        constructor
        · rw [h1.contains_any hc k, hrep1.contains_any hc k]
          exact congrArg some (any_height_irrelevant (fun a => Equal compare_ k a) pre suf
            s.nodes.length key (c / 2) h)
        · rw [h1.seek_find hc k, hrep1.seek_find hc k]
          have := find_height_irrelevant (fun a => decide (¬ compare_ a k < 0)) pre suf
            s.nodes.length key (c / 2) h
          rw [this]
      · by_cases hc2 : c < 2
        · have h1 := hrepA hc2
          exact ⟨_, _, h1.contains_any hc k, h1.seek_find hc k⟩
        · have h1 := hrepB (by omega)
          exact ⟨_, _, h1.contains_any hc k, h1.seek_find hc k⟩

/-- Witness for C16: key `4` inserted into the example list. -/
theorem insert_publishes_bottom_up_witness :
    LawfulComparator intCompare ∧ WellFormed intCompare exampleList ∧
    (∀ k ∈ exampleList.storedKeys, intCompare 4 k ≠ 0) ∧
    ∃ s3 x prev h states s1,
      insertPrepare intCompare listOneIn exampleList 4 = some (s3, x, prev, h) ∧
      linkTrace s3 x prev h 0 = some states ∧ states.length = 2 * h ∧
      Insert intCompare listOneIn exampleList 4 = some s1 ∧
      (s3 :: states).getLast? = some s1 ∧
      ∀ c t, (s3 :: states)[c]? = some t →
        (∀ l, l < h → ((∃ v, t.Next x l = some v) ↔ 2 * l + 1 ≤ c)) ∧
        (∀ l p, l < h → prev[l]? = some (some p) →
          (t.Next p l = some (some x) ↔ 2 * l + 2 ≤ c)) ∧
        (∀ l, l < kMaxHeight → ∃ chain, Linked t l head_ chain ∧
          ChainSorted intCompare t chain) ∧
        (∀ k,
          (c < 2 → t.Contains intCompare k = exampleList.Contains intCompare k ∧
            t.FindGreaterOrEqual intCompare k none =
              exampleList.FindGreaterOrEqual intCompare k none) ∧
          (2 ≤ c → t.Contains intCompare k = s1.Contains intCompare k ∧
            t.FindGreaterOrEqual intCompare k none = s1.FindGreaterOrEqual intCompare k none) ∧
          (∃ b r, t.Contains intCompare k = some b ∧
            t.FindGreaterOrEqual intCompare k none = some r)) :=
  ⟨intCompare_lawful, exampleList_wellFormed, by decide,
    insert_publishes_bottom_up intCompare_lawful listOneIn exampleList_wellFormed 4
      (by decide)⟩

end SkipList

/-! ## Properties of `BuildTable` -/

theorem Status.eq_OK_of_ok {s : Status} (h : s.ok = true) : s = Status.OK := by
  cases s <;> simp [Status.ok] at h ⊢

theorem addLoop_spec : ∀ (entries : List (Slice × Slice)) (key : Slice) (tr : List Event),
    addLoop entries key tr =
      ((entries.getLast?.map Prod.fst).getD key,
        tr ++ entries.map (fun e => Event.Add e.1 e.2)) := by
  intro entries
  induction entries with
  | nil => intro key tr; simp [addLoop]
  | cons e rest ih =>
    intro key tr
    obtain ⟨k, v⟩ := e
    rw [addLoop, ih]
    cases rest with
    | nil => simp
    | cons e2 rest2 =>
      have hx : (e2 :: rest2).getLast? = some ((e2 :: rest2).getLast (List.cons_ne_nil _ _)) :=
        List.getLast?_eq_getLast _ _
      simp [List.getLast?_cons_cons, hx]

theorem addedEntries_append (a b : List Event) :
    addedEntries (a ++ b) = addedEntries a ++ addedEntries b := by
  induction a with
  | nil => rfl
  | cons e t ih => cases e <;> simp [addedEntries, ih]

theorem addedEntries_map (entries : List (Slice × Slice)) :
    addedEntries (entries.map (fun e => Event.Add e.1 e.2)) = entries := by
  induction entries with
  | nil => rfl
  | cons e t ih => simp [addedEntries, ih]

/-- C8: for an input iterator that yields no entries, `BuildTable` returns; it
sets `meta->file_size` to `0`, never calls `NewWritableFile` and creates no
`TableBuilder` (its only call is `RemoveFile` on the table file name), leaves
`meta->smallest`, `meta->largest` and `meta->number` untouched, and returns the
status of the input iterator. -/
theorem build_table_empty_input {IK : Type} (TableFileName : String → Nat → String)
    (DecodeFrom : Slice → IK) (dbname : String) (env : Collaborators) (iter : InputIter)
    (fm : FileMetaData IK) (hempty : iter.entries = []) :
    ∃ r, BuildTable TableFileName DecodeFrom dbname env iter fm = some r ∧
      r.fileMeta.file_size = 0 ∧
      (∀ f, Event.NewWritableFile f ∉ r.trace) ∧ Event.NewTableBuilder ∉ r.trace ∧
      r.trace = [Event.RemoveFile (TableFileName dbname fm.number)] ∧
      r.fileMeta.smallest = fm.smallest ∧ r.fileMeta.largest = fm.largest ∧
      r.fileMeta.number = fm.number ∧
      r.status = iter.status := by
  unfold BuildTable
  simp only [hempty]
  refine ⟨_, rfl, ?_⟩
  unfold buildTail
  simp only [gt_iff_lt, Nat.lt_irrefl, decide_False, Bool.and_false, Bool.false_eq_true,
    if_false, List.nil_append, List.mem_singleton, reduceCtorEq, not_false_eq_true,
    implies_true, true_and]
  cases hs : iter.status.ok with
  | true => simp [Status.eq_OK_of_ok hs]
  | false => simp

/-- Witness for C8: an empty input whose status is an error. -/
theorem build_table_empty_input_witness :
    (⟨[], Status.Corruption "bad block"⟩ : InputIter).entries = [] ∧
    ∃ r, BuildTable exampleFileName id "db" allSucceed ⟨[], Status.Corruption "bad block"⟩
        ⟨7, 55, [1], [2]⟩ = some r ∧
      r.fileMeta.file_size = 0 ∧
      (∀ f, Event.NewWritableFile f ∉ r.trace) ∧ Event.NewTableBuilder ∉ r.trace ∧
      r.trace = [Event.RemoveFile (exampleFileName "db" 7)] ∧
      r.fileMeta.smallest = [1] ∧ r.fileMeta.largest = [2] ∧
      r.fileMeta.number = 7 ∧
      r.status = Status.Corruption "bad block" :=
  ⟨rfl, build_table_empty_input exampleFileName id "db" allSucceed
    ⟨[], Status.Corruption "bad block"⟩ ⟨7, 55, [1], [2]⟩ rfl⟩

theorem buildTail_eq {IK : Type} (fname : String) (iter : InputIter) (s : Status)
    (fm : FileMetaData IK) (tr : List Event) :
    buildTail fname iter s fm tr =
      ⟨if iter.status.ok then s else iter.status, fm,
        tr ++ (if ((if iter.status.ok then s else iter.status).ok && decide (fm.file_size > 0))
          then [] else [Event.RemoveFile fname])⟩ := by
  unfold buildTail
  cases iter.status.ok <;> simp only [Bool.not_false, Bool.not_true, if_true, if_false,
    Bool.false_eq_true] <;> split <;> simp

theorem buildTail_trace {IK : Type} (fname : String) (iter : InputIter) (s : Status)
    (fm : FileMetaData IK) (tr : List Event) :
    ∃ rest, (buildTail fname iter s fm tr).trace = tr ++ rest ∧ addedEntries rest = [] := by
  rw [buildTail_eq]
  refine ⟨_, rfl, ?_⟩
  split_ifs <;> rfl

theorem buildTail_removes {IK : Type} (fname : String) (iter : InputIter) (s : Status)
    (fm : FileMetaData IK) (tr : List Event)
    (h : (buildTail fname iter s fm tr).status.ok = false) :
    (buildTail fname iter s fm tr).trace = tr ++ [Event.RemoveFile fname] := by
  rw [buildTail_eq] at h ⊢
  simp only at h
  simp only [h, Bool.false_and, Bool.false_eq_true, if_false]

/-- C9, counterexample: a single entry with an empty key.  Every step succeeds
and the entry is added, but `meta->largest` keeps its old value `[2]` rather
than becoming the last key yielded, which is empty. -/
theorem build_table_largest_counterexample :
    ∃ r, BuildTable exampleFileName id "db" allSucceed ⟨[([], [9])], Status.OK⟩
        ⟨7, 55, [1], [2]⟩ = some r ∧
      r.status = Status.OK ∧ addedEntries r.trace = [([], [9])] ∧
      ([([], [9])] : List (Slice × Slice)).getLast?.map Prod.fst = some [] ∧
      r.fileMeta.largest ≠ id [] :=
  ⟨_, rfl, rfl, rfl, rfl, by decide⟩

theorem BuildTable_after_finish {IK : Type} (TableFileName : String → Nat → String)
    (DecodeFrom : Slice → IK) (dbname : String) (env : Collaborators) (iter : InputIter)
    (fm : FileMetaData IK) (k0 v0 kl vl : Slice) (rest0 : List (Slice × Slice))
    (hent : iter.entries = (k0, v0) :: rest0)
    (hkl : ((k0, v0) :: rest0).getLast? = some (kl, vl))
    (hnew : env.newWritableFile.ok = true) (hfin : env.finish.ok = true)
    (hsize : 0 < env.fileSize) :
    ∃ s6 post, BuildTable TableFileName DecodeFrom dbname env iter fm =
        some (buildTail (TableFileName dbname fm.number) iter s6
          ⟨fm.number, env.fileSize, DecodeFrom k0,
            if kl = [] then fm.largest else DecodeFrom kl⟩
          (Event.NewWritableFile (TableFileName dbname fm.number) :: Event.NewTableBuilder ::
            (iter.entries.map (fun e => Event.Add e.1 e.2) ++ Event.Finish :: post))) ∧
      addedEntries post = [] := by
  have hfm : ∀ (a b : FileMetaData IK), (if kl = [] then a else b).number =
      if kl = [] then a.number else b.number := by
    intro a b
    split <;> rfl
  unfold BuildTable
  simp only [hent, hnew, Bool.not_true, Bool.false_eq_true, if_false, addLoop_spec, hkl,
    Option.map_some', Option.getD_some, hfin, if_true, gt_iff_lt, hsize]
  by_cases hkle : kl = []
  · subst hkle
    cases hs : env.sync.ok with
    | false =>
      exact ⟨env.sync, [Event.Sync], by simp [hs], rfl⟩
    | true =>
      cases hc : env.close.ok with
      | false => exact ⟨env.close, [Event.Sync, Event.Close], by simp [hs, hc], rfl⟩
      | true =>
        exact ⟨env.verify fm.number env.fileSize,
          [Event.Sync, Event.Close, Event.NewIterator fm.number env.fileSize],
          by simp [hs, hc], rfl⟩
  · have hemp : kl.isEmpty = false := by
      cases kl with
      | nil => exact absurd rfl hkle
      | cons a t => rfl
    cases hs : env.sync.ok with
    | false =>
      exact ⟨env.sync, [Event.Sync], by simp [hs, hemp, hkle], rfl⟩
    | true =>
      cases hc : env.close.ok with
      | false =>
        exact ⟨env.close, [Event.Sync, Event.Close], by simp [hs, hc, hemp, hkle], rfl⟩
      | true =>
        exact ⟨env.verify fm.number env.fileSize,
          [Event.Sync, Event.Close, Event.NewIterator fm.number env.fileSize],
          by simp [hs, hc, hemp, hkle], rfl⟩

/-- C9, amended: for a non-empty input on which `NewWritableFile` and `Finish`
succeed and `FileSize()` is positive (as the code asserts), `BuildTable`
returns; it passes every entry to `TableBuilder::Add` exactly once, in iterator
order, between creating the builder and `Finish`; it sets `meta->smallest` to
the first key, `meta->file_size` to `FileSize()`, and `meta->largest` to the
last key when that key is not empty, leaving `meta->largest` untouched when it
is empty. -/
theorem build_table_adds_all {IK : Type} (TableFileName : String → Nat → String)
    (DecodeFrom : Slice → IK) (dbname : String) (env : Collaborators) (iter : InputIter)
    (fm : FileMetaData IK) (hne : iter.entries ≠ [])
    (hnew : env.newWritableFile.ok = true) (hfin : env.finish.ok = true)
    (hsize : 0 < env.fileSize) :
    ∃ r rest, BuildTable TableFileName DecodeFrom dbname env iter fm = some r ∧
      r.trace = Event.NewWritableFile (TableFileName dbname fm.number) ::
        Event.NewTableBuilder ::
        (iter.entries.map (fun e => Event.Add e.1 e.2) ++ Event.Finish :: rest) ∧
      addedEntries rest = [] ∧
      addedEntries r.trace = iter.entries ∧
      (∀ k0, iter.entries.head?.map Prod.fst = some k0 → r.fileMeta.smallest = DecodeFrom k0) ∧
      (∀ kl, iter.entries.getLast?.map Prod.fst = some kl →
        (kl ≠ [] → r.fileMeta.largest = DecodeFrom kl) ∧
        (kl = [] → r.fileMeta.largest = fm.largest)) ∧
      r.fileMeta.file_size = env.fileSize ∧
      r.fileMeta.number = fm.number := by
  cases hent : iter.entries with
  | nil => exact absurd hent hne
  | cons e0 rest0 =>
    obtain ⟨k0, v0⟩ := e0
    have hlast : ∃ kl vl, ((k0, v0) :: rest0).getLast? = some (kl, vl) :=
      ⟨_, _, List.getLast?_eq_getLast _ (List.cons_ne_nil _ _)⟩
    obtain ⟨kl, vl, hkl⟩ := hlast
    obtain ⟨s6, post, hbt, hpost⟩ := BuildTable_after_finish TableFileName DecodeFrom dbname
      env iter fm k0 v0 kl vl rest0 hent hkl hnew hfin hsize
    obtain ⟨rest, hrest, hadd⟩ := buildTail_trace (TableFileName dbname fm.number) iter s6
      (⟨fm.number, env.fileSize, DecodeFrom k0,
        if kl = [] then fm.largest else DecodeFrom kl⟩ : FileMetaData IK)
      (Event.NewWritableFile (TableFileName dbname fm.number) :: Event.NewTableBuilder ::
        (iter.entries.map (fun e => Event.Add e.1 e.2) ++ Event.Finish :: post))
    refine ⟨_, post ++ rest, hbt, ?_, ?_, ?_, ?_, ?_, ?_, ?_⟩
    · rw [hrest]
      simp [hent]
    · rw [addedEntries_append, hpost, hadd]
      rfl
    · rw [hrest]
      have h1 : ∀ l, addedEntries (Event.NewWritableFile (TableFileName dbname fm.number) ::
          Event.NewTableBuilder :: l) = addedEntries l := fun _ => rfl
      have h2 : ∀ l, addedEntries (Event.Finish :: l) = addedEntries l := fun _ => rfl
      rw [addedEntries_append, h1, addedEntries_append, addedEntries_map, h2, hpost, hadd]
      simp [hent]
    · intro k hk
      rw [buildTail_eq]
      simp only [List.head?_cons, Option.map_some', Option.some.injEq] at hk
      rw [← hk]
    · intro k hk
      rw [hkl] at hk
      simp only [Option.map_some', Option.some.injEq] at hk
      subst hk
      rw [buildTail_eq]
      constructor
      · intro h
        simp only [h, if_false]
      · intro h
        simp only [h, if_true]
    · rw [buildTail_eq]
    · rw [buildTail_eq]

/-- Witness for C9: two entries, every step succeeding. -/
theorem build_table_adds_all_witness :
    (⟨[([1], [10]), ([2], [20])], Status.OK⟩ : InputIter).entries ≠ [] ∧
    allSucceed.newWritableFile.ok = true ∧ allSucceed.finish.ok = true ∧
    0 < allSucceed.fileSize ∧
    ∃ r rest, BuildTable exampleFileName id "db" allSucceed
        ⟨[([1], [10]), ([2], [20])], Status.OK⟩ ⟨7, 55, [], []⟩ = some r ∧
      r.trace = Event.NewWritableFile (exampleFileName "db" 7) ::
        Event.NewTableBuilder ::
        (([([1], [10]), ([2], [20])] : List (Slice × Slice)).map
          (fun e => Event.Add e.1 e.2) ++ Event.Finish :: rest) ∧
      addedEntries rest = [] ∧
      addedEntries r.trace = [([1], [10]), ([2], [20])] ∧
      (∀ k0, ([([1], [10]), ([2], [20])] : List (Slice × Slice)).head?.map Prod.fst = some k0 →
        r.fileMeta.smallest = id k0) ∧
      (∀ kl, ([([1], [10]), ([2], [20])] : List (Slice × Slice)).getLast?.map Prod.fst
          = some kl →
        (kl ≠ [] → r.fileMeta.largest = id kl) ∧
        (kl = [] → r.fileMeta.largest = [])) ∧
      r.fileMeta.file_size = allSucceed.fileSize ∧
      r.fileMeta.number = 7 :=
  ⟨by decide, rfl, rfl, by decide,
    build_table_adds_all exampleFileName id "db" allSucceed
      ⟨[([1], [10]), ([2], [20])], Status.OK⟩ ⟨7, 55, [], []⟩ (by decide) rfl rfl
      (by decide)⟩

/-- C10, counterexample: when `NewWritableFile` fails on a non-empty input,
`BuildTable` returns that non-OK status and `RemoveFile` has not been called. -/
theorem build_table_no_remove_counterexample :
    ∃ r, BuildTable exampleFileName id "db" cannotCreate ⟨[([1], [10])], Status.OK⟩
        ⟨7, 55, [], []⟩ = some r ∧
      r.status.ok = false ∧ r.status = Status.IOError "cannot create file" ∧
      r.trace = [Event.NewWritableFile (exampleFileName "db" 7)] ∧
      Event.RemoveFile (exampleFileName "db" 7) ∉ r.trace :=
  ⟨_, rfl, rfl, rfl, rfl, by decide⟩

/-- C10, amended: in every execution in which `BuildTable` returns a non-OK
status after `NewWritableFile` succeeded, or on an empty input, the last call
before returning is `env->RemoveFile` on the table file name derived from
`meta->number`.  When `NewWritableFile` itself fails, `BuildTable` returns that
status at once, having made no other call. -/
theorem build_table_removes_on_error {IK : Type} (TableFileName : String → Nat → String)
    (DecodeFrom : Slice → IK) (dbname : String) (env : Collaborators) (iter : InputIter)
    (fm : FileMetaData IK) (r : BuildResult IK)
    (hr : BuildTable TableFileName DecodeFrom dbname env iter fm = some r)
    (hbad : r.status.ok = false) :
    ((iter.entries = [] ∨ env.newWritableFile.ok = true) →
      r.trace.getLast? = some (Event.RemoveFile (TableFileName dbname fm.number))) ∧
    ((iter.entries ≠ [] ∧ env.newWritableFile.ok = false) →
      r.status = env.newWritableFile ∧
      r.trace = [Event.NewWritableFile (TableFileName dbname fm.number)]) := by
  have htail : ∀ (s : Status) (fm1 : FileMetaData IK) (tr : List Event),
      r = buildTail (TableFileName dbname fm.number) iter s fm1 tr →
      r.trace.getLast? = some (Event.RemoveFile (TableFileName dbname fm.number)) := by
    intro s fm1 tr h
    subst h
    rw [buildTail_removes _ _ _ _ _ hbad]
    simp
  unfold BuildTable at hr
  cases hent : iter.entries with
  | nil =>
    simp only [hent, Option.some.injEq] at hr
    refine ⟨fun _ => htail _ _ _ hr.symm, ?_⟩
    rintro ⟨h, _⟩
    exact absurd rfl h
  | cons e0 rest0 =>
    obtain ⟨k0, v0⟩ := e0
    simp only [hent] at hr
    cases hnew : env.newWritableFile.ok with
    | false =>
      simp only [hnew, Bool.not_false, if_true, Option.some.injEq] at hr
      subst hr
      refine ⟨?_, fun _ => ⟨rfl, rfl⟩⟩
      rintro (h | h)
      · cases h
      · cases h
    | true =>
      refine ⟨fun _ => ?_, ?_⟩
      · simp only [hnew, Bool.not_true, Bool.false_eq_true, if_false] at hr
        split at hr
        · cases hr
        · simp only [Option.some.injEq] at hr
          exact htail _ _ _ hr.symm
      · rintro ⟨_, h⟩
        cases h

/-- Witness for C10: `Sync` fails after the table was written. -/
theorem build_table_removes_on_error_witness :
    ∃ r, BuildTable exampleFileName id "db" cannotSync ⟨[([1], [10])], Status.OK⟩
        ⟨7, 55, [], []⟩ = some r ∧ r.status.ok = false ∧
      (((⟨[([1], [10])], Status.OK⟩ : InputIter).entries = [] ∨
          cannotSync.newWritableFile.ok = true) →
        r.trace.getLast? = some (Event.RemoveFile (exampleFileName "db" 7))) ∧
      (((⟨[([1], [10])], Status.OK⟩ : InputIter).entries ≠ [] ∧
          cannotSync.newWritableFile.ok = false) →
        r.status = cannotSync.newWritableFile ∧
        r.trace = [Event.NewWritableFile (exampleFileName "db" 7)]) :=
  ⟨_, rfl, rfl,
    build_table_removes_on_error exampleFileName id "db" cannotSync
      ⟨[([1], [10])], Status.OK⟩ ⟨7, 55, [], []⟩ _ rfl rfl⟩

theorem finishSteps_append (a b : List Event) :
    finishSteps (a ++ b) = finishSteps a ++ finishSteps b := by
  induction a with
  | nil => rfl
  | cons e t ih => cases e <;> simp [finishSteps, ih]

theorem finishSteps_adds (entries : List (Slice × Slice)) :
    finishSteps (entries.map (fun e => Event.Add e.1 e.2)) = [] := by
  induction entries with
  | nil => rfl
  | cons e t ih => simp [finishSteps, ih]

theorem BuildTable_of_created {IK : Type} (TableFileName : String → Nat → String)
    (DecodeFrom : Slice → IK) (dbname : String) (env : Collaborators) (iter : InputIter)
    (fm : FileMetaData IK) (hne : iter.entries ≠ [])
    (hnew : env.newWritableFile.ok = true) (hsize : env.finish.ok = true → 0 < env.fileSize) :
    ∃ (s6 : Status) (fm3 : FileMetaData IK) (post : List Event),
      BuildTable TableFileName DecodeFrom dbname env iter fm =
        some (buildTail (TableFileName dbname fm.number) iter s6 fm3
          (Event.NewWritableFile (TableFileName dbname fm.number) :: Event.NewTableBuilder ::
            (iter.entries.map (fun e => Event.Add e.1 e.2) ++ post))) ∧
      fm3.number = fm.number ∧
      fm3.file_size = (if env.finish.ok then env.fileSize else 0) ∧
      s6 = (if env.finish.ok then
          (if env.sync.ok then
            (if env.close.ok then env.verify fm.number env.fileSize else env.close)
          else env.sync)
        else env.finish) ∧
      post = Event.Finish :: (if env.finish.ok then
          Event.Sync :: (if env.sync.ok then
            Event.Close :: (if env.close.ok then
              [Event.NewIterator fm.number env.fileSize] else [])
            else [])
          else []) := by
  cases hent : iter.entries with
  | nil => exact absurd hent hne
  | cons e0 rest0 =>
    obtain ⟨k0, v0⟩ := e0
    have hlast : ∃ kl vl, ((k0, v0) :: rest0).getLast? = some (kl, vl) :=
      ⟨_, _, List.getLast?_eq_getLast _ (List.cons_ne_nil _ _)⟩
    obtain ⟨kl, vl, hkl⟩ := hlast
    unfold BuildTable
    simp only [hent, hnew, Bool.not_true, Bool.false_eq_true, if_false, addLoop_spec, hkl,
      Option.map_some', Option.getD_some, gt_iff_lt]
    cases hf : env.finish.ok with
    | false =>
      refine ⟨env.finish, ⟨fm.number, 0, DecodeFrom k0,
        if kl.isEmpty = true then fm.largest else DecodeFrom kl⟩, [Event.Finish],
        ?_, rfl, by simp, by simp, by simp⟩
      cases hk : kl.isEmpty <;> simp [hf]
    | true =>
      have hs0 := hsize hf
      cases hs : env.sync.ok with
      | false =>
        refine ⟨env.sync, ⟨fm.number, env.fileSize, DecodeFrom k0,
          if kl.isEmpty = true then fm.largest else DecodeFrom kl⟩,
          [Event.Finish, Event.Sync], ?_, rfl, by simp, by simp, by simp⟩
        cases hk : kl.isEmpty <;> simp [hf, hs0, hs]
      | true =>
        cases hc : env.close.ok with
        | false =>
          refine ⟨env.close, ⟨fm.number, env.fileSize, DecodeFrom k0,
            if kl.isEmpty = true then fm.largest else DecodeFrom kl⟩,
            [Event.Finish, Event.Sync, Event.Close], ?_, rfl, by simp, by simp, by simp⟩
          cases hk : kl.isEmpty <;> simp [hf, hs0, hs, hc]
        | true =>
          refine ⟨env.verify fm.number env.fileSize, ⟨fm.number, env.fileSize, DecodeFrom k0,
            if kl.isEmpty = true then fm.largest else DecodeFrom kl⟩,
            [Event.Finish, Event.Sync, Event.Close, Event.NewIterator fm.number env.fileSize],
            ?_, rfl, by simp, by simp, by simp⟩
          cases hk : kl.isEmpty <;> simp [hf, hs0, hs, hc]

/-- C11: for a non-empty input whose table file could be created, `BuildTable`
returns, and its calls `Finish`, `Sync`, `Close` and `NewIterator` occur in that
order, each one only if all earlier ones succeeded.  When `Finish`, `Sync` and
`Close` all succeed the table is verified with `NewIterator(meta->number,
meta->file_size)`; the status of that iterator becomes `s`, so it is the
returned status unless the input iterator reports an error, and a non-OK
verification status makes `BuildTable` return non-OK after calling
`RemoveFile` on the table file. -/
theorem build_table_verifies {IK : Type} (TableFileName : String → Nat → String)
    (DecodeFrom : Slice → IK) (dbname : String) (env : Collaborators) (iter : InputIter)
    (fm : FileMetaData IK) (hne : iter.entries ≠ [])
    (hnew : env.newWritableFile.ok = true) (hsize : env.finish.ok = true → 0 < env.fileSize) :
    ∃ r, BuildTable TableFileName DecodeFrom dbname env iter fm = some r ∧
      finishSteps r.trace = Event.Finish :: (if env.finish.ok then
          Event.Sync :: (if env.sync.ok then
            Event.Close :: (if env.close.ok then
              [Event.NewIterator fm.number env.fileSize] else [])
            else [])
          else []) ∧
      (env.finish.ok = true → env.sync.ok = true → env.close.ok = true →
        r.fileMeta.number = fm.number ∧ r.fileMeta.file_size = env.fileSize ∧
        Event.NewIterator r.fileMeta.number r.fileMeta.file_size ∈ r.trace ∧
        r.status = (if iter.status.ok then env.verify fm.number env.fileSize
          else iter.status) ∧
        ((env.verify fm.number env.fileSize).ok = false →
          r.status.ok = false ∧
          r.trace.getLast? = some (Event.RemoveFile (TableFileName dbname fm.number)))) := by
  obtain ⟨s6, fm3, post, hbt, hnum, hfs, hs6, hpost⟩ :=
    BuildTable_of_created TableFileName DecodeFrom dbname env iter fm hne hnew hsize
  refine ⟨_, hbt, ?_, ?_⟩
  · rw [buildTail_eq]
    have h1 : ∀ l, finishSteps (Event.NewWritableFile (TableFileName dbname fm.number) ::
        Event.NewTableBuilder :: l) = finishSteps l := fun _ => rfl
    have h2 : finishSteps post = post := by
      rw [hpost]
      cases env.finish.ok <;> cases env.sync.ok <;> cases env.close.ok <;> rfl
    have h3 : ∀ c : Bool, finishSteps
        (if c then [] else [Event.RemoveFile (TableFileName dbname fm.number)]) = [] := by
      intro c
      cases c <;> rfl
    simp only [finishSteps_append, h1, finishSteps_adds, List.nil_append, h2, h3,
      List.append_nil]
    exact hpost
  · intro hf hs hc
    simp only [hf, hs, hc, if_true] at hfs hs6 hpost
    rw [buildTail_eq]
    simp only
    refine ⟨hnum, hfs, ?_, by rw [hs6], ?_⟩
    · rw [hnum, hfs, hpost]
      simp
    · intro hv
      have hbad : (if iter.status.ok = true then s6 else iter.status).ok = false := by
        cases hi : iter.status.ok with
        | true => simp only [if_true]; rw [hs6]; exact hv
        | false => simp only [Bool.false_eq_true, if_false]; exact hi
      refine ⟨hbad, ?_⟩
      have key : ∀ (l : List Event) (a : Event), (l ++ [a]).getLast? = some a := by
        intro l a
        simp
      simpa [hbad] using key (Event.NewWritableFile (TableFileName dbname fm.number) ::
        Event.NewTableBuilder :: (iter.entries.map (fun e => Event.Add e.1 e.2) ++ post))
        (Event.RemoveFile (TableFileName dbname fm.number))

/-- Witness for C11: every step succeeds but the verification fails. -/
theorem build_table_verifies_witness :
    (⟨[([1], [10])], Status.OK⟩ : InputIter).entries ≠ [] ∧
    cannotVerify.newWritableFile.ok = true ∧
    (cannotVerify.finish.ok = true → 0 < cannotVerify.fileSize) ∧
    ∃ r, BuildTable exampleFileName id "db" cannotVerify ⟨[([1], [10])], Status.OK⟩
        ⟨7, 55, [], []⟩ = some r ∧
      finishSteps r.trace = Event.Finish :: (if cannotVerify.finish.ok then
          Event.Sync :: (if cannotVerify.sync.ok then
            Event.Close :: (if cannotVerify.close.ok then
              [Event.NewIterator 7 cannotVerify.fileSize] else [])
            else [])
          else []) ∧
      (cannotVerify.finish.ok = true → cannotVerify.sync.ok = true →
        cannotVerify.close.ok = true →
        r.fileMeta.number = 7 ∧ r.fileMeta.file_size = cannotVerify.fileSize ∧
        Event.NewIterator r.fileMeta.number r.fileMeta.file_size ∈ r.trace ∧
        r.status = (if (Status.OK).ok then cannotVerify.verify 7 cannotVerify.fileSize
          else Status.OK) ∧
        ((cannotVerify.verify 7 cannotVerify.fileSize).ok = false →
          r.status.ok = false ∧
          r.trace.getLast? = some (Event.RemoveFile (exampleFileName "db" 7)))) :=
  ⟨by decide, rfl, fun _ => by decide,
    build_table_verifies exampleFileName id "db" cannotVerify
      ⟨[([1], [10])], Status.OK⟩ ⟨7, 55, [], []⟩ (by decide) rfl (fun _ => by decide)⟩

end leveldb
